import Mathlib

/-!
# LogCompressor: a shallow embedding of `LogCompressor::run`

The development embeds the log compressor of `src/LogCompressor.cc` and proves properties
of it.

* A `QString` is a Lean `String` (a sequence of Unicode characters), a `QStringList` a
  `List String`, a `quint64` a `Nat` (the values of `toULongLong` are below `2 ^ 64`), and
  the `int` column indices are `Nat` (they are 0 or count up from 1 to at most 15000).
* A `QMap` is a list of key/value pairs kept in strictly ascending key order.  The order of
  `QString` keys is that of the UTF-16 code units, as in Qt.
* An out-of-range `QList::at` or `QList::replace` ends the run; the embedding returns
  `none` there.
* The input file is the list of the lines that `QTextStream::readLine` hands out, in order;
  both passes read the same lines (`in.seek(0)`).  The output file is the header line and
  the list of rows (lists of cells) written; `written` joins the rows to lines.
* `QString::split`, `QString::replace`, `QString::toULongLong`, `QStringList::join` and
  `QString::arg` are Qt library functions; they are written out here as Qt documents them.
* The object around the run is a `State` (the member variables); `runThread` is the whole
  of `LogCompressor::run` on it.  The file system enters as parameters: the absolute path of
  the input file, the function `QFileInfo(name).absoluteFilePath()` that resolves a file
  name to an absolute path, the lines of the input file when it can be opened, and whether a
  file of a given name can be opened for writing.  The signals emitted are listed in order;
  a status message is recorded by its kind and argument, its text being subject to
  translation.
-/

namespace LogCompressor

/-! ## Qt containers and strings -/

/-- The `QList::at(i)` accessor: the element at index `i`, `none` when `i` is out of range. -/
def QList.at {α : Type} (l : List α) (i : Nat) : Option α :=
  l[i]?

/-- The `QList::replace(i, v)` operation: the list with element `i` replaced, `none` when `i` is
out of range. -/
def QList.replace {α : Type} (l : List α) (i : Nat) (v : α) : Option (List α) :=
  if i < l.length then some (l.set i v) else none

/-- The UTF-16 code units of a character, as a `QString` stores it: one unit below
U+10000, a surrogate pair from there on. -/
def utf16 (c : Char) : List Nat :=
  if c.toNat < 0x10000 then [c.toNat]
  else [0xD800 + (c.toNat - 0x10000) / 0x400, 0xDC00 + (c.toNat - 0x10000) % 0x400]

/-- The UTF-16 code units of a string. -/
def utf16Units : List Char → List Nat
  | [] => []
  | c :: s => utf16 c ++ utf16Units s

/-- Lexicographic comparison of two sequences of code units. -/
def lexLess : List Nat → List Nat → Bool
  | _, [] => false
  | [], _ :: _ => true
  | a :: s, b :: t => if a < b then true else if b < a then false else lexLess s t

/-- The `operator<` of `QString`, the key order of a `QMap<QString, int>`: lexicographic
comparison of the UTF-16 code units. -/
def qstringLess (a b : String) : Bool :=
  lexLess (utf16Units a.data) (utf16Units b.data)

/-- The `operator<` of `quint64`, the key order of a `QMap<quint64, QStringList>`. -/
def quint64Less (a b : Nat) : Bool :=
  decide (a < b)

/-- The `QMap::insert(key, value)` operation on an association list kept in ascending key
order of `lt`: an existing entry with an equivalent key (neither smaller nor larger) has its
value replaced. -/
def QMap.insert {κ ν : Type} (lt : κ → κ → Bool) (k : κ) (v : ν) :
    List (κ × ν) → List (κ × ν)
  | [] => [(k, v)]
  | (k', v') :: m =>
    if lt k k' then (k, v) :: (k', v') :: m
    else if lt k' k then (k', v') :: QMap.insert lt k v m
    else (k, v) :: m

/-- The `QMap::value(key)` lookup: the stored value, or the default-constructed value `dflt`
when the key is absent. -/
def QMap.value {κ ν : Type} (lt : κ → κ → Bool) (m : List (κ × ν)) (k : κ) (dflt : ν) : ν :=
  match m with
  | [] => dflt
  | (k', v') :: m => if lt k k' || lt k' k then QMap.value lt m k dflt else v'

/-- The `QMap::contains(key)` test. -/
def QMap.contains {κ ν : Type} (lt : κ → κ → Bool) (m : List (κ × ν)) (k : κ) : Bool :=
  match m with
  | [] => false
  | (k', _) :: m => if lt k k' || lt k' k then QMap.contains lt m k else true

/-- The `QMap::keys()` list, in ascending key order. -/
def QMap.keys {κ ν : Type} (m : List (κ × ν)) : List κ :=
  m.map Prod.fst

/-- The `QMap::values()` list, in ascending key order. -/
def QMap.values {κ ν : Type} (m : List (κ × ν)) : List ν :=
  m.map Prod.snd

/-- Scanning loop of `QString::split` for a non-empty separator: `skip` counts the characters
of a separator occurrence that are still to be passed over, `cur` holds the current token
reversed. -/
def splitGo (sep : List Char) : Nat → List Char → List Char → List (List Char)
  | _, cur, [] => [cur.reverse]
  | skip + 1, cur, _ :: s => splitGo sep skip cur s
  | 0, cur, c :: s =>
    if sep.isPrefixOf (c :: s) then cur.reverse :: splitGo sep (sep.length - 1) [] s
    else splitGo sep 0 (c :: cur) s

/-- The `QString::split(sep)` function with the default `KeepEmptyParts`.  An empty separator
yields an empty token, then every character as a token, then an empty token. -/
def split (sep : String) (s : String) : List String :=
  if sep.data = [] then "" :: s.data.map (fun c => String.mk [c]) ++ [""]
  else (splitGo sep.data 0 [] s.data).map String.mk

/-- The `QStringList::join(sep)` function. -/
def join (sep : String) : List String → String
  | [] => ""
  | [a] => a
  | a :: b :: l => a ++ sep ++ join sep (b :: l)

/-- Scanning loop of `QString::replace(before, after)` for a non-empty `before`: occurrences
are found left to right without overlap; `skip` counts the characters of a found occurrence
that are still to be passed over. -/
def replaceGo (before after : List Char) : Nat → List Char → List Char
  | _, [] => []
  | skip + 1, _ :: s => replaceGo before after skip s
  | 0, c :: s =>
    if before.isPrefixOf (c :: s) then after ++ replaceGo before after (before.length - 1) s
    else c :: replaceGo before after 0 s

/-- The `QString::replace(before, after)` function for a non-empty `before`. -/
def replace (s before after : String) : String :=
  String.mk (replaceGo before.data after.data 0 s.data)

/-- The `QChar::isSpace` test, the whitespace the number parser skips: U+0020, U+0009 to
U+000D, U+0085, U+00A0 and the characters of the Unicode separator categories. -/
def isSpace (c : Char) : Bool :=
  c.toNat = 0x20 || (0x09 ≤ c.toNat && c.toNat ≤ 0x0D) || c.toNat = 0x85 || c.toNat = 0xA0 ||
    c.toNat = 0x1680 || (0x2000 ≤ c.toNat && c.toNat ≤ 0x200A) || c.toNat = 0x2028 ||
    c.toNat = 0x2029 || c.toNat = 0x202F || c.toNat = 0x205F || c.toNat = 0x3000

/-- The value of a run of decimal digits (most significant first, `acc` the value read so
far); `none` when a character is not a decimal digit. -/
def parseDigits : List Char → Nat → Option Nat
  | [], acc => some acc
  | c :: cs, acc => if c.isDigit then parseDigits cs (acc * 10 + (c.toNat - 48)) else none

/-- The number read by `QString::toULongLong()` in base 10, `none` when the conversion fails:
surrounding whitespace is ignored, an optional `+` may precede the digits, there is at least
one digit and nothing else, and the value fits into 64 bits. -/
def parseULongLong (s : String) : Option Nat :=
  let t := ((s.data.dropWhile isSpace).reverse.dropWhile isSpace).reverse
  let t := match t with
    | '+' :: r => r
    | _ => t
  match t with
  | [] => none
  | _ :: _ =>
    match parseDigits t 0 with
    | some n => if n < 2 ^ 64 then some n else none
    | none => none

/-- The `QString::toULongLong()` function as the source calls it (no `ok` pointer, base 10):
the parsed number, and `0` when the conversion fails. -/
def toULongLong (s : String) : Nat :=
  (parseULongLong s).getD 0

/-- The string `QString("%1").arg(n)` for a `quint64`: the decimal rendering of `n`. -/
def arg (n : Nat) : String :=
  Nat.repr n

/-! ## The phases of `LogCompressor::run` -/

/-- The bound `keySearchLimit` on the number of lines read by the key search. -/
def keySearchLimit : Nat := 15000

/-- The key search loop (source lines 95-99, `while (!in.atEnd() && keyCounter <
keySearchLimit)`): the field name at token index 2 of each line read is inserted into
`messageMap` with value 0.  The first argument lists the lines not yet read. -/
def keySearch (delimiter : String) :
    List String → Nat → List (String × Nat) → Option (List (String × Nat))
  | [], _, messageMap => some messageMap
  | line :: rest, keyCounter, messageMap =>
    if keyCounter < keySearchLimit then
      match QList.at (split delimiter line) 2 with
      | none => none
      | some messageName =>
        keySearch delimiter rest (keyCounter + 1) (QMap.insert qstringLess messageName 0 messageMap)
    else some messageMap

/-- The index update loop (source lines 103-107, `for (i = messageMap.begin(), j = 1; ...;
++i, ++j) i.value() = j`): the entries, in key order, get the values `j`, `j + 1`, ... -/
def updateKeys : List (String × Nat) → Nat → List (String × Nat)
  | [], _ => []
  | (k, _) :: m, j => (k, j) :: updateKeys m (j + 1)

/-- The header line (source lines 112-117): `"timestamp_ms" + delimiter +
headerList.join(delimiter) + "\n"` after the four `replace` calls. -/
def headerLine (delimiter : String) (headerList : List String) : String :=
  let headerLine := "timestamp_ms" ++ delimiter ++ join delimiter headerList ++ "\n"
  let headerLine := replace headerLine "timestamp" "TIMESTAMP"
  let headerLine := replace headerLine ":" ""
  let headerLine := replace headerLine "_" ""
  replace headerLine "." ""

/-- The template row (source lines 123-126): `headerList.size() + 1` cells, each `"NaN"` when
hole filling is enabled and `""` otherwise. -/
def templateList (holeFillingEnabled : Bool) (headerList : List String) : List String :=
  List.replicate (headerList.length + 1) (if holeFillingEnabled then "NaN" else "")

/-- The loop over the whole file that fills the map of timestamps (source lines 146-161):
each line creates the row of its timestamp from the template if it is not there yet, and
replaces the cell at `messageMap.value(name)` (0 for an unknown name) by the value token. -/
def fillTimestampMap (delimiter : String) (messageMap : List (String × Nat))
    (templateList : List String) :
    List String → List (Nat × List String) → Option (List (Nat × List String))
  | [], timestampMap => some timestampMap
  | line :: rest, timestampMap =>
    let newLine := split delimiter line
    match QList.at newLine 0 with
    | none => none
    | some first =>
      let timestamp := toULongLong first
      let timestampMap :=
        if QMap.contains quint64Less timestampMap timestamp then timestampMap
        else QMap.insert quint64Less timestamp templateList timestampMap
      let list := QMap.value quint64Less timestampMap timestamp []
      match QList.at newLine 2, QList.at newLine 3 with
      | some currentDataName, some currentDataValue =>
        match QList.replace list (QMap.value qstringLess messageMap currentDataName 0)
            currentDataValue with
        | none => none
        | some list =>
          fillTimestampMap delimiter messageMap templateList rest
            (QMap.insert quint64Less timestamp list timestampMap)
      | _, _ => none

/-- The hole filling loop (source lines 177-183, `foreach (QString str, list)`): the loop
runs over a copy of the row, `index` counts its cells, and a cell of the copy that is `""`
or `"NaN"` makes the cell of `list` at `index` take the value of `lastList` at `index`. -/
def fillHoles (lastList : List String) : List String → Nat → List String → Option (List String)
  | [], _, list => some list
  | str :: rest, index, list =>
    if str = "" ∨ str = "NaN" then
      match QList.at lastList index with
      | none => none
      | some v =>
        match QList.replace list index v with
        | none => none
        | some list => fillHoles lastList rest (index + 1) list
    else fillHoles lastList rest (index + 1) list

/-- The loop over `timestampMap.values()` that writes the rows (source lines 167-194): rows
with `lineCounter` 0 and 1 are passed over; a later row gets its timestamp in cell 0, has
its holes filled from `lastList` when hole filling is enabled, becomes the new `lastList`
and is written.  The result lists the rows written, in order. -/
def writeRows (holeFillingEnabled : Bool) (keys : List Nat) :
    List (List String) → Nat → List String → Option (List (List String))
  | [], _, _ => some []
  | list :: rest, lineCounter, lastList =>
    if lineCounter > 1 then
      match QList.at keys lineCounter with
      | none => none
      | some key =>
        match QList.replace list 0 (arg key) with
        | none => none
        | some list =>
          match (if holeFillingEnabled then fillHoles lastList list 0 list else some list) with
          | none => none
          | some list =>
            match writeRows holeFillingEnabled keys rest (lineCounter + 1) list with
            | none => none
            | some rows => some (list :: rows)
    else writeRows holeFillingEnabled keys rest (lineCounter + 1) lastList

/-- The schema of a run: the `messageMap` after the key search and the index update (source
lines 90-107). -/
def discover (delimiter : String) (lines : List String) : Option (List (String × Nat)) :=
  match keySearch delimiter lines 0 [] with
  | none => none
  | some messageMap => some (updateKeys messageMap 1)

/-- The map of timestamps of a run, after the loop over the whole file (source lines
90-161). -/
def pivot (holeFillingEnabled : Bool) (delimiter : String) (lines : List String) :
    Option (List (Nat × List String)) :=
  match discover delimiter lines with
  | none => none
  | some messageMap =>
    fillTimestampMap delimiter messageMap
      (templateList holeFillingEnabled (QMap.keys messageMap)) lines []

/-- The body of `LogCompressor::run` once both files are open (source lines 90-194), on the
lines of the input file: the header line and the rows (lists of cells) written to the
output file, in order; `none` when a list access is out of range. -/
def run (holeFillingEnabled : Bool) (delimiter : String) (lines : List String) :
    Option (String × List (List String)) :=
  match discover delimiter lines with
  | none => none
  | some messageMap =>
    let headerList := QMap.keys messageMap
    let header := headerLine delimiter headerList
    let templateList := templateList holeFillingEnabled headerList
    match fillTimestampMap delimiter messageMap templateList lines [] with
    | none => none
    | some timestampMap =>
      match QList.at (QMap.values timestampMap) 1 with
      | none => none
      | some lastList =>
        match writeRows holeFillingEnabled (QMap.keys timestampMap)
            (QMap.values timestampMap) 0 lastList with
        | none => none
        | some rows => some (header, rows)

/-- The text written to the output file by a completed run: the header line, then each row
as `list.join(delimiter) + "\n"`. -/
def written (holeFillingEnabled : Bool) (delimiter : String) (lines : List String) :
    Option (List String) :=
  match run holeFillingEnabled delimiter lines with
  | none => none
  | some (header, rows) => some (header :: rows.map (fun list => join delimiter list ++ "\n"))

/-! ## The output file name and the object around the run -/

/-- The `QString::split(sep, SkipEmptyParts)` function: the tokens of `split` that are not
empty. -/
def splitSkipEmpty (sep : String) (s : String) : List String :=
  (split sep s).filter (fun t => t ≠ "")

/-- The output file name (source lines 67-77) computed from the absolute path of the input
file: the path is split at `.` without empty parts, `_compressed` is appended to the first
part (`parts.first()` needs a part), the last part is replaced by `txt`, and the parts are
joined by `.` again. -/
def outFileName (absoluteFilePath : String) : Option String :=
  let parts := splitSkipEmpty "." absoluteFilePath
  match QList.at parts 0 with
  | none => none
  | some first =>
    match QList.replace parts 0 (first ++ "_compressed") with
    | none => none
    | some parts =>
      match QList.replace parts (parts.length - 1) "txt" with
      | none => none
      | some parts => some (join "." parts)

/-- The member variables of a `LogCompressor` object. -/
structure State where
  /-- Name of the input file. -/
  logFileName : String
  /-- The member `outFileName` (the run computes its own name). -/
  outFileName : String
  /-- True from construction on; the completed run sets it to false. -/
  running : Bool
  /-- Progress counter. -/
  currentDataLine : Nat
  /-- The delimiter. -/
  delimiter : String
  /-- Whether holes are filled. -/
  holeFillingEnabled : Bool

/-- The status messages of the run, by kind; the text shown to the user is the translation
of a fixed sentence around the argument. -/
inductive Status where
  /-- The sentence "Cannot start/compress log file, since input file ... is not readable". -/
  | inputNotReadable (absoluteFilePath : String)
  /-- The sentence "Cannot start/compress log file, since output file ... is not writable". -/
  | outputNotWritable (absoluteFilePath : String)
  /-- The sentence "Dataset contains dimensions: " followed by the header line. -/
  | datasetDimensions (headerLine : String)
  /-- The sentence "Writing output to file ...". -/
  | writingOutput (absoluteFilePath : String)
  /-- The sentence "Finished processing file: ...". -/
  | finishedProcessing (fileName : String)
  deriving DecidableEq

/-- The signals a `LogCompressor` emits. -/
inductive Signal where
  /-- The signal `logProcessingStatusChanged(QString)`. -/
  | logProcessingStatusChanged (status : Status)
  /-- The signal `finishedFile(QString)`, the completion event. -/
  | finishedFile (fileName : String)
  deriving DecidableEq

/-- The constructor `LogCompressor::LogCompressor` (source lines 46-54). -/
def State.init (logFileName outFileName delimiter : String) : State :=
  { logFileName := logFileName
    outFileName := outFileName
    running := true
    currentDataLine := 0
    delimiter := delimiter
    holeFillingEnabled := true }

/-- The state change of `LogCompressor::startCompression` (source lines 212-216); the call
of `start()` then runs `runThread`. -/
def startCompression (self : State) (holeFilling : Bool) : State :=
  { self with holeFillingEnabled := holeFilling }

/-- The `LogCompressor::isFinished` function (source lines 218-221). -/
def isFinished (self : State) : Bool :=
  !self.running

/-- The `LogCompressor::getCurrentLine` function (source lines 223-226). -/
def getCurrentLine (self : State) : Nat :=
  self.currentDataLine

/-- The function `LogCompressor::run` as a whole (source lines 56-206), on the object and
the file system: `absoluteFilePath` is `QFileInfo(infile.fileName()).absoluteFilePath()`, the
absolute path of the input file, `absolute name` is `QFileInfo(name).absoluteFilePath()` for
any other file name (the name itself when it is absolute, and resolved against the working
directory otherwise), `infile` is the lines of the input file (`none` when the file does not
exist or cannot be opened), `outWritable` tells whether a file of the given name can be
opened for writing.  The result is the object afterwards, the signals emitted in order, and
the output file (name and text written) when it was opened; `none` when a list access is
out of range.  The two diagnostics and the message "Writing output to file" carry an absolute
path (lines 61, 82, 199); the message "Finished processing file" and the signal
`finishedFile` carry `outFileName` as computed (lines 203, 204). -/
def runThread (self : State) (absoluteFilePath : String) (absolute : String → String)
    (infile : Option (List String)) (outWritable : String → Bool) :
    Option (State × List Signal × Option (String × List String)) :=
  match infile with
  | none =>
    some (self,
      [Signal.logProcessingStatusChanged (Status.inputNotReadable absoluteFilePath)], none)
  | some lines =>
    match outFileName absoluteFilePath with
    | none => none
    | some outFileName =>
      if !outWritable outFileName then
        some (self,
          [Signal.logProcessingStatusChanged (Status.outputNotWritable (absolute outFileName))],
          none)
      else
        match run self.holeFillingEnabled self.delimiter lines with
        | none => none
        | some (header, rows) =>
          some ({ self with currentDataLine := 0, running := false },
            [Signal.logProcessingStatusChanged (Status.datasetDimensions header),
              Signal.logProcessingStatusChanged (Status.writingOutput (absolute outFileName)),
              Signal.logProcessingStatusChanged (Status.finishedProcessing outFileName),
              Signal.finishedFile outFileName],
            some (outFileName,
              header :: rows.map (fun list => join self.delimiter list ++ "\n")))

/-! ## Auxiliary notions used in the statements -/

/-- A comparison `lt` is a strict total order: the requirement of `QMap` on `operator<`. -/
structure StrictTotal {κ : Type} (lt : κ → κ → Bool) : Prop where
  irrefl : ∀ a, lt a a = false
  trans : ∀ a b c, lt a b = true → lt b c = true → lt a c = true
  total : ∀ a b, lt a b = false → lt b a = false → a = b

/-- Token `i` of a line, the empty string when the line has no such token. -/
def tokenAt (delimiter line : String) (i : Nat) : String :=
  (split delimiter line).getD i ""

/-- The timestamp a line is filed under: `toULongLong` of its token 0. -/
def timestampOf (delimiter line : String) : Nat :=
  toULongLong (tokenAt delimiter line 0)

/-- The field name of a line: its token 2. -/
def nameOf (delimiter line : String) : String :=
  tokenAt delimiter line 2

/-- The value of a line: its token 3. -/
def valueOf (delimiter line : String) : String :=
  tokenAt delimiter line 3

/-- The row held for timestamp `t`, the template when the map has no row for `t`. -/
def rowOr (timestampMap : List (Nat × List String)) (templateList : List String) (t : Nat) :
    List String :=
  if QMap.contains quint64Less timestampMap t then QMap.value quint64Less timestampMap t []
  else templateList

/-- The cell writes of the lines filed under timestamp `t`, applied in input order to the
row `init`. -/
def pivotRow (delimiter : String) (messageMap : List (String × Nat)) (t : Nat)
    (init : List String) (lines : List String) : List String :=
  lines.foldl (fun row l =>
    if timestampOf delimiter l = t then
      row.set (QMap.value qstringLess messageMap (nameOf delimiter l) 0) (valueOf delimiter l)
    else row) init

/-- The distinct timestamps of the input in strictly ascending order. -/
def sortedTimestamps (delimiter : String) (lines : List String) : List Nat :=
  ((lines.map (timestampOf delimiter)).toFinset).sort (fun a b => a ≤ b)

/-- The value token of the last line with timestamp `t` and field name `f`, the empty string
when there is no such line. -/
def lastValue (delimiter : String) (lines : List String) (t : Nat) (f : String) : String :=
  match lines.reverse.find? (fun l => timestampOf delimiter l = t ∧ nameOf delimiter l = f) with
  | some l => valueOf delimiter l
  | none => ""

/-- The cell written for a cell `s` of the row when the cell of the same column of
`lastList` is `p` and hole filling is enabled. -/
def fillCell (s p : String) : String :=
  if s = "" ∨ s = "NaN" then p else s

/-- The row written for `list` when the previous row is `lastList`. -/
def fillRow (holeFillingEnabled : Bool) (lastList list : List String) : List String :=
  if holeFillingEnabled then List.zipWith fillCell list lastList else list

/-- The rows written for the entries of the map of timestamps from position `lineCounter`
on, `lastList` being the previous row. -/
def emitRows (holeFillingEnabled : Bool) :
    Nat → List String → List (Nat × List String) → List (List String)
  | _, _, [] => []
  | lineCounter, lastList, (key, list) :: rest =>
    if lineCounter > 1 then
      fillRow holeFillingEnabled lastList (list.set 0 (arg key)) ::
        emitRows holeFillingEnabled (lineCounter + 1)
          (fillRow holeFillingEnabled lastList (list.set 0 (arg key))) rest
    else emitRows holeFillingEnabled (lineCounter + 1) lastList rest

/-- The map of timestamps after the pivot pass, for the schema `messageMap`: one row per
distinct timestamp, in ascending order. -/
def pivotTable (holeFillingEnabled : Bool) (delimiter : String)
    (messageMap : List (String × Nat)) (lines : List String) : List (Nat × List String) :=
  (sortedTimestamps delimiter lines).map (fun t =>
    (t, pivotRow delimiter messageMap t
      (templateList holeFillingEnabled (QMap.keys messageMap)) lines))

/-- A cell is a hole for the hole filling: it is `""` or `"NaN"`. -/
def isHole (s : String) : Bool :=
  decide (s = "" ∨ s = "NaN")

/-- Cell `c` of row `i` of a list of rows, the empty string when there is no such cell. -/
def cellOf (rows : List (List String)) (i c : Nat) : String :=
  (rows.getD i []).getD c ""

/-- The input of Scenario A: three lines, two distinct timestamps. -/
def scenarioA : List String :=
  ["1,_,alt,10", "1,_,spd,5", "2,_,alt,11"]

/-- Two lines agree on what the run reads of a line: the number `toULongLong` makes of
token 0, token 2 and token 3 (each possibly absent). -/
def lineEquiv (delimiter : String) (l l' : String) : Prop :=
  ((split delimiter l)[0]?).map toULongLong = ((split delimiter l')[0]?).map toULongLong ∧
    (split delimiter l)[2]? = (split delimiter l')[2]? ∧
    (split delimiter l)[3]? = (split delimiter l')[3]?

/-- The loop that fills the map of timestamps as it would be if a line whose field name is
not in `messageMap` only created the row of its timestamp and wrote no cell.  The list
accesses of the line are the same as in `fillTimestampMap`. -/
def fillTimestampMapDropping (delimiter : String) (messageMap : List (String × Nat))
    (templateList : List String) :
    List String → List (Nat × List String) → Option (List (Nat × List String))
  | [], timestampMap => some timestampMap
  | line :: rest, timestampMap =>
    let newLine := split delimiter line
    match QList.at newLine 0 with
    | none => none
    | some first =>
      let timestamp := toULongLong first
      let timestampMap :=
        if QMap.contains quint64Less timestampMap timestamp then timestampMap
        else QMap.insert quint64Less timestamp templateList timestampMap
      let list := QMap.value quint64Less timestampMap timestamp []
      match QList.at newLine 2, QList.at newLine 3 with
      | some currentDataName, some currentDataValue =>
        if QMap.contains qstringLess messageMap currentDataName then
          match QList.replace list (QMap.value qstringLess messageMap currentDataName 0)
              currentDataValue with
          | none => none
          | some list =>
            fillTimestampMapDropping delimiter messageMap templateList rest
              (QMap.insert quint64Less timestamp list timestampMap)
        else fillTimestampMapDropping delimiter messageMap templateList rest timestampMap
      | _, _ => none

/-- The run as it would be if a line whose field name is not in the schema only created the
row of its timestamp and wrote no cell: `run` with `fillTimestampMapDropping` as the pivot
pass. -/
def runDropping (holeFillingEnabled : Bool) (delimiter : String) (lines : List String) :
    Option (String × List (List String)) :=
  match discover delimiter lines with
  | none => none
  | some messageMap =>
    let headerList := QMap.keys messageMap
    let header := headerLine delimiter headerList
    let templateList := templateList holeFillingEnabled headerList
    match fillTimestampMapDropping delimiter messageMap templateList lines [] with
    | none => none
    | some timestampMap =>
      match QList.at (QMap.values timestampMap) 1 with
      | none => none
      | some lastList =>
        match writeRows holeFillingEnabled (QMap.keys timestampMap)
            (QMap.values timestampMap) 0 lastList with
        | none => none
        | some rows => some (header, rows)

/-- Two rows agree from cell 1 on and have the same number of cells. -/
def rowRel (l l' : List String) : Prop :=
  l.length = l'.length ∧ l.tail = l'.tail

/-- Two maps of timestamps have the same keys and rows that are not empty and agree from
cell 1 on. -/
def tableRel (tm tm' : List (Nat × List String)) : Prop :=
  List.Forall₂ (fun e e' => e.1 = e'.1 ∧ rowRel e.2 e'.2 ∧ e.2 ≠ []) tm tm'

/-- Two lines agree on what the run reads of a line when lines of fields outside
`messageMap` write no cell: as `lineEquiv`, but the value tokens of two such lines need not
be equal, only both present or both absent. -/
def lineEquivDropping (delimiter : String) (messageMap : List (String × Nat))
    (l l' : String) : Prop :=
  ((split delimiter l)[0]?).map toULongLong = ((split delimiter l')[0]?).map toULongLong ∧
    (split delimiter l)[2]? = (split delimiter l')[2]? ∧
    ((split delimiter l)[3]?).isSome = ((split delimiter l')[3]?).isSome ∧
    ∀ name, (split delimiter l)[2]? = some name →
      QMap.contains qstringLess messageMap name = true →
      (split delimiter l)[3]? = (split delimiter l')[3]?

/-- The text `s` with `ins` inserted immediately before its first `.`; a text without a
`.` stays as it is. -/
def insertBeforeFirstDot (ins : List Char) : List Char → List Char
  | [] => []
  | c :: s => if c = '.' then ins ++ c :: s else c :: insertBeforeFirstDot ins s

/-- The text `s` with the text after its last `.` replaced by `ext`; a text without a `.`
stays as it is. -/
def replaceAfterLastDot (ext s : List Char) : List Char :=
  if '.' ∈ s then (s.reverse.dropWhile (fun c => c != '.')).reverse ++ ext else s

/-- The output file name as the specification words it: the input path with `_compressed`
inserted immediately before its first `.` and with the text after its last `.` replaced by
`txt`. -/
def specOutFileName (absoluteFilePath : String) : String :=
  String.mk (replaceAfterLastDot "txt".data
    (insertBeforeFirstDot "_compressed".data absoluteFilePath.data))

/-- The characters that the header line keeps: all but `:`, `_` and `.`. -/
def keptInHeader (x : Char) : Bool :=
  decide (x ≠ ':' ∧ x ≠ '_' ∧ x ≠ '.')

/-- A stretch of text that is not `timestamp` and reads `timestamp` once the characters
`:`, `_`, `.` are deleted from it: it begins with `t`, ends with `p`, and has one or more of
the three characters in between, as `time_stamp` has. -/
def brokenTimestamp (w : List Char) : Prop :=
  w.head? = some 't' ∧ w.getLast? = some 'p' ∧ w ≠ "timestamp".data ∧
    w.filter keptInHeader = "timestamp".data

end LogCompressor

namespace LogCompressor

/-! ## The key orders are strict total orders -/

theorem lexLess_irrefl (s : List Nat) : lexLess s s = false := by
  induction s with
  | nil => rfl
  | cons a s ih => simp [lexLess, ih]

theorem lexLess_trans : ∀ (s t u : List Nat),
    lexLess s t = true → lexLess t u = true → lexLess s u = true
  | _, [], _, h, _ => by cases ‹List Nat› <;> simp [lexLess] at h
  | _, _ :: _, [], _, h => by simp [lexLess] at h
  | [], _ :: _, _ :: _, _, _ => by simp [lexLess]
  | a :: s, b :: t, c :: u, h₁, h₂ => by
    simp only [lexLess] at h₁ h₂ ⊢
    by_cases hab : a < b
    · by_cases hbc : b < c
      · have : a < c := by omega
        simp [this]
      · simp only [hbc, if_false] at h₂
        by_cases hcb : c < b
        · simp [hcb] at h₂
        · have : a < c := by omega
          simp [this]
    · simp only [hab, if_false] at h₁
      by_cases hba : b < a
      · simp [hba] at h₁
      · simp only [hba, if_false] at h₁
        by_cases hbc : b < c
        · have : a < c := by omega
          simp [this]
        · simp only [hbc, if_false] at h₂
          by_cases hcb : c < b
          · simp [hcb] at h₂
          · simp only [hcb, if_false] at h₂
            have h1 : ¬ a < c := by omega
            have h2 : ¬ c < a := by omega
            simp only [h1, h2, if_false]
            exact lexLess_trans s t u h₁ h₂

theorem lexLess_total : ∀ (s t : List Nat),
    lexLess s t = false → lexLess t s = false → s = t
  | [], [], _, _ => rfl
  | [], _ :: _, h, _ => by simp [lexLess] at h
  | _ :: _, [], _, h => by simp [lexLess] at h
  | a :: s, b :: t, h₁, h₂ => by
    simp only [lexLess] at h₁ h₂
    by_cases hab : a < b
    · simp [hab] at h₁
    · by_cases hba : b < a
      · simp [hba] at h₂
      · simp only [hab, hba, if_false] at h₁ h₂
        have : a = b := by omega
        rw [this, lexLess_total s t h₁ h₂]

theorem char_eq_of_toNat_eq {a b : Char} (h : a.toNat = b.toNat) : a = b := by
  apply Char.ext
  apply UInt32.ext
  exact h

theorem char_toNat_valid (c : Char) :
    c.toNat < 0xD800 ∨ (0xDFFF < c.toNat ∧ c.toNat < 0x110000) :=
  c.valid

/-- A character is determined by its code units, whatever follows them. -/
theorem utf16_append_inj (c c' : Char) (s s' : List Nat)
    (h : utf16 c ++ s = utf16 c' ++ s') : c = c' ∧ s = s' := by
  have hc := char_toNat_valid c
  have hc' := char_toNat_valid c'
  unfold utf16 at h
  by_cases h₁ : c.toNat < 0x10000
  · by_cases h₂ : c'.toNat < 0x10000
    · simp only [h₁, h₂, if_true, List.singleton_append, List.cons.injEq] at h
      exact ⟨char_eq_of_toNat_eq h.1, h.2⟩
    · simp only [h₁, h₂, if_true, if_false, List.singleton_append, List.cons_append,
        List.cons.injEq] at h
      omega
  · by_cases h₂ : c'.toNat < 0x10000
    · simp only [h₁, h₂, if_true, if_false, List.singleton_append, List.cons_append,
        List.cons.injEq] at h
      omega
    · simp only [h₁, h₂, if_false, List.cons_append, List.nil_append, List.cons.injEq] at h
      exact ⟨char_eq_of_toNat_eq (by omega), h.2.2⟩

theorem utf16_ne_nil (c : Char) (s : List Nat) : utf16 c ++ s ≠ [] := by
  unfold utf16
  split <;> simp

theorem utf16Units_inj : ∀ (s t : List Char), utf16Units s = utf16Units t → s = t
  | [], [], _ => rfl
  | [], c :: t, h => absurd h.symm (utf16_ne_nil c _)
  | c :: s, [], h => absurd h (utf16_ne_nil c _)
  | c :: s, c' :: t, h => by
    obtain ⟨h₁, h₂⟩ := utf16_append_inj c c' _ _ h
    rw [h₁, utf16Units_inj s t h₂]

theorem qstringLess_strictTotal : StrictTotal qstringLess where
  irrefl _ := lexLess_irrefl _
  trans _ _ _ := lexLess_trans _ _ _
  total _ _ h₁ h₂ := String.ext (utf16Units_inj _ _ (lexLess_total _ _ h₁ h₂))

theorem quint64Less_strictTotal : StrictTotal quint64Less where
  irrefl a := by simp [quint64Less]
  trans a b c := by simp only [quint64Less, decide_eq_true_eq]; omega
  total a b := by simp only [quint64Less, decide_eq_false_iff_not]; omega

/-! ## Lemmas on `QMap` -/

/-- The keys of an association list are in strictly ascending order of `lt`. -/
theorem QMap.lt_ne {κ : Type} {lt : κ → κ → Bool} (h : StrictTotal lt) {a b : κ}
    (hab : lt a b = true) : a ≠ b := by
  intro e
  subst e
  rw [h.irrefl] at hab
  cases hab

theorem QMap.mem_keys_insert {κ ν : Type} {lt : κ → κ → Bool} (h : StrictTotal lt)
    (k : κ) (v : ν) (m : List (κ × ν)) (k' : κ) :
    k' ∈ QMap.keys (QMap.insert lt k v m) ↔ k' = k ∨ k' ∈ QMap.keys m := by
  induction m with
  | nil => simp [QMap.insert, QMap.keys]
  | cons e m ih =>
    obtain ⟨k₁, v₁⟩ := e
    simp only [QMap.insert]
    by_cases h₁ : lt k k₁ = true
    · simp [h₁, QMap.keys]
    · by_cases h₂ : lt k₁ k = true
      · simp only [h₁, h₂, if_true, if_false, Bool.false_eq_true]
        simp only [QMap.keys, List.map_cons, List.mem_cons] at ih ⊢
        rw [ih]
        tauto
      · have e : k₁ = k := h.total _ _ (by simpa using h₂) (by simpa using h₁)
        subst e
        simp [h₁, QMap.keys]

theorem QMap.sorted_insert {κ ν : Type} {lt : κ → κ → Bool} (h : StrictTotal lt)
    (k : κ) (v : ν) (m : List (κ × ν))
    (hm : (QMap.keys m).Pairwise (fun a b => lt a b = true)) :
    (QMap.keys (QMap.insert lt k v m)).Pairwise (fun a b => lt a b = true) := by
  induction m with
  | nil => simp [QMap.insert, QMap.keys]
  | cons e m ih =>
    obtain ⟨k₁, v₁⟩ := e
    simp only [QMap.keys, List.map_cons, List.pairwise_cons] at hm
    simp only [QMap.insert]
    by_cases h₁ : lt k k₁ = true
    · simp only [h₁, if_true, QMap.keys, List.map_cons, List.pairwise_cons, List.mem_cons]
      refine ⟨?_, hm⟩
      rintro a (rfl | ha)
      · exact h₁
      · exact h.trans _ _ _ h₁ (hm.1 a ha)
    · by_cases h₂ : lt k₁ k = true
      · simp only [h₁, h₂, if_true, if_false, Bool.false_eq_true]
        have ih' := ih hm.2
        simp only [QMap.keys, List.map_cons, List.pairwise_cons]
        refine ⟨?_, ih'⟩
        intro a ha
        have ha' := (QMap.mem_keys_insert h k v m a).1 ha
        rcases ha' with rfl | ha'
        · exact h₂
        · exact hm.1 a ha'
      · have e : k₁ = k := h.total _ _ (by simpa using h₂) (by simpa using h₁)
        subst e
        simp only [h₁, if_false, Bool.false_eq_true, QMap.keys, List.map_cons, List.pairwise_cons]
        exact hm

theorem QMap.value_insert {κ ν : Type} [DecidableEq κ] {lt : κ → κ → Bool}
    (h : StrictTotal lt) (k : κ) (v : ν) (m : List (κ × ν)) (k' : κ) (d : ν) :
    QMap.value lt (QMap.insert lt k v m) k' d = if k' = k then v else QMap.value lt m k' d := by
  have key : ∀ a b : κ, (lt a b || lt b a) = true ↔ a ≠ b := by
    intro a b
    constructor
    · intro hab e
      subst e
      simp [h.irrefl] at hab
    · intro hne
      by_contra hc
      simp only [Bool.or_eq_true, not_or, Bool.not_eq_true] at hc
      exact hne (h.total _ _ hc.1 hc.2)
  induction m with
  | nil =>
    by_cases e : k' = k
    · subst e; simp [QMap.insert, QMap.value, h.irrefl]
    · simp [QMap.insert, QMap.value, e, (key k' k).2 e]
  | cons e m ih =>
    obtain ⟨k₁, v₁⟩ := e
    simp only [QMap.insert]
    by_cases h₁ : lt k k₁ = true
    · simp only [h₁, if_true]
      by_cases e : k' = k
      · subst e; simp [QMap.value, h.irrefl]
      · rw [if_neg e]
        conv_lhs => unfold QMap.value
        simp only [(key k' k).2 e, if_true]
    · by_cases h₂ : lt k₁ k = true
      · simp only [h₁, h₂, if_true, if_false, Bool.false_eq_true]
        unfold QMap.value
        by_cases e₁ : k' = k₁
        · subst e₁
          have : k' ≠ k := QMap.lt_ne h h₂
          simp [h.irrefl, this]
        · simp only [(key k' k₁).2 e₁, if_true]
          exact ih
      · have e : k₁ = k := h.total _ _ (by simpa using h₂) (by simpa using h₁)
        subst e
        simp only [h₁, if_false, Bool.false_eq_true]
        unfold QMap.value
        by_cases e₁ : k' = k₁
        · subst e₁; simp [h.irrefl]
        · simp [(key k' k₁).2 e₁, e₁]

theorem QMap.contains_iff {κ ν : Type} {lt : κ → κ → Bool} (h : StrictTotal lt)
    (m : List (κ × ν)) (k : κ) :
    QMap.contains lt m k = true ↔ k ∈ QMap.keys m := by
  induction m with
  | nil => simp [QMap.contains, QMap.keys]
  | cons e m ih =>
    obtain ⟨k₁, v₁⟩ := e
    unfold QMap.contains
    simp only [QMap.keys, List.map_cons, List.mem_cons] at ih ⊢
    by_cases hc : (lt k k₁ || lt k₁ k) = true
    · have hne : k ≠ k₁ := by
        intro e; subst e; simp [h.irrefl] at hc
      simp only [hc, if_true, ih, hne, false_or]
    · simp only [hc]
      simp only [Bool.or_eq_true, not_or, Bool.not_eq_true] at hc
      have := h.total _ _ hc.1 hc.2
      simp [this]

theorem QMap.value_of_not_mem {κ ν : Type} {lt : κ → κ → Bool} (h : StrictTotal lt)
    (m : List (κ × ν)) (k : κ) (d : ν) (hk : k ∉ QMap.keys m) :
    QMap.value lt m k d = d := by
  induction m with
  | nil => rfl
  | cons e m ih =>
    obtain ⟨k₁, v₁⟩ := e
    simp only [QMap.keys, List.map_cons, List.mem_cons, not_or] at hk ih
    unfold QMap.value
    have hc : (lt k k₁ || lt k₁ k) = true := by
      by_contra hc
      simp only [Bool.or_eq_true, not_or, Bool.not_eq_true] at hc
      exact hk.1 (h.total _ _ hc.1 hc.2)
    simp only [hc, if_true]
    exact ih hk.2

theorem QMap.eq_map_keys {κ ν : Type} {lt : κ → κ → Bool} (h : StrictTotal lt)
    (m : List (κ × ν)) (d : ν)
    (hm : (QMap.keys m).Pairwise (fun a b => lt a b = true)) :
    m = (QMap.keys m).map (fun k => (k, QMap.value lt m k d)) := by
  induction m with
  | nil => rfl
  | cons e m ih =>
    obtain ⟨k₁, v₁⟩ := e
    simp only [QMap.keys, List.map_cons, List.pairwise_cons] at hm
    simp only [QMap.keys, List.map_cons, List.map_map]
    congr 1
    · simp [QMap.value, h.irrefl]
    · conv_lhs => rw [ih hm.2]
      simp only [QMap.keys, List.map_map]
      apply List.map_congr_left
      intro e he
      have hlt : lt k₁ e.1 = true := hm.1 e.1 (List.mem_map_of_mem _ he)
      simp [QMap.value, hlt]

/-! ## Schema discovery -/

theorem tokenAt_of_getElem? {d l : String} {i : Nat} {t : String}
    (h : (split d l)[i]? = some t) : tokenAt d l i = t := by
  simp [tokenAt, List.getD, h]

theorem getElem?_split_of_lt {d l : String} {i : Nat} (h : i < (split d l).length) :
    (split d l)[i]? = some (tokenAt d l i) := by
  simp [tokenAt, List.getD, List.getElem?_eq_getElem h]

theorem keySearch_spec (d : String) : ∀ (lines : List String) (kc : Nat) (mm : List (String × Nat)),
    (∀ l ∈ lines.take (keySearchLimit - kc), 3 ≤ (split d l).length) →
    (QMap.keys mm).Pairwise (fun a b => qstringLess a b = true) →
    ∃ mm', keySearch d lines kc mm = some mm' ∧
      (QMap.keys mm').Pairwise (fun a b => qstringLess a b = true) ∧
      ∀ n, n ∈ QMap.keys mm' ↔
        n ∈ QMap.keys mm ∨ n ∈ (lines.take (keySearchLimit - kc)).map (nameOf d)
  | [], kc, mm, _, hs => ⟨mm, rfl, hs, by simp⟩
  | l :: rest, kc, mm, h3, hs => by
    unfold keySearch
    by_cases hk : kc < keySearchLimit
    · obtain ⟨j, hj⟩ : ∃ j, keySearchLimit - kc = j + 1 := ⟨keySearchLimit - kc - 1, by omega⟩
      rw [hj] at h3 ⊢
      simp only [List.take_succ_cons, List.mem_cons, forall_eq_or_imp] at h3
      have hl : (split d l)[2]? = some (nameOf d l) := getElem?_split_of_lt (by omega)
      simp only [hk, if_true, QList.at, hl]
      have hj' : keySearchLimit - (kc + 1) = j := by omega
      obtain ⟨mm', h₁, h₂, h₃⟩ := keySearch_spec d rest (kc + 1)
        (QMap.insert qstringLess (nameOf d l) 0 mm) (by rw [hj']; exact h3.2)
        (QMap.sorted_insert qstringLess_strictTotal _ _ _ hs)
      refine ⟨mm', h₁, h₂, ?_⟩
      intro n
      rw [h₃, QMap.mem_keys_insert qstringLess_strictTotal, hj']
      simp only [List.take_succ_cons, List.map_cons, List.mem_cons]
      tauto
    · have : keySearchLimit - kc = 0 := by omega
      simp only [hk, if_false, this, List.take_zero, List.map_nil, List.not_mem_nil, or_false]
      exact ⟨mm, rfl, hs, fun _ => Iff.rfl⟩

theorem keySearch_fail (d : String) : ∀ (lines : List String) (kc : Nat) (mm : List (String × Nat)),
    (∃ l ∈ lines.take (keySearchLimit - kc), (split d l).length < 3) →
    keySearch d lines kc mm = none
  | [], kc, mm, h => by simp at h
  | l :: rest, kc, mm, h => by
    unfold keySearch
    by_cases hk : kc < keySearchLimit
    · obtain ⟨j, hj⟩ : ∃ j, keySearchLimit - kc = j + 1 := ⟨keySearchLimit - kc - 1, by omega⟩
      rw [hj] at h
      simp only [List.take_succ_cons, List.mem_cons, exists_eq_or_imp] at h
      simp only [hk, if_true, QList.at]
      by_cases hl : (split d l).length < 3
      · have : (split d l)[2]? = none := List.getElem?_eq_none (by omega)
        simp [this]
      · have hl' : (split d l)[2]? = some (nameOf d l) := getElem?_split_of_lt (by omega)
        simp only [hl']
        apply keySearch_fail d rest (kc + 1)
        have hj' : keySearchLimit - (kc + 1) = j := by clear h; omega
        rw [hj']
        rcases h with h | h
        · exact absurd h hl
        · exact h
    · have : keySearchLimit - kc = 0 := by omega
      rw [this] at h
      simp at h

theorem updateKeys_eq : ∀ (m : List (String × Nat)) (j : Nat),
    updateKeys m j = List.zip (QMap.keys m) (List.range' j m.length)
  | [], _ => rfl
  | (k, _) :: m, j => by
    simp [updateKeys, updateKeys_eq m (j + 1), QMap.keys, List.range'_succ]

theorem keys_updateKeys (m : List (String × Nat)) (j : Nat) :
    QMap.keys (updateKeys m j) = QMap.keys m := by
  rw [updateKeys_eq]
  simp [QMap.keys, List.map_fst_zip]

theorem values_updateKeys (m : List (String × Nat)) (j : Nat) :
    QMap.values (updateKeys m j) = List.range' j m.length := by
  rw [updateKeys_eq]
  simp [QMap.values, QMap.keys, List.map_snd_zip]

/-- An association list in key order whose values are `1, 2, ...` maps the key at rank `i`
to `i + 1`. -/
theorem value_of_rank {mm : List (String × Nat)}
    (hs : (QMap.keys mm).Pairwise (fun a b => qstringLess a b = true))
    (hv : QMap.values mm = List.range' 1 mm.length) {i : Nat} {name : String}
    (hi : (QMap.keys mm)[i]? = some name) :
    QMap.value qstringLess mm name 0 = i + 1 := by
  have hlen : i < mm.length := by
    have := (List.getElem?_eq_some.1 hi).1
    simpa [QMap.keys] using this
  have h₁ : (QMap.values mm)[i]? = some (i + 1) := by
    rw [hv, List.getElem?_range' _ _ hlen]
    simp [Nat.add_comm]
  have h₂ := QMap.eq_map_keys qstringLess_strictTotal mm 0 hs
  have h₃ : (QMap.values mm)[i]? = some (QMap.value qstringLess mm name 0) := by
    conv_lhs => rw [h₂]
    simp only [QMap.values, List.map_map, List.getElem?_map, hi]
    rfl
  rw [h₁] at h₃
  exact (Option.some.inj h₃).symm

theorem value_le_length {mm : List (String × Nat)}
    (hs : (QMap.keys mm).Pairwise (fun a b => qstringLess a b = true))
    (hv : QMap.values mm = List.range' 1 mm.length) (name : String) :
    QMap.value qstringLess mm name 0 ≤ mm.length := by
  by_cases hn : name ∈ QMap.keys mm
  · obtain ⟨i, hi, hi'⟩ := List.getElem_of_mem hn
    have := value_of_rank hs hv (List.getElem?_eq_some.2 ⟨hi, hi'⟩)
    simp [QMap.keys] at hi
    omega
  · rw [QMap.value_of_not_mem qstringLess_strictTotal mm name 0 hn]
    omega

/-- The schema exists when the lines read by the key search have a token 2; it is in
strictly ascending key order, holds exactly the names of those lines, and numbers them
from 1. -/
theorem discover_spec (d : String) (lines : List String)
    (h3 : ∀ l ∈ lines.take keySearchLimit, 3 ≤ (split d l).length) :
    ∃ mm, discover d lines = some mm ∧
      (QMap.keys mm).Pairwise (fun a b => qstringLess a b = true) ∧
      (∀ n, n ∈ QMap.keys mm ↔ n ∈ (lines.take keySearchLimit).map (nameOf d)) ∧
      QMap.values mm = List.range' 1 mm.length := by
  obtain ⟨mm', h₁, h₂, h₃⟩ := keySearch_spec d lines 0 [] (by simpa using h3) (by simp [QMap.keys])
  refine ⟨updateKeys mm' 1, by simp [discover, h₁], ?_, ?_, ?_⟩
  · rw [keys_updateKeys]; exact h₂
  · intro n
    rw [keys_updateKeys, h₃]
    simp [QMap.keys]
  · rw [values_updateKeys, updateKeys_eq]
    simp [QMap.keys]

theorem discover_fail (d : String) (lines : List String)
    (h : ∃ l ∈ lines.take keySearchLimit, (split d l).length < 3) :
    discover d lines = none := by
  simp [discover, keySearch_fail d lines 0 [] (by simpa using h)]

/-! ## The pivot pass -/

theorem pivotRow_length (d : String) (mm : List (String × Nat)) (t : Nat) :
    ∀ (lines : List String) (init : List String),
      (pivotRow d mm t init lines).length = init.length
  | [], _ => rfl
  | l :: rest, init => by
    have := pivotRow_length d mm t rest
    simp only [pivotRow, List.foldl_cons] at this ⊢
    rw [this]
    split <;> simp

theorem pivotRow_cons (d : String) (mm : List (String × Nat)) (t : Nat) (l : String)
    (rest init : List String) :
    pivotRow d mm t init (l :: rest) =
      pivotRow d mm t (if timestampOf d l = t then
        init.set (QMap.value qstringLess mm (nameOf d l) 0) (valueOf d l) else init) rest := by
  simp [pivotRow]

theorem rowOr_nil (tmpl : List String) (t : Nat) : rowOr [] tmpl t = tmpl := by
  simp [rowOr, QMap.contains]

theorem rowOr_insert (tm : List (Nat × List String)) (tmpl row : List String) (t t' : Nat) :
    rowOr (QMap.insert quint64Less t row tm) tmpl t' =
      if t' = t then row else rowOr tm tmpl t' := by
  have hO := quint64Less_strictTotal
  have hc : QMap.contains quint64Less (QMap.insert quint64Less t row tm) t' =
      (decide (t' = t) || QMap.contains quint64Less tm t') := by
    rw [Bool.eq_iff_iff, QMap.contains_iff hO, QMap.mem_keys_insert hO]
    simp [QMap.contains_iff hO]
  unfold rowOr
  rw [hc, QMap.value_insert hO]
  by_cases e : t' = t <;> simp [e]

/-- The map after `if (!timestampMap.contains(timestamp)) timestampMap.insert(timestamp,
templateList)`. -/
theorem rowOr_create (tm : List (Nat × List String)) (tmpl : List String) (ts t : Nat) :
    rowOr (if QMap.contains quint64Less tm ts = true then tm
      else QMap.insert quint64Less ts tmpl tm) tmpl t = rowOr tm tmpl t := by
  by_cases hc : QMap.contains quint64Less tm ts = true
  · simp [hc]
  · simp only [hc, if_false, Bool.false_eq_true, rowOr_insert]
    by_cases e : t = ts
    · subst e; simp [rowOr, hc]
    · simp [e]

theorem keys_create (tm : List (Nat × List String)) (tmpl : List String) (ts t : Nat) :
    t ∈ QMap.keys (if QMap.contains quint64Less tm ts = true then tm
      else QMap.insert quint64Less ts tmpl tm) ↔ t = ts ∨ t ∈ QMap.keys tm := by
  have hO := quint64Less_strictTotal
  by_cases hc : QMap.contains quint64Less tm ts = true
  · simp only [hc, if_true]
    have := (QMap.contains_iff hO tm _).1 hc
    constructor
    · exact Or.inr
    · rintro (rfl | h)
      · exact this
      · exact h
  · simp only [hc, if_false, Bool.false_eq_true]
    exact QMap.mem_keys_insert hO _ _ _ _

theorem sorted_create (tm : List (Nat × List String)) (tmpl : List String) (ts : Nat)
    (hs : (QMap.keys tm).Pairwise (fun a b => quint64Less a b = true)) :
    (QMap.keys (if QMap.contains quint64Less tm ts = true then tm
      else QMap.insert quint64Less ts tmpl tm)).Pairwise (fun a b => quint64Less a b = true) := by
  split
  · exact hs
  · exact QMap.sorted_insert quint64Less_strictTotal _ _ _ hs

theorem value_create (tm : List (Nat × List String)) (tmpl : List String) (ts : Nat) :
    QMap.value quint64Less (if QMap.contains quint64Less tm ts = true then tm
      else QMap.insert quint64Less ts tmpl tm) ts [] = rowOr tm tmpl ts := by
  have hO := quint64Less_strictTotal
  unfold rowOr
  by_cases hc : QMap.contains quint64Less tm ts = true
  · simp [hc]
  · simp [hc, QMap.value_insert hO]

theorem fillTimestampMap_spec (d : String) (mm : List (String × Nat)) (tmpl : List String)
    (hidx : ∀ name, QMap.value qstringLess mm name 0 < tmpl.length) :
    ∀ (lines : List String) (tm : List (Nat × List String)),
    (∀ l ∈ lines, 4 ≤ (split d l).length) →
    (QMap.keys tm).Pairwise (fun a b => quint64Less a b = true) →
    (∀ t, (rowOr tm tmpl t).length = tmpl.length) →
    ∃ tm', fillTimestampMap d mm tmpl lines tm = some tm' ∧
      (QMap.keys tm').Pairwise (fun a b => quint64Less a b = true) ∧
      (∀ t, t ∈ QMap.keys tm' ↔ t ∈ QMap.keys tm ∨ t ∈ lines.map (timestampOf d)) ∧
      (∀ t, rowOr tm' tmpl t = pivotRow d mm t (rowOr tm tmpl t) lines)
  | [], tm, _, hs, _ => ⟨tm, rfl, hs, by simp, fun _ => rfl⟩
  | l :: rest, tm, h4, hs, hlen => by
    have hO := quint64Less_strictTotal
    simp only [List.mem_cons, forall_eq_or_imp] at h4
    have h0 : (split d l)[0]? = some (tokenAt d l 0) := getElem?_split_of_lt (by omega)
    have h2 : (split d l)[2]? = some (nameOf d l) := getElem?_split_of_lt (by omega)
    have h3 : (split d l)[3]? = some (valueOf d l) := getElem?_split_of_lt (by omega)
    have hts : toULongLong (tokenAt d l 0) = timestampOf d l := rfl
    unfold fillTimestampMap
    simp only [QList.at, h0, h2, h3, hts, value_create]
    have hlt : QMap.value qstringLess mm (nameOf d l) 0 <
        (rowOr tm tmpl (timestampOf d l)).length := by
      rw [hlen]; exact hidx _
    simp only [QList.replace, hlt, if_true]
    obtain ⟨tm', e₁, e₂, e₃, e₄⟩ := fillTimestampMap_spec d mm tmpl hidx rest
      (QMap.insert quint64Less (timestampOf d l)
        ((rowOr tm tmpl (timestampOf d l)).set (QMap.value qstringLess mm (nameOf d l) 0)
          (valueOf d l))
        (if QMap.contains quint64Less tm (timestampOf d l) = true then tm
          else QMap.insert quint64Less (timestampOf d l) tmpl tm))
      h4.2 (QMap.sorted_insert hO _ _ _ (sorted_create tm tmpl _ hs))
      (by
        intro t
        rw [rowOr_insert, rowOr_create]
        split
        · simp [hlen]
        · exact hlen t)
    refine ⟨tm', e₁, e₂, ?_, ?_⟩
    · intro t
      rw [e₃, QMap.mem_keys_insert hO, keys_create]
      simp only [List.map_cons, List.mem_cons]
      tauto
    · intro t
      rw [e₄, rowOr_insert, rowOr_create, pivotRow_cons]
      by_cases e : t = timestampOf d l
      · subst e; simp
      · have e' : ¬ timestampOf d l = t := fun h => e h.symm
        simp [e, e']

theorem fillTimestampMap_fail (d : String) (mm : List (String × Nat)) (tmpl : List String) :
    ∀ (lines : List String) (tm : List (Nat × List String)),
    (∃ l ∈ lines, (split d l).length < 4) →
    fillTimestampMap d mm tmpl lines tm = none
  | [], _, h => by simp at h
  | l :: rest, tm, h => by
    simp only [List.mem_cons, exists_eq_or_imp] at h
    unfold fillTimestampMap
    by_cases hl : (split d l).length < 4
    · have h3 : (split d l)[3]? = none := List.getElem?_eq_none (by omega)
      simp only [QList.at, h3]
      cases (split d l)[0]? with
      | none => rfl
      | some first =>
        cases (split d l)[2]? <;> rfl
    · have hr : ∃ l ∈ rest, (split d l).length < 4 := by
        rcases h with h | h
        · exact absurd h hl
        · exact h
      have h0 : (split d l)[0]? = some (tokenAt d l 0) := getElem?_split_of_lt (by omega)
      have h2 : (split d l)[2]? = some (nameOf d l) := getElem?_split_of_lt (by omega)
      have h3 : (split d l)[3]? = some (valueOf d l) := getElem?_split_of_lt (by omega)
      simp only [QList.at, h0, h2, h3]
      split
      · rfl
      · exact fillTimestampMap_fail d mm tmpl rest _ hr

/-! ## The write loop -/

theorem take_succ_set {α : Type} (l : List α) (i : Nat) (v : α) (h : i < l.length) :
    (l.set i v).take (i + 1) = l.take i ++ [v] := by
  rw [List.take_succ, List.set_take, List.set_eq_of_length_le (by simp)]
  simp [List.getElem?_set, h]

theorem fillHoles_eq (last : List String) : ∀ (copy : List String) (idx : Nat) (list : List String),
    list.drop idx = copy → list.length = last.length →
    fillHoles last copy idx list =
      some (list.take idx ++ List.zipWith fillCell copy (last.drop idx))
  | [], idx, list, hd, _ => by
    have : list.take idx = list := by
      have := List.take_append_drop idx list
      rw [hd, List.append_nil] at this
      exact this
    simp [fillHoles, this]
  | str :: rest, idx, list, hd, hlen => by
    have hidx : idx < list.length := by
      by_contra hc
      rw [List.drop_of_length_le (by omega)] at hd
      cases hd
    have hlast : last.drop idx = last[idx] :: last.drop (idx + 1) :=
      List.drop_eq_getElem_cons (by omega)
    have hlist : list.drop idx = list[idx] :: list.drop (idx + 1) :=
      List.drop_eq_getElem_cons hidx
    rw [hlist] at hd
    injection hd with hstr hrest
    unfold fillHoles
    by_cases hh : str = "" ∨ str = "NaN"
    · have hat : last[idx]? = some last[idx] := List.getElem?_eq_getElem (by omega)
      simp only [hh, if_true, QList.at, hat, QList.replace, hidx]
      rw [fillHoles_eq last rest (idx + 1) (list.set idx last[idx])
        (by rw [List.drop_set_of_lt _ _ (by omega)]; exact hrest) (by simpa using hlen)]
      rw [hlast, List.zipWith_cons_cons, take_succ_set _ _ _ hidx]
      simp [fillCell, hh]
    · simp only [hh, if_false]
      rw [fillHoles_eq last rest (idx + 1) list hrest hlen]
      rw [hlast, List.zipWith_cons_cons, List.take_succ]
      simp [fillCell, hh, hidx, hstr]

theorem fillHoles_row (last list : List String) (hlen : list.length = last.length) :
    fillHoles last list 0 list = some (fillRow true last list) := by
  rw [fillHoles_eq last list 0 list rfl hlen]
  simp [fillRow]

theorem fillRow_length (hf : Bool) (last list : List String) (hlen : list.length = last.length) :
    (fillRow hf last list).length = list.length := by
  unfold fillRow
  split
  · simp [hlen]
  · rfl

theorem writeRows_eq (hf : Bool) (tm : List (Nat × List String)) (w : Nat) (hw : 0 < w)
    (hrows : ∀ e ∈ tm, e.2.length = w) :
    ∀ (sfx : List (Nat × List String)) (lc : Nat) (last : List String),
    tm.drop lc = sfx → last.length = w →
    writeRows hf (QMap.keys tm) (QMap.values sfx) lc last = some (emitRows hf lc last sfx)
  | [], _, _, _, _ => rfl
  | (key, list) :: rest, lc, last, hd, hlast => by
    have hlc : lc < tm.length := by
      by_contra hc
      rw [List.drop_of_length_le (by omega)] at hd
      cases hd
    have hd' : tm.drop lc = tm[lc] :: tm.drop (lc + 1) := List.drop_eq_getElem_cons hlc
    rw [hd'] at hd
    injection hd with he hrest
    have hmem : (key, list) ∈ tm := by rw [← he]; exact List.getElem_mem _
    have hlist : list.length = w := hrows _ hmem
    have hkey : (QMap.keys tm)[lc]? = some key := by
      simp [QMap.keys, List.getElem?_eq_getElem hlc, he]
    simp only [QMap.values, List.map_cons]
    unfold writeRows emitRows
    by_cases h1 : lc > 1
    · simp only [h1, if_true, QList.at, hkey, QList.replace]
      have h0 : 0 < list.length := by omega
      simp only [h0, if_true]
      have hfill : (if hf = true then fillHoles last (list.set 0 (arg key)) 0 (list.set 0 (arg key))
          else some (list.set 0 (arg key))) = some (fillRow hf last (list.set 0 (arg key))) := by
        cases hf
        · simp [fillRow]
        · simp only [if_true]
          exact fillHoles_row _ _ (by simp [hlist, hlast])
      rw [hfill]
      have := writeRows_eq hf tm w hw hrows rest (lc + 1)
        (fillRow hf last (list.set 0 (arg key))) hrest
        (by rw [fillRow_length _ _ _ (by simp [hlist, hlast])]; simp [hlist])
      simp only [QMap.values] at this
      simp only [this]
    · simp only [h1, if_false]
      have := writeRows_eq hf tm w hw hrows rest (lc + 1) last hrest hlast
      simp only [QMap.values] at this
      exact this

/-! ## The decimal rendering is never a hole -/

theorem digitChar_isDigit : ∀ m, m < 10 → (Nat.digitChar m).isDigit = true := by
  decide

theorem toDigitsCore_digits : ∀ (fuel n : Nat) (acc : List Char),
    ∀ c ∈ Nat.toDigitsCore 10 fuel n acc, c ∈ acc ∨ c.isDigit = true
  | 0, _, _, c, hc => Or.inl (by simpa [Nat.toDigitsCore] using hc)
  | fuel + 1, n, acc, c, hc => by
    simp only [Nat.toDigitsCore] at hc
    split at hc
    · rcases List.mem_cons.1 hc with rfl | h
      · exact Or.inr (digitChar_isDigit _ (Nat.mod_lt _ (by decide)))
      · exact Or.inl h
    · rcases toDigitsCore_digits fuel _ _ c hc with h | h
      · rcases List.mem_cons.1 h with rfl | h
        · exact Or.inr (digitChar_isDigit _ (Nat.mod_lt _ (by decide)))
        · exact Or.inl h
      · exact Or.inr h

theorem toDigitsCore_ne_nil : ∀ (fuel n : Nat) (acc : List Char),
    Nat.toDigitsCore 10 (fuel + 1) n acc ≠ []
  | 0, n, acc => by
    simp only [Nat.toDigitsCore]
    split <;> simp
  | fuel + 1, n, acc => by
    rw [Nat.toDigitsCore]
    split
    · simp
    · exact toDigitsCore_ne_nil fuel _ _

theorem arg_digits (n : Nat) : ∀ c ∈ (arg n).data, c.isDigit = true := by
  intro c hc
  simp only [arg, Nat.repr, List.asString, Nat.toDigits] at hc
  rcases toDigitsCore_digits _ _ _ c hc with h | h
  · cases h
  · exact h

theorem arg_ne_empty (n : Nat) : arg n ≠ "" := by
  intro h
  have : (arg n).data = [] := by rw [h]
  simp only [arg, Nat.repr, List.asString, Nat.toDigits] at this
  exact toDigitsCore_ne_nil _ _ _ this

theorem arg_ne_NaN (n : Nat) : arg n ≠ "NaN" := by
  intro h
  have := arg_digits n 'N' (by rw [h]; decide)
  revert this
  decide

theorem fillCell_arg (n : Nat) (p : String) : fillCell (arg n) p = arg n := by
  simp [fillCell, arg_ne_empty, arg_ne_NaN]

/-! ## The run as a whole -/

theorem keys_eq_sortedTimestamps (d : String) (lines : List String) (keys : List Nat)
    (hs : keys.Pairwise (fun a b => quint64Less a b = true))
    (hm : ∀ t, t ∈ keys ↔ t ∈ lines.map (timestampOf d)) :
    keys = sortedTimestamps d lines := by
  have hs' : keys.Sorted (fun a b => a < b) := by
    simpa [List.Sorted, quint64Less] using hs
  apply List.eq_of_perm_of_sorted (r := fun a b : Nat => a ≤ b) _ hs'.le_of_lt
    (Finset.sort_sorted _ _)
  rw [List.perm_ext_iff_of_nodup hs'.nodup (Finset.sort_nodup _ _)]
  intro t
  rw [hm, Finset.mem_sort, List.mem_toFinset]

theorem mem_sortedTimestamps (d : String) (lines : List String) (t : Nat) :
    t ∈ sortedTimestamps d lines ↔ t ∈ lines.map (timestampOf d) := by
  rw [sortedTimestamps, Finset.mem_sort, List.mem_toFinset]

theorem sortedTimestamps_sorted (d : String) (lines : List String) :
    (sortedTimestamps d lines).Sorted (fun a b => a < b) :=
  Finset.sort_sorted_lt _

theorem two_le_sortedTimestamps (d : String) (lines : List String)
    (h2 : ∃ l₁ ∈ lines, ∃ l₂ ∈ lines, timestampOf d l₁ ≠ timestampOf d l₂) :
    2 ≤ (sortedTimestamps d lines).length := by
  obtain ⟨l₁, h₁, l₂, h₂, hne⟩ := h2
  rw [sortedTimestamps, Finset.length_sort]
  have : ({timestampOf d l₁, timestampOf d l₂} : Finset Nat) ⊆
      (lines.map (timestampOf d)).toFinset := by
    intro t ht
    simp only [Finset.mem_insert, Finset.mem_singleton] at ht
    rw [List.mem_toFinset]
    rcases ht with rfl | rfl
    · exact List.mem_map_of_mem _ h₁
    · exact List.mem_map_of_mem _ h₂
  calc 2 = ({timestampOf d l₁, timestampOf d l₂} : Finset Nat).card :=
        (Finset.card_pair hne).symm
    _ ≤ _ := Finset.card_le_card this

theorem templateList_length (hf : Bool) (l : List String) :
    (templateList hf l).length = l.length + 1 := by
  simp [templateList]

theorem keys_pivotTable (hf : Bool) (d : String) (mm : List (String × Nat))
    (lines : List String) : QMap.keys (pivotTable hf d mm lines) = sortedTimestamps d lines := by
  simp [pivotTable, QMap.keys, Function.comp_def]

theorem length_pivotTable (hf : Bool) (d : String) (mm : List (String × Nat))
    (lines : List String) :
    (pivotTable hf d mm lines).length = (sortedTimestamps d lines).length := by
  simp [pivotTable]

theorem row_length_pivotTable (hf : Bool) (d : String) (mm : List (String × Nat))
    (lines : List String) :
    ∀ e ∈ pivotTable hf d mm lines, e.2.length = (QMap.keys mm).length + 1 := by
  intro e he
  simp only [pivotTable, List.mem_map] at he
  obtain ⟨t, _, rfl⟩ := he
  rw [pivotRow_length, templateList_length]

/-- With at least 4 tokens on every line the pivot pass completes, and the map of
timestamps is `pivotTable`. -/
theorem pivot_spec (hf : Bool) (d : String) (lines : List String)
    (h4 : ∀ l ∈ lines, 4 ≤ (split d l).length) :
    ∃ mm, discover d lines = some mm ∧
      (QMap.keys mm).Pairwise (fun a b => qstringLess a b = true) ∧
      (∀ n, n ∈ QMap.keys mm ↔ n ∈ (lines.take keySearchLimit).map (nameOf d)) ∧
      QMap.values mm = List.range' 1 mm.length ∧
      fillTimestampMap d mm (templateList hf (QMap.keys mm)) lines [] =
        some (pivotTable hf d mm lines) := by
  obtain ⟨mm, hd, hs, hm, hv⟩ := discover_spec d lines (fun l hl => by
    have := h4 l (List.mem_of_mem_take hl)
    omega)
  refine ⟨mm, hd, hs, hm, hv, ?_⟩
  have hidx : ∀ name, QMap.value qstringLess mm name 0 < (templateList hf (QMap.keys mm)).length := by
    intro name
    have := value_le_length hs hv name
    rw [templateList_length]
    simp only [QMap.keys, List.length_map]
    omega
  obtain ⟨tm, e₁, e₂, e₃, e₄⟩ := fillTimestampMap_spec d mm _ hidx lines [] h4
    (by simp [QMap.keys]) (by intro t; rw [rowOr_nil])
  rw [e₁]
  congr 1
  have hk : QMap.keys tm = sortedTimestamps d lines :=
    keys_eq_sortedTimestamps d lines _ e₂ (by intro t; rw [e₃]; simp [QMap.keys])
  rw [QMap.eq_map_keys quint64Less_strictTotal tm [] e₂, hk, pivotTable]
  apply List.map_congr_left
  intro t ht
  have hc : QMap.contains quint64Less tm t = true := by
    rw [QMap.contains_iff quint64Less_strictTotal, hk]; exact ht
  have := e₄ t
  rw [rowOr_nil] at this
  rw [← this]
  simp [rowOr, hc]

theorem emitRows_skip (hf : Bool) (last : List String) (e₀ e₁ : Nat × List String)
    (rest : List (Nat × List String)) :
    emitRows hf 0 last (e₀ :: e₁ :: rest) = emitRows hf 2 last rest := by
  obtain ⟨k₀, l₀⟩ := e₀
  obtain ⟨k₁, l₁⟩ := e₁
  simp [emitRows]

theorem emitRows_drop (hf : Bool) (last : List String) (tm : List (Nat × List String)) :
    emitRows hf 0 last tm = emitRows hf 2 last (tm.drop 2) := by
  match tm with
  | [] => simp [emitRows]
  | [(k₀, l₀)] => simp [emitRows]
  | e₀ :: e₁ :: rest => simp [emitRows_skip]

/-- With at least 4 tokens on every line and two distinct timestamps the run completes; the
rows written are those of `emitRows` on the map of timestamps from its third entry on,
starting with the second row as `lastList`. -/
theorem run_spec (hf : Bool) (d : String) (lines : List String)
    (h4 : ∀ l ∈ lines, 4 ≤ (split d l).length)
    (h2 : ∃ l₁ ∈ lines, ∃ l₂ ∈ lines, timestampOf d l₁ ≠ timestampOf d l₂) :
    ∃ mm last, discover d lines = some mm ∧
      (QMap.keys mm).Pairwise (fun a b => qstringLess a b = true) ∧
      (∀ n, n ∈ QMap.keys mm ↔ n ∈ (lines.take keySearchLimit).map (nameOf d)) ∧
      QMap.values mm = List.range' 1 mm.length ∧
      pivot hf d lines = some (pivotTable hf d mm lines) ∧
      ((pivotTable hf d mm lines).map Prod.snd)[1]? = some last ∧
      run hf d lines = some (headerLine d (QMap.keys mm),
        emitRows hf 2 last ((pivotTable hf d mm lines).drop 2)) := by
  obtain ⟨mm, hd, hs, hm, hv, hp⟩ := pivot_spec hf d lines h4
  have hlen := two_le_sortedTimestamps d lines h2
  rw [← length_pivotTable hf d mm lines] at hlen
  have h1 : 1 < ((pivotTable hf d mm lines).map Prod.snd).length := by
    simpa using hlen
  refine ⟨mm, ((pivotTable hf d mm lines).map Prod.snd)[1], hd, hs, hm, hv, ?_,
    List.getElem?_eq_getElem h1, ?_⟩
  · simp [pivot, hd, hp]
  · have hw := writeRows_eq hf (pivotTable hf d mm lines) ((QMap.keys mm).length + 1)
      (by omega) (row_length_pivotTable hf d mm lines) (pivotTable hf d mm lines) 0
      ((pivotTable hf d mm lines).map Prod.snd)[1] rfl
      (by
        have := row_length_pivotTable hf d mm lines ((pivotTable hf d mm lines)[1]) 
          (List.getElem_mem _)
        simpa using this)
    simp only [run, hd, hp, QList.at, QMap.values, List.getElem?_eq_getElem h1]
    simp only [QMap.values] at hw
    rw [hw, emitRows_drop]

/-! ## The timestamp column -/

theorem head?_fillRow (hf : Bool) (last list : List String) (k : Nat)
    (hlist : 0 < list.length) (hlast : 0 < last.length) :
    (fillRow hf last (list.set 0 (arg k))).head? = some (arg k) := by
  match list, last, hlist, hlast with
  | a :: l, b :: m, _, _ =>
    cases hf <;> simp [fillRow, fillCell_arg]

theorem emitRows_heads (hf : Bool) (w : Nat) (hw : 0 < w) :
    ∀ (rest : List (Nat × List String)) (lc : Nat) (last : List String),
    1 < lc → last.length = w → (∀ e ∈ rest, e.2.length = w) →
    (emitRows hf lc last rest).map List.head? = rest.map (fun e => some (arg e.1))
  | [], _, _, _, _, _ => rfl
  | (key, list) :: rest, lc, last, hlc, hlast, hrows => by
    have hlist : list.length = w := hrows (key, list) (List.mem_cons_self _ _)
    unfold emitRows
    simp only [gt_iff_lt, hlc, if_true, List.map_cons]
    rw [head?_fillRow hf last list key (by omega) (by omega)]
    rw [emitRows_heads hf w hw rest (lc + 1) _ (by omega)
      (by rw [fillRow_length _ _ _ (by simp [hlist, hlast])]; simp [hlist])
      (fun e he => hrows e (List.mem_cons_of_mem _ he))]

theorem last_length (hf : Bool) (d : String) (mm : List (String × Nat)) (lines : List String)
    (last : List String) (h : ((pivotTable hf d mm lines).map Prod.snd)[1]? = some last) :
    last.length = (QMap.keys mm).length + 1 := by
  obtain ⟨h1, rfl⟩ := List.getElem?_eq_some.1 h
  simp only [List.getElem_map]
  exact row_length_pivotTable hf d mm lines _ (List.getElem_mem _)

/-- C1: when every line has at least 4 tokens and the input has two distinct timestamps,
the run completes and the cells 0 of the rows written are, in output order, the decimal
renderings of the distinct input timestamps in strictly ascending order with the two
smallest removed (one row per remaining timestamp, no other row).  The statement holds for
both hole filling settings and needs no assumption on the timestamp tokens being numeric:
the timestamp of a line is `toULongLong` of its token 0. -/
theorem C1_timestamp_column (holeFillingEnabled : Bool) (delimiter : String)
    (lines : List String)
    (h4 : ∀ l ∈ lines, 4 ≤ (split delimiter l).length)
    (h2 : ∃ l₁ ∈ lines, ∃ l₂ ∈ lines, timestampOf delimiter l₁ ≠ timestampOf delimiter l₂) :
    ∃ header rows, run holeFillingEnabled delimiter lines = some (header, rows) ∧
      rows.map List.head? =
        ((sortedTimestamps delimiter lines).drop 2).map (fun t => some (arg t)) ∧
      (sortedTimestamps delimiter lines).Sorted (fun a b => a < b) ∧
      ∀ t, t ∈ sortedTimestamps delimiter lines ↔ t ∈ lines.map (timestampOf delimiter) := by
  obtain ⟨mm, last, _, _, _, _, _, hlast, hrun⟩ := run_spec holeFillingEnabled delimiter lines h4 h2
  refine ⟨_, _, hrun, ?_, sortedTimestamps_sorted _ _, mem_sortedTimestamps _ _⟩
  rw [emitRows_heads holeFillingEnabled ((QMap.keys mm).length + 1) (by omega) _ 2 last
    (by omega) (last_length _ _ _ _ _ hlast)
    (fun e he => row_length_pivotTable holeFillingEnabled delimiter mm lines e
      (List.mem_of_mem_drop he))]
  rw [← keys_pivotTable holeFillingEnabled delimiter mm lines]
  simp only [QMap.keys, List.map_drop, List.map_map]
  rfl

theorem C1_timestamp_column_witness :
    (∀ l ∈ ["1,_,alt,10", "1,_,spd,5", "2,_,alt,11", "3,_,spd,6", "4,_,alt,12"],
        4 ≤ (split "," l).length) ∧
      (∃ l₁ ∈ ["1,_,alt,10", "1,_,spd,5", "2,_,alt,11", "3,_,spd,6", "4,_,alt,12"],
        ∃ l₂ ∈ ["1,_,alt,10", "1,_,spd,5", "2,_,alt,11", "3,_,spd,6", "4,_,alt,12"],
        timestampOf "," l₁ ≠ timestampOf "," l₂) ∧
      ∃ header rows, run true "," ["1,_,alt,10", "1,_,spd,5", "2,_,alt,11", "3,_,spd,6",
          "4,_,alt,12"] = some (header, rows) ∧
        rows.map List.head? =
          ((sortedTimestamps "," ["1,_,alt,10", "1,_,spd,5", "2,_,alt,11", "3,_,spd,6",
            "4,_,alt,12"]).drop 2).map (fun t => some (arg t)) ∧
        (sortedTimestamps "," ["1,_,alt,10", "1,_,spd,5", "2,_,alt,11", "3,_,spd,6",
            "4,_,alt,12"]).Sorted (fun a b => a < b) ∧
        ∀ t, t ∈ sortedTimestamps "," ["1,_,alt,10", "1,_,spd,5", "2,_,alt,11", "3,_,spd,6",
            "4,_,alt,12"] ↔
          t ∈ ["1,_,alt,10", "1,_,spd,5", "2,_,alt,11", "3,_,spd,6", "4,_,alt,12"].map
            (timestampOf ",") :=
  ⟨by decide, by decide, C1_timestamp_column true "," _ (by decide) (by decide)⟩

/-! ## The cells of the pivoted rows -/

theorem schema_entry {mm : List (String × Nat)}
    (hs : (QMap.keys mm).Pairwise (fun a b => qstringLess a b = true))
    (hv : QMap.values mm = List.range' 1 mm.length) {f : String} {c : Nat}
    (hfc : (f, c) ∈ mm) :
    1 ≤ c ∧ c ≤ mm.length ∧ ∀ n, QMap.value qstringLess mm n 0 = c ↔ n = f := by
  obtain ⟨i, hi, he⟩ := List.getElem_of_mem hfc
  have hk : (QMap.keys mm)[i]? = some f := by
    simp [QMap.keys, List.getElem?_eq_getElem hi, he]
  have hc : (QMap.values mm)[i]? = some c := by
    simp [QMap.values, List.getElem?_eq_getElem hi, he]
  rw [hv, List.getElem?_range' _ _ hi] at hc
  have hc' : c = 1 + i := by simpa using hc.symm
  refine ⟨by omega, by omega, ?_⟩
  intro n
  constructor
  · intro hn
    by_cases hmem : n ∈ QMap.keys mm
    · obtain ⟨j, hj, hj'⟩ := List.getElem_of_mem hmem
      have hj₂ : (QMap.keys mm)[j]? = some n := List.getElem?_eq_some.2 ⟨hj, hj'⟩
      have := value_of_rank hs hv hj₂
      have hij : j = i := by omega
      rw [hij, hk] at hj₂
      exact (Option.some.inj hj₂).symm
    · rw [QMap.value_of_not_mem qstringLess_strictTotal mm n 0 hmem] at hn
      omega
  · rintro rfl
    rw [value_of_rank hs hv hk]
    omega

theorem pivotRow_cell (d : String) (mm : List (String × Nat)) (t : Nat) (f : String) (c : Nat)
    (hf : ∀ n, QMap.value qstringLess mm n 0 = c ↔ n = f) :
    ∀ (lines : List String) (init : List String), c < init.length →
    (pivotRow d mm t init lines)[c]? =
      some (match lines.reverse.find? (fun l => timestampOf d l = t ∧ nameOf d l = f) with
        | some l => valueOf d l
        | none => init.getD c "")
  | [], init, hc => by
    simp [pivotRow, List.getD, List.getElem?_eq_getElem hc]
  | l :: rest, init, hc => by
    rw [pivotRow_cons, pivotRow_cell d mm t f c hf rest _ (by split <;> simpa using hc)]
    rw [List.reverse_cons, List.find?_append]
    cases hfind : rest.reverse.find? (fun l => timestampOf d l = t ∧ nameOf d l = f) with
    | some l' => simp
    | none =>
      simp only [Option.none_or, List.find?_cons, List.find?_nil]
      by_cases ht : timestampOf d l = t
      · by_cases hn : nameOf d l = f
        · have := (hf (nameOf d l)).2 hn
          subst hn
          simp [ht, this, List.getD, List.getElem?_set, hc]
        · have : ¬ QMap.value qstringLess mm (nameOf d l) 0 = c := fun h => hn ((hf _).1 h)
          simp [ht, hn, List.getD, List.getElem?_set, this]
      · simp [ht]

theorem getD_templateList (l : List String) (c : Nat) :
    (templateList false l).getD c "" = "" := by
  simp only [templateList, List.getD, Bool.false_eq_true, if_false]
  by_cases hc : c < l.length + 1
  · simp [List.getElem?_replicate, hc]
  · simp [List.getElem?_replicate, hc]

theorem emitRows_false : ∀ (rest : List (Nat × List String)) (lc : Nat) (last : List String),
    1 < lc → emitRows false lc last rest = rest.map (fun e => e.2.set 0 (arg e.1))
  | [], _, _, _ => rfl
  | (key, list) :: rest, lc, last, hlc => by
    unfold emitRows
    simp only [gt_iff_lt, hlc, if_true, List.map_cons]
    rw [emitRows_false rest (lc + 1) _ (by omega)]
    simp [fillRow]

/-- C2: with hole filling disabled (and every line of at least 4 tokens, two distinct
timestamps) the run completes, writes one row per timestamp after the two smallest, and in
the row of timestamp `t` the cell at the column index `c` of a schema field `f` is the
value token of the last input line with timestamp `t` and field name `f`, and the empty
string when there is no such line. -/
theorem C2_cells_without_hole_filling (delimiter : String) (lines : List String)
    (h4 : ∀ l ∈ lines, 4 ≤ (split delimiter l).length)
    (h2 : ∃ l₁ ∈ lines, ∃ l₂ ∈ lines, timestampOf delimiter l₁ ≠ timestampOf delimiter l₂) :
    ∃ messageMap header rows, discover delimiter lines = some messageMap ∧
      run false delimiter lines = some (header, rows) ∧
      rows.length = ((sortedTimestamps delimiter lines).drop 2).length ∧
      ∀ (i t : Nat) (f : String) (c : Nat),
        ((sortedTimestamps delimiter lines).drop 2)[i]? = some t →
        (f, c) ∈ messageMap →
        ∃ row : List String, rows[i]? = some row ∧ row[c]? = some (lastValue delimiter lines t f) := by
  obtain ⟨mm, last, hd, hs, _, hv, _, _, hrun⟩ := run_spec false delimiter lines h4 h2
  rw [emitRows_false _ 2 last (by omega)] at hrun
  refine ⟨mm, _, _, hd, hrun, ?_, ?_⟩
  · simp [pivotTable]
  · intro i t f c hi hfc
    obtain ⟨hc1, hc2, hidx⟩ := schema_entry hs hv hfc
    refine ⟨(pivotRow delimiter mm t (templateList false (QMap.keys mm)) lines).set 0 (arg t),
      ?_, ?_⟩
    · simp only [pivotTable, List.map_drop, List.map_map, List.getElem?_drop,
        List.getElem?_map] at hi ⊢
      rw [hi]
      rfl
    · rw [List.getElem?_set_ne (by omega)]
      rw [pivotRow_cell delimiter mm t f c hidx lines _
        (by rw [templateList_length]; simp only [QMap.keys, List.length_map]; omega)]
      rw [getD_templateList]
      rfl

theorem C2_cells_without_hole_filling_witness :
    (∀ l ∈ ["1,_,alt,10", "2,_,spd,5", "3,_,alt,11", "3,_,alt,12"],
        4 ≤ (split "," l).length) ∧
      (∃ l₁ ∈ ["1,_,alt,10", "2,_,spd,5", "3,_,alt,11", "3,_,alt,12"],
        ∃ l₂ ∈ ["1,_,alt,10", "2,_,spd,5", "3,_,alt,11", "3,_,alt,12"],
        timestampOf "," l₁ ≠ timestampOf "," l₂) ∧
      ∃ messageMap header rows,
        discover "," ["1,_,alt,10", "2,_,spd,5", "3,_,alt,11", "3,_,alt,12"] = some messageMap ∧
        run false "," ["1,_,alt,10", "2,_,spd,5", "3,_,alt,11", "3,_,alt,12"] =
          some (header, rows) ∧
        rows.length = ((sortedTimestamps "," ["1,_,alt,10", "2,_,spd,5", "3,_,alt,11",
          "3,_,alt,12"]).drop 2).length ∧
        ∀ (i t : Nat) (f : String) (c : Nat),
          ((sortedTimestamps "," ["1,_,alt,10", "2,_,spd,5", "3,_,alt,11",
            "3,_,alt,12"]).drop 2)[i]? = some t →
          (f, c) ∈ messageMap →
          ∃ row : List String, rows[i]? = some row ∧ row[c]? = some (lastValue ","
            ["1,_,alt,10", "2,_,spd,5", "3,_,alt,11", "3,_,alt,12"] t f) :=
  ⟨by decide, by decide, C2_cells_without_hole_filling "," _ (by decide) (by decide)⟩

/-! ## Hole filling -/

theorem fillCell_hole {s : String} (p : String) (h : isHole s = true) : fillCell s p = p := by
  simp only [isHole, decide_eq_true_eq] at h
  simp [fillCell, h]

theorem fillCell_not_hole {s : String} (p : String) (h : isHole s = false) :
    fillCell s p = s := by
  simp only [isHole, decide_eq_false_iff_not] at h
  simp [fillCell, h]

theorem foldl_fill_holes : ∀ (ps : List String) (a : String),
    (∀ p ∈ ps, isHole p = true) → ps.foldl (fun acc p => fillCell p acc) a = a
  | [], _, _ => rfl
  | p :: ps, a, h => by
    rw [List.foldl_cons, fillCell_hole a (h p (List.mem_cons_self _ _))]
    exact foldl_fill_holes ps a (fun q hq => h q (List.mem_cons_of_mem _ hq))

theorem foldl_fill_last (pre ps : List String) (v a : String) (hv : isHole v = false)
    (h : ∀ p ∈ ps, isHole p = true) :
    (pre ++ v :: ps).foldl (fun acc p => fillCell p acc) a = v := by
  rw [List.foldl_append, List.foldl_cons, fillCell_not_hole _ hv]
  exact foldl_fill_holes ps v h

theorem fillRow_cell (last list : List String) (x : String) (c : Nat) (hc : 1 ≤ c)
    (hlen : list.length = last.length) (hcw : c < list.length) :
    (fillRow true last (list.set 0 x)).getD c "" =
      fillCell (list.getD c "") (last.getD c "") := by
  have h₁ : (list.set 0 x)[c]? = some list[c] := by
    rw [List.getElem?_set_ne (by omega), List.getElem?_eq_getElem hcw]
  have h₂ : last[c]? = some last[c] := List.getElem?_eq_getElem (by omega)
  simp only [fillRow, if_true, List.getD_eq_getElem?_getD, List.getElem?_zipWith, h₁, h₂,
    List.getElem?_eq_getElem hcw]
  rfl

theorem emitRows_cell (w c : Nat) (hc : 1 ≤ c) (hcw : c < w) :
    ∀ (rest : List (Nat × List String)) (lc : Nat) (last : List String) (n : Nat),
    1 < lc → last.length = w → (∀ e ∈ rest, e.2.length = w) → n < rest.length →
    cellOf (emitRows true lc last rest) n c =
      ((rest.take (n + 1)).map (fun e => e.2.getD c "")).foldl
        (fun acc p => fillCell p acc) (last.getD c "")
  | [], _, _, _, _, _, _, hn => by simp at hn
  | (key, list) :: rest, lc, last, n, hlc, hlast, hrows, hn => by
    have hlist : list.length = w := hrows (key, list) (List.mem_cons_self _ _)
    unfold emitRows
    simp only [gt_iff_lt, hlc, if_true]
    cases n with
    | zero =>
      simp only [cellOf, List.getD_cons_zero, Nat.zero_add, List.take_succ_cons, List.take_zero,
        List.map_cons, List.map_nil, List.foldl_cons, List.foldl_nil]
      exact fillRow_cell last list _ c hc (by omega) (by omega)
    | succ n =>
      have ih := emitRows_cell w c hc hcw rest (lc + 1) (fillRow true last (list.set 0 (arg key)))
        n (by omega)
        (by rw [fillRow_length _ _ _ (by simp [hlist, hlast])]; simp [hlist])
        (fun e he => hrows e (List.mem_cons_of_mem _ he)) (by simpa using hn)
      simp only [cellOf, List.getD_cons_succ] at ih ⊢
      rw [ih, fillRow_cell last list _ c hc (by omega) (by omega)]
      simp only [List.take_succ_cons, List.map_cons, List.foldl_cons]

theorem cellOf_values (tm : List (Nat × List String)) (k c : Nat) (hk : k < tm.length) :
    cellOf (QMap.values tm) k c = tm[k].2.getD c "" := by
  simp [cellOf, QMap.values, List.getD, List.getElem?_eq_getElem hk]

/-- The cell of column `c` written for row `i` of the map of timestamps is the cell of
row `j` of the map, when `j` is the latest row before `i`, not before row 1, whose cell is
no hole, and the cell of row `i` is a hole. -/
theorem forward_fill (tm : List (Nat × List String)) (w : Nat) (last : List String)
    (hrows : ∀ e ∈ tm, e.2.length = w) (hlast : (tm.map Prod.snd)[1]? = some last)
    (i j c : Nat) (hj : 1 ≤ j) (hji : j < i) (hi : i < tm.length) (hc : 1 ≤ c)
    (hhole : isHole (cellOf (QMap.values tm) i c) = true)
    (hval : isHole (cellOf (QMap.values tm) j c) = false)
    (hbetween : ∀ k, j < k → k < i → isHole (cellOf (QMap.values tm) k c) = true) :
    cellOf (emitRows true 2 last (tm.drop 2)) (i - 2) c = cellOf (QMap.values tm) j c := by
  have hcw : c < w := by
    by_contra hcw
    rw [cellOf_values tm j c (by omega), List.getD_eq_default _ _
      (by rw [hrows _ (List.getElem_mem _)]; omega)] at hval
    revert hval
    decide
  obtain ⟨h1, hl⟩ := List.getElem?_eq_some.1 hlast
  have h1' : 1 < tm.length := by simpa using h1
  have hlastlen : last.length = w := by
    rw [← hl, List.getElem_map]
    exact hrows _ (List.getElem_mem _)
  have hlastcell : last.getD c "" = cellOf (QMap.values tm) 1 c := by
    rw [cellOf_values tm 1 c h1', ← hl, List.getElem_map]
  rw [emitRows_cell w c hc hcw (tm.drop 2) 2 last (i - 2) (by omega) hlastlen
    (fun e he => hrows e (List.mem_of_mem_drop he)) (by simp; omega)]
  have hidx : i - 2 + 1 = i - 1 := by omega
  rw [hidx]
  -- the cells of rows 2 .. i of the map
  have hL : ∀ q, q < i - 1 →
      (((tm.drop 2).take (i - 1)).map (fun e => e.2.getD c ""))[q]? =
        some (cellOf (QMap.values tm) (q + 2) c) := by
    intro q hq
    rw [List.getElem?_map, List.getElem?_take_of_lt hq, List.getElem?_drop,
      List.getElem?_eq_getElem (by omega), cellOf_values tm (q + 2) c (by omega)]
    simp [Nat.add_comm]
  have hLlen : (((tm.drop 2).take (i - 1)).map (fun e => e.2.getD c "")).length = i - 1 := by
    simp; omega
  generalize ((tm.drop 2).take (i - 1)).map (fun e => e.2.getD c "") = L at hL hLlen
  have hholes : ∀ q, j - 1 ≤ q → q < i - 1 → ∀ p, L[q]? = some p → isHole p = true := by
    intro q hq₁ hq₂ p hp
    rw [hL q hq₂] at hp
    rw [← Option.some.inj hp]
    by_cases hqi : q + 2 = i
    · rw [hqi]; exact hhole
    · exact hbetween (q + 2) (by omega) (by omega)
  by_cases hj1 : j = 1
  · subst hj1
    rw [foldl_fill_holes L _ (by
      intro p hp
      obtain ⟨q, hq, rfl⟩ := List.getElem_of_mem hp
      exact hholes q (by omega) (by omega) _ (List.getElem?_eq_getElem hq))]
    exact hlastcell
  · have hm : j - 2 < L.length := by omega
    have hsplit : L = L.take (j - 2) ++ L[j - 2] :: L.drop (j - 2 + 1) := by
      rw [← List.drop_eq_getElem_cons hm, List.take_append_drop]
    have hv : L[j - 2] = cellOf (QMap.values tm) j c := by
      have := hL (j - 2) (by omega)
      rw [List.getElem?_eq_getElem hm] at this
      have h2 : j - 2 + 2 = j := by omega
      rw [h2] at this
      exact Option.some.inj this
    rw [hsplit, foldl_fill_last _ _ _ _ (by rw [hv]; exact hval) (by
      intro p hp
      obtain ⟨q, hq, rfl⟩ := List.getElem_of_mem hp
      rw [List.getElem_drop]
      exact hholes (j - 2 + 1 + q) (by omega) (by simp at hq; omega) _
        (List.getElem?_eq_getElem _))]
    exact hv

/-- C3: with hole filling enabled (and every line of at least 4 tokens, two distinct
timestamps) the run completes with one row per row of the map of timestamps after the first
two, and for every written row `i` and data column `c` (`1 ≤ c`) whose cell in the map is a
hole, the cell written is the cell of the map in row `j`, where `j` is the latest row before
`i`, counting back no further than row 1 (the second-smallest timestamp), whose cell of
column `c` is neither `""` nor `"NaN"`. -/
theorem C3_forward_fill (delimiter : String) (lines : List String)
    (h4 : ∀ l ∈ lines, 4 ≤ (split delimiter l).length)
    (h2 : ∃ l₁ ∈ lines, ∃ l₂ ∈ lines, timestampOf delimiter l₁ ≠ timestampOf delimiter l₂) :
    ∃ timestampMap header rows, pivot true delimiter lines = some timestampMap ∧
      run true delimiter lines = some (header, rows) ∧
      rows.length + 2 = timestampMap.length ∧
      ∀ i j c : Nat, 1 ≤ j → j < i → i < timestampMap.length → 1 ≤ c →
        isHole (cellOf (QMap.values timestampMap) i c) = true →
        isHole (cellOf (QMap.values timestampMap) j c) = false →
        (∀ k, j < k → k < i → isHole (cellOf (QMap.values timestampMap) k c) = true) →
        cellOf rows (i - 2) c = cellOf (QMap.values timestampMap) j c := by
  obtain ⟨mm, last, _, _, _, _, hp, hlast, hrun⟩ := run_spec true delimiter lines h4 h2
  refine ⟨_, _, _, hp, hrun, ?_, ?_⟩
  · have hlen := two_le_sortedTimestamps delimiter lines h2
    rw [← length_pivotTable true delimiter mm lines] at hlen
    have := congrArg List.length (emitRows_heads true ((QMap.keys mm).length + 1) (by omega)
      ((pivotTable true delimiter mm lines).drop 2) 2 last (by omega)
      (last_length _ _ _ _ _ hlast)
      (fun e he => row_length_pivotTable true delimiter mm lines e (List.mem_of_mem_drop he)))
    simp only [List.length_map, List.length_drop] at this
    omega
  · intro i j c hj hji hi hc hhole hval hbetween
    exact forward_fill _ _ last (row_length_pivotTable true delimiter mm lines) hlast
      i j c hj hji hi hc hhole hval hbetween

theorem C3_forward_fill_witness :
    (∀ l ∈ ["1,_,alt,9", "2,_,alt,10", "2,_,spd,5", "3,_,alt,11", "4,_,alt,12"],
        4 ≤ (split "," l).length) ∧
      (∃ l₁ ∈ ["1,_,alt,9", "2,_,alt,10", "2,_,spd,5", "3,_,alt,11", "4,_,alt,12"],
        ∃ l₂ ∈ ["1,_,alt,9", "2,_,alt,10", "2,_,spd,5", "3,_,alt,11", "4,_,alt,12"],
        timestampOf "," l₁ ≠ timestampOf "," l₂) ∧
      ∃ timestampMap header rows,
        pivot true "," ["1,_,alt,9", "2,_,alt,10", "2,_,spd,5", "3,_,alt,11", "4,_,alt,12"] =
          some timestampMap ∧
        run true "," ["1,_,alt,9", "2,_,alt,10", "2,_,spd,5", "3,_,alt,11", "4,_,alt,12"] =
          some (header, rows) ∧
        rows.length + 2 = timestampMap.length ∧
        ∀ i j c : Nat, 1 ≤ j → j < i → i < timestampMap.length → 1 ≤ c →
          isHole (cellOf (QMap.values timestampMap) i c) = true →
          isHole (cellOf (QMap.values timestampMap) j c) = false →
          (∀ k, j < k → k < i → isHole (cellOf (QMap.values timestampMap) k c) = true) →
          cellOf rows (i - 2) c = cellOf (QMap.values timestampMap) j c :=
  ⟨by decide, by decide, C3_forward_fill "," _ (by decide) (by decide)⟩

/-! ## The schema and the row width -/

/-- C4: when the first `min(n, 15000)` lines have a token 2, schema discovery succeeds and
the schema holds exactly the field names (token 2) of these lines, each once, in strictly
ascending string order; the name at rank `i` (from 0) has the column index `i + 1`, so that
the indices are `1 .. k` without a gap; a name on none of these lines (one that first occurs
on line 15001 or later) is not in the schema. -/
theorem C4_schema_discovery (delimiter : String) (lines : List String)
    (h3 : ∀ l ∈ lines.take keySearchLimit, 3 ≤ (split delimiter l).length) :
    ∃ messageMap, discover delimiter lines = some messageMap ∧
      (QMap.keys messageMap).Pairwise (fun a b => qstringLess a b = true) ∧
      (∀ name, name ∈ QMap.keys messageMap ↔
        name ∈ (lines.take keySearchLimit).map (nameOf delimiter)) ∧
      QMap.values messageMap = List.range' 1 messageMap.length ∧
      (∀ (i : Nat) (name : String), (QMap.keys messageMap)[i]? = some name →
        QMap.value qstringLess messageMap name 0 = i + 1) ∧
      (∀ name, name ∉ (lines.take keySearchLimit).map (nameOf delimiter) →
        QMap.contains qstringLess messageMap name = false) := by
  obtain ⟨mm, hd, hs, hm, hv⟩ := discover_spec delimiter lines h3
  refine ⟨mm, hd, hs, hm, hv, fun i name hi => value_of_rank hs hv hi, ?_⟩
  intro name hn
  rw [← hm, ← QMap.contains_iff qstringLess_strictTotal] at hn
  simpa using hn

theorem C4_schema_discovery_witness :
    (∀ l ∈ ["1,_,spd,10", "1,_,alt,5", "2,_,spd,11"].take keySearchLimit,
        3 ≤ (split "," l).length) ∧
      ∃ messageMap, discover "," ["1,_,spd,10", "1,_,alt,5", "2,_,spd,11"] = some messageMap ∧
        (QMap.keys messageMap).Pairwise (fun a b => qstringLess a b = true) ∧
        (∀ name, name ∈ QMap.keys messageMap ↔
          name ∈ (["1,_,spd,10", "1,_,alt,5", "2,_,spd,11"].take keySearchLimit).map
            (nameOf ",")) ∧
        QMap.values messageMap = List.range' 1 messageMap.length ∧
        (∀ (i : Nat) (name : String), (QMap.keys messageMap)[i]? = some name →
          QMap.value qstringLess messageMap name 0 = i + 1) ∧
        (∀ name, name ∉ (["1,_,spd,10", "1,_,alt,5", "2,_,spd,11"].take keySearchLimit).map
            (nameOf ",") →
          QMap.contains qstringLess messageMap name = false) :=
  ⟨by decide, C4_schema_discovery "," _ (by decide)⟩

theorem schema_size {d : String} {lines : List String} {mm : List (String × Nat)}
    (hs : (QMap.keys mm).Pairwise (fun a b => qstringLess a b = true))
    (hm : ∀ n, n ∈ QMap.keys mm ↔ n ∈ (lines.take keySearchLimit).map (nameOf d)) :
    mm.length = ((lines.take keySearchLimit).map (nameOf d)).toFinset.card := by
  have hnd : (QMap.keys mm).Nodup := by
    apply List.Pairwise.imp _ hs
    intro a b hab
    exact QMap.lt_ne qstringLess_strictTotal hab
  have : (QMap.keys mm).toFinset = ((lines.take keySearchLimit).map (nameOf d)).toFinset := by
    ext n
    simp only [List.mem_toFinset]
    exact hm n
  rw [← this, List.toFinset_card_of_nodup hnd]
  simp [QMap.keys]

theorem rows_of_rowOr (tm : List (Nat × List String)) (tmpl : List String) (w : Nat)
    (hs : (QMap.keys tm).Pairwise (fun a b => quint64Less a b = true))
    (h : ∀ t, (rowOr tm tmpl t).length = w) :
    ∀ e ∈ tm, e.2.length = w := by
  intro e he
  rw [QMap.eq_map_keys quint64Less_strictTotal tm [] hs] at he
  obtain ⟨t, ht, rfl⟩ := List.mem_map.1 he
  have hc : QMap.contains quint64Less tm t = true :=
    (QMap.contains_iff quint64Less_strictTotal tm t).2 ht
  have := h t
  simpa [rowOr, hc] using this

theorem emitRows_lengths (hf : Bool) (w : Nat) :
    ∀ (rest : List (Nat × List String)) (lc : Nat) (last : List String),
    last.length = w → (∀ e ∈ rest, e.2.length = w) →
    ∀ row ∈ emitRows hf lc last rest, row.length = w
  | [], _, _, _, _, row, hrow => by simp [emitRows] at hrow
  | (key, list) :: rest, lc, last, hlast, hrows, row, hrow => by
    have hlist : list.length = w := hrows (key, list) (List.mem_cons_self _ _)
    have hfill : (fillRow hf last (list.set 0 (arg key))).length = w := by
      rw [fillRow_length _ _ _ (by simp [hlist, hlast])]; simp [hlist]
    unfold emitRows at hrow
    split at hrow
    · rcases List.mem_cons.1 hrow with rfl | hrow
      · exact hfill
      · exact emitRows_lengths hf w rest _ _ hfill
          (fun e he => hrows e (List.mem_cons_of_mem _ he)) row hrow
    · exact emitRows_lengths hf w rest _ _ hlast
        (fun e he => hrows e (List.mem_cons_of_mem _ he)) row hrow

/-- C5: for an input whose lines all have at least 4 tokens and that has two distinct
timestamps, the schema has as many entries as there are distinct field names on the first
`min(n, 15000)` lines; the template row has one cell more; after any number `k` of lines of
the pivot pass every row of the map of timestamps has exactly that many cells; and so has
every row the run writes (one timestamp cell and one data cell per schema entry). -/
theorem C5_row_width (holeFillingEnabled : Bool) (delimiter : String) (lines : List String)
    (h4 : ∀ l ∈ lines, 4 ≤ (split delimiter l).length)
    (h2 : ∃ l₁ ∈ lines, ∃ l₂ ∈ lines, timestampOf delimiter l₁ ≠ timestampOf delimiter l₂) :
    ∃ messageMap header rows, discover delimiter lines = some messageMap ∧
      messageMap.length =
        ((lines.take keySearchLimit).map (nameOf delimiter)).toFinset.card ∧
      (templateList holeFillingEnabled (QMap.keys messageMap)).length =
        messageMap.length + 1 ∧
      (∀ k, ∃ timestampMap,
        fillTimestampMap delimiter messageMap
          (templateList holeFillingEnabled (QMap.keys messageMap)) (lines.take k) [] =
            some timestampMap ∧
        ∀ e ∈ timestampMap, e.2.length = messageMap.length + 1) ∧
      run holeFillingEnabled delimiter lines = some (header, rows) ∧
      ∀ row ∈ rows, row.length = messageMap.length + 1 := by
  obtain ⟨mm, last, hd, hs, hm, hv, _, hlast, hrun⟩ :=
    run_spec holeFillingEnabled delimiter lines h4 h2
  have hkl : (QMap.keys mm).length = mm.length := by simp [QMap.keys]
  have htl : (templateList holeFillingEnabled (QMap.keys mm)).length = mm.length + 1 := by
    rw [templateList_length, hkl]
  refine ⟨mm, _, _, hd, schema_size hs hm, htl, ?_, hrun, ?_⟩
  · intro k
    have hidx : ∀ name, QMap.value qstringLess mm name 0 <
        (templateList holeFillingEnabled (QMap.keys mm)).length := by
      intro name
      have := value_le_length hs hv name
      omega
    obtain ⟨tm, e₁, e₂, _, e₄⟩ := fillTimestampMap_spec delimiter mm _ hidx (lines.take k) []
      (fun l hl => h4 l (List.mem_of_mem_take hl)) (by simp [QMap.keys])
      (by intro t; rw [rowOr_nil])
    refine ⟨tm, e₁, rows_of_rowOr tm (templateList holeFillingEnabled (QMap.keys mm)) _ e₂ ?_⟩
    intro t
    rw [e₄, pivotRow_length, rowOr_nil, htl]
  · have := emitRows_lengths holeFillingEnabled ((QMap.keys mm).length + 1)
      ((pivotTable holeFillingEnabled delimiter mm lines).drop 2) 2 last
      (last_length _ _ _ _ _ hlast)
      (fun e he => row_length_pivotTable holeFillingEnabled delimiter mm lines e
        (List.mem_of_mem_drop he))
    rw [hkl] at this
    exact this

theorem C5_row_width_witness :
    (∀ l ∈ ["1,_,alt,9", "2,_,spd,5", "3,_,alt,11", "4,_,alt,12"],
        4 ≤ (split "," l).length) ∧
      (∃ l₁ ∈ ["1,_,alt,9", "2,_,spd,5", "3,_,alt,11", "4,_,alt,12"],
        ∃ l₂ ∈ ["1,_,alt,9", "2,_,spd,5", "3,_,alt,11", "4,_,alt,12"],
        timestampOf "," l₁ ≠ timestampOf "," l₂) ∧
      ∃ messageMap header rows,
        discover "," ["1,_,alt,9", "2,_,spd,5", "3,_,alt,11", "4,_,alt,12"] =
          some messageMap ∧
        messageMap.length =
          ((["1,_,alt,9", "2,_,spd,5", "3,_,alt,11", "4,_,alt,12"].take keySearchLimit).map
            (nameOf ",")).toFinset.card ∧
        (templateList true (QMap.keys messageMap)).length = messageMap.length + 1 ∧
        (∀ k, ∃ timestampMap,
          fillTimestampMap "," messageMap (templateList true (QMap.keys messageMap))
            (["1,_,alt,9", "2,_,spd,5", "3,_,alt,11", "4,_,alt,12"].take k) [] =
              some timestampMap ∧
          ∀ e ∈ timestampMap, e.2.length = messageMap.length + 1) ∧
        run true "," ["1,_,alt,9", "2,_,spd,5", "3,_,alt,11", "4,_,alt,12"] =
          some (header, rows) ∧
        ∀ row ∈ rows, row.length = messageMap.length + 1 :=
  ⟨by decide, by decide, C5_row_width true "," _ (by decide) (by decide)⟩

/-! ## Scenario A -/

/-- C7, as stated, fails: on the three lines of Scenario A (delimiter `,`, hole filling
enabled) the run writes the header line only, so no row `2,11,5` is written, and the pivoted
row of timestamp 1 is `NaN,10,5`, not `1,10,5`. -/
theorem C7_scenario_A_counterexample :
    written true "," scenarioA = some ["TIMESTAMPms,alt,spd\n"] ∧
      ¬ (∃ out, written true "," scenarioA = some out ∧ "2,11,5\n" ∈ out) ∧
      ¬ (∃ timestampMap, pivot true "," scenarioA = some timestampMap ∧
          QMap.value quint64Less timestampMap 1 [] = ["1", "10", "5"]) := by
  have hw : written true "," scenarioA = some ["TIMESTAMPms,alt,spd\n"] := by decide
  have hp : pivot true "," scenarioA =
      some [(1, ["NaN", "10", "5"]), (2, ["NaN", "11", "NaN"])] := by decide
  refine ⟨hw, ?_, ?_⟩
  · rintro ⟨out, hout, hmem⟩
    rw [hw] at hout
    cases hout
    revert hmem
    decide
  · rintro ⟨tm, htm, hrow⟩
    rw [hp] at htm
    cases htm
    revert hrow
    decide

/-- C7, amended: on the three lines of Scenario A (delimiter `,`, hole filling enabled) the
schema is `alt -> 1, spd -> 2`; the pivoted rows are `NaN,10,5` for timestamp 1 and
`NaN,11,NaN` for timestamp 2; they are the first two rows, so neither is written and the
output is the header line alone.  With one earlier timestamp in front (line `0,_,alt,9`) the
row of timestamp 2 is the third row and is written as `2,11,5`, `spd` filled from the row of
timestamp 1. -/
theorem C7_scenario_A_amended :
    discover "," scenarioA = some [("alt", 1), ("spd", 2)] ∧
      pivot true "," scenarioA = some [(1, ["NaN", "10", "5"]), (2, ["NaN", "11", "NaN"])] ∧
      run true "," scenarioA = some ("TIMESTAMPms,alt,spd\n", []) ∧
      written true "," scenarioA = some ["TIMESTAMPms,alt,spd\n"] ∧
      written true "," ("0,_,alt,9" :: scenarioA) =
        some ["TIMESTAMPms,alt,spd\n", "2,11,5\n"] := by
  decide

/-! ## Lines with fewer than 4 tokens -/

/-- C8, as stated, fails: with the two-token line `2,_` among valid lines the run does not
complete, whereas the same input without that line gives one row. -/
theorem C8_short_line_counterexample :
    run true "," ["1,_,alt,10", "2,_", "2,_,alt,11", "3,_,alt,12"] = none ∧
      run true "," ["1,_,alt,10", "2,_,alt,11", "3,_,alt,12"] =
        some ("TIMESTAMPms,alt\n", [["3", "12"]]) := by
  decide

/-- C8, amended: a line with fewer than 4 tokens is not skipped.  For every input that has
such a line (`line`, between the lines `before` and the lines `after`), and both hole filling
settings, the run ends at an out-of-range list access in the key search or in the pivot pass:
the map of timestamps is not completed, so the loop that writes the data rows is not
reached, and the run does not complete.  When the other lines are valid, that is each has
at least 4 tokens and two of them have distinct timestamps, the run of the input without
the line does complete, so the two runs differ. -/
theorem C8_short_line_aborts (holeFillingEnabled : Bool) (delimiter : String)
    (before after : List String) (line : String)
    (h : (split delimiter line).length < 4) :
    pivot holeFillingEnabled delimiter (before ++ line :: after) = none ∧
      run holeFillingEnabled delimiter (before ++ line :: after) = none ∧
      written holeFillingEnabled delimiter (before ++ line :: after) = none ∧
      ((∀ l ∈ before ++ after, 4 ≤ (split delimiter l).length) →
        (∃ l₁ ∈ before ++ after, ∃ l₂ ∈ before ++ after,
          timestampOf delimiter l₁ ≠ timestampOf delimiter l₂) →
        (run holeFillingEnabled delimiter (before ++ after)).isSome = true ∧
          run holeFillingEnabled delimiter (before ++ line :: after) ≠
            run holeFillingEnabled delimiter (before ++ after)) := by
  have hex : ∃ l ∈ before ++ line :: after, (split delimiter l).length < 4 :=
    ⟨line, by simp, h⟩
  have hp : pivot holeFillingEnabled delimiter (before ++ line :: after) = none := by
    unfold pivot
    cases discover delimiter (before ++ line :: after) with
    | none => rfl
    | some mm => simp only [fillTimestampMap_fail delimiter mm _ _ [] hex]
  have hr : run holeFillingEnabled delimiter (before ++ line :: after) = none := by
    unfold run
    cases discover delimiter (before ++ line :: after) with
    | none => rfl
    | some mm => simp only [fillTimestampMap_fail delimiter mm _ _ [] hex]
  refine ⟨hp, hr, by simp [written, hr], ?_⟩
  intro h4 h2
  obtain ⟨mm, last, _, _, _, _, _, _, hrun⟩ :=
    run_spec holeFillingEnabled delimiter (before ++ after) h4 h2
  rw [hr, hrun]
  exact ⟨rfl, fun e => by cases e⟩

theorem C8_short_line_aborts_witness :
    (split "," "2,_").length < 4 ∧
      pivot true "," (["1,_,alt,10"] ++ "2,_" :: ["2,_,alt,11", "3,_,alt,12"]) = none ∧
      run true "," (["1,_,alt,10"] ++ "2,_" :: ["2,_,alt,11", "3,_,alt,12"]) = none ∧
      written true "," (["1,_,alt,10"] ++ "2,_" :: ["2,_,alt,11", "3,_,alt,12"]) = none ∧
      (run true "," (["1,_,alt,10"] ++ ["2,_,alt,11", "3,_,alt,12"])).isSome = true ∧
      run true "," (["1,_,alt,10"] ++ "2,_" :: ["2,_,alt,11", "3,_,alt,12"]) ≠
        run true "," (["1,_,alt,10"] ++ ["2,_,alt,11", "3,_,alt,12"]) :=
  have h := C8_short_line_aborts true "," ["1,_,alt,10"] ["2,_,alt,11", "3,_,alt,12"] "2,_"
    (by decide)
  ⟨by decide, h.1, h.2.1, h.2.2.1, h.2.2.2 (by decide) (by decide)⟩

/-! ## The run reads tokens 0, 2 and 3 only, and token 0 through `toULongLong` -/

theorem lineEquiv_refl (d l : String) : lineEquiv d l l :=
  ⟨rfl, rfl, rfl⟩

theorem keySearch_congr (d : String) : ∀ (ls ls' : List String) (kc : Nat)
    (mm : List (String × Nat)),
    List.Forall₂ (fun l l' => (split d l)[2]? = (split d l')[2]?) ls ls' →
    keySearch d ls kc mm = keySearch d ls' kc mm
  | [], [], _, _, _ => rfl
  | l :: ls, l' :: ls', kc, mm, h => by
    rw [List.forall₂_cons] at h
    unfold keySearch
    simp only [QList.at, h.1]
    split
    · cases (split d l')[2]? with
      | none => rfl
      | some name => exact keySearch_congr d ls ls' _ _ h.2
    · rfl

theorem fillTimestampMap_congr (d : String) (mm : List (String × Nat)) (tmpl : List String) :
    ∀ (ls ls' : List String) (tm : List (Nat × List String)),
    List.Forall₂ (lineEquiv d) ls ls' →
    fillTimestampMap d mm tmpl ls tm = fillTimestampMap d mm tmpl ls' tm
  | [], [], _, _ => rfl
  | l :: ls, l' :: ls', tm, h => by
    rw [List.forall₂_cons] at h
    obtain ⟨⟨h0, h2, h3⟩, hrest⟩ := h
    unfold fillTimestampMap
    simp only [QList.at, h2, h3]
    cases e0 : (split d l)[0]? with
    | none =>
      rw [e0] at h0
      cases e0' : (split d l')[0]? with
      | none => rfl
      | some b => rw [e0'] at h0; cases h0
    | some a =>
      rw [e0] at h0
      cases e0' : (split d l')[0]? with
      | none => rw [e0'] at h0; cases h0
      | some b =>
        rw [e0'] at h0
        have hab : toULongLong a = toULongLong b := by simpa using h0
        simp only [hab]
        cases (split d l')[2]? with
        | none => rfl
        | some name =>
          cases (split d l')[3]? with
          | none => rfl
          | some value =>
            simp only []
            split
            · rfl
            · exact fillTimestampMap_congr d mm tmpl ls ls' _ hrest

/-- Inputs whose lines agree pairwise on `toULongLong` of token 0 and on tokens 2 and 3 give
the same run. -/
theorem run_congr (hf : Bool) (d : String) (ls ls' : List String)
    (h : List.Forall₂ (lineEquiv d) ls ls') : run hf d ls = run hf d ls' := by
  unfold run discover
  rw [keySearch_congr d ls ls' 0 [] (h.imp (fun _ _ h => h.2.1))]
  cases keySearch d ls' 0 [] with
  | none => rfl
  | some mm =>
    simp only []
    rw [fillTimestampMap_congr d _ _ ls ls' [] h]

theorem forall₂_lineEquiv_replace (d : String) (pre post : List String) (l l' : String)
    (h : lineEquiv d l l') :
    List.Forall₂ (lineEquiv d) (pre ++ l :: post) (pre ++ l' :: post) := by
  induction pre with
  | nil =>
    refine List.Forall₂.cons h ?_
    induction post with
    | nil => exact List.Forall₂.nil
    | cons a post ih => exact List.Forall₂.cons (lineEquiv_refl d a) ih
  | cons a pre ih => exact List.Forall₂.cons (lineEquiv_refl d a) ih

/-! ## Lines with a non-numeric timestamp token -/

/-- C9, as stated, fails: the line `x,_,alt,1` is filed under timestamp 0, which makes it
the first row, so that the rows of timestamps 6 and 7 are written; without the line only the
row of timestamp 7 is written. -/
theorem C9_non_numeric_timestamp_counterexample :
    parseULongLong "x" = none ∧
      run true "," ["x,_,alt,1", "5,_,alt,2", "6,_,alt,3", "7,_,alt,4"] =
        some ("TIMESTAMPms,alt\n", [["6", "3"], ["7", "4"]]) ∧
      run true "," ["5,_,alt,2", "6,_,alt,3", "7,_,alt,4"] =
        some ("TIMESTAMPms,alt\n", [["7", "4"]]) := by
  decide

/-- C9, amended: a line whose timestamp token is not a decimal unsigned 64-bit integer is
filed under timestamp 0, the value `toULongLong` returns for it: for every input and both
hole filling settings the run is the same as for the input in which the timestamp token of
that line is replaced by `0`. -/
theorem C9_non_numeric_timestamp_is_zero (holeFillingEnabled : Bool) (delimiter : String)
    (pre post : List String) (l l' : String)
    (hbad : parseULongLong (tokenAt delimiter l 0) = none)
    (hl' : split delimiter l' = (split delimiter l).set 0 "0") :
    timestampOf delimiter l = 0 ∧
      run holeFillingEnabled delimiter (pre ++ l :: post) =
        run holeFillingEnabled delimiter (pre ++ l' :: post) := by
  have hts : timestampOf delimiter l = 0 := by
    simp [timestampOf, toULongLong, hbad]
  refine ⟨hts, run_congr _ _ _ _ (forall₂_lineEquiv_replace _ _ _ _ _ ⟨?_, ?_, ?_⟩)⟩
  · rw [hl']
    cases e0 : (split delimiter l)[0]? with
    | none =>
      have : (split delimiter l).length = 0 := by
        have := List.getElem?_eq_none_iff.1 e0
        omega
      simp [List.length_eq_zero.1 this]
    | some a =>
      have hlen : 0 < (split delimiter l).length := (List.getElem?_eq_some.1 e0).1
      have ha : tokenAt delimiter l 0 = a := tokenAt_of_getElem? e0
      have h0 : toULongLong "0" = 0 := by decide
      simp only [timestampOf, ha] at hts
      simp [List.getElem?_set, hlen, hts, h0]
  · rw [hl', List.getElem?_set_ne (by omega)]
  · rw [hl', List.getElem?_set_ne (by omega)]

theorem C9_non_numeric_timestamp_is_zero_witness :
    parseULongLong (tokenAt "," "x,_,alt,1" 0) = none ∧
      split "," "0,_,alt,1" = (split "," "x,_,alt,1").set 0 "0" ∧
      timestampOf "," "x,_,alt,1" = 0 ∧
      run true "," ([] ++ "x,_,alt,1" :: ["5,_,alt,2", "6,_,alt,3", "7,_,alt,4"]) =
        run true "," ([] ++ "0,_,alt,1" :: ["5,_,alt,2", "6,_,alt,3", "7,_,alt,4"]) :=
  ⟨by decide, by decide,
    C9_non_numeric_timestamp_is_zero true "," [] _ "x,_,alt,1" "0,_,alt,1" (by decide)
      (by decide)⟩

/-! ## The header line -/

theorem replaceGo_skip (before after : List Char) : ∀ (k : Nat) (s : List Char),
    replaceGo before after k s = replaceGo before after 0 (s.drop k)
  | 0, s => by simp
  | k + 1, [] => by simp [replaceGo]
  | k + 1, _ :: s => by
    rw [replaceGo, List.drop_succ_cons]
    exact replaceGo_skip before after k s

theorem replaceGo_cons (before after : List Char) (c : Char) (s : List Char) :
    replaceGo before after 0 (c :: s) =
      if before <+: c :: s then after ++ replaceGo before after 0 (s.drop (before.length - 1))
      else c :: replaceGo before after 0 s := by
  rw [replaceGo, replaceGo_skip before after (before.length - 1) s]
  simp only [List.isPrefixOf_iff_prefix]

/-- Deleting a character: `replace(c, "")` keeps the other characters. -/
theorem replaceGo_delete (c : Char) : ∀ s : List Char,
    replaceGo [c] [] 0 s = s.filter (fun x => x != c)
  | [] => rfl
  | a :: s => by
    rw [replaceGo_cons, List.filter_cons]
    simp only [List.length_singleton, Nat.sub_self, List.drop_zero, List.nil_append,
      List.cons_prefix_cons, List.nil_prefix, and_true]
    rw [replaceGo_delete c s]
    by_cases h : c = a
    · subst h; simp
    · have h' : a ≠ c := fun e => h e.symm
      simp [h, h']

theorem mem_replaceGo (before after : List Char) : ∀ (k : Nat) (s : List Char) (x : Char),
    x ∈ replaceGo before after k s → x ∈ after ∨ x ∈ s
  | _, [], x, h => by simp [replaceGo] at h
  | k + 1, _ :: s, x, h => by
    rw [replaceGo] at h
    rcases mem_replaceGo before after k s x h with h | h
    · exact Or.inl h
    · exact Or.inr (List.mem_cons_of_mem _ h)
  | 0, c :: s, x, h => by
    rw [replaceGo] at h
    split at h
    · rcases List.mem_append.1 h with h | h
      · exact Or.inl h
      · rcases mem_replaceGo before after _ s x h with h | h
        · exact Or.inl h
        · exact Or.inr (List.mem_cons_of_mem _ h)
    · rcases List.mem_cons.1 h with h | h
      · exact Or.inr (by rw [h]; exact List.mem_cons_self _ _)
      · rcases mem_replaceGo before after 0 s x h with h | h
        · exact Or.inl h
        · exact Or.inr (List.mem_cons_of_mem _ h)

/-- A prefix of the replaced string that has no character of `after` is a prefix of the
string itself. -/
theorem prefix_of_prefix_replaceGo (before after : List Char) (hafter : after ≠ []) :
    ∀ (q s : List Char), (∀ c ∈ q, c ∉ after) → q <+: replaceGo before after 0 s → q <+: s
  | [], _, _, _ => List.nil_prefix
  | a :: q, [], _, h => by simp [replaceGo] at h
  | a :: q, c :: s, hq, h => by
    rw [replaceGo_cons] at h
    split at h
    · match after, hafter with
      | r :: after', _ =>
        rw [List.cons_append, List.cons_prefix_cons] at h
        exact absurd (List.mem_cons_self r after') (h.1 ▸ hq a (List.mem_cons_self _ _))
    · rw [List.cons_prefix_cons] at h ⊢
      exact ⟨h.1, prefix_of_prefix_replaceGo before after hafter q s
        (fun x hx => hq x (List.mem_cons_of_mem _ hx)) h.2⟩

theorem infix_of_infix_append (p r x : List Char) (hp : p ≠ []) (hr : ∀ c ∈ r, c ∉ p)
    (h : p <:+: r ++ x) : p <:+: x := by
  induction r with
  | nil => simpa using h
  | cons a r ih =>
    rw [List.cons_append, List.infix_cons_iff] at h
    rcases h with h | h
    · match p, hp with
      | p₀ :: p', _ =>
        rw [List.cons_prefix_cons] at h
        exact absurd (List.mem_cons_self p₀ p') (h.1 ▸ hr a (List.mem_cons_self _ _))
    · exact ih (fun c hc => hr c (List.mem_cons_of_mem _ hc)) h

/-- After `replace(before, after)` the string has no occurrence of `before`, when `after`
is not empty and shares no character with `before`. -/
theorem not_infix_replaceGo (before after : List Char) (hb : before ≠ []) (ha : after ≠ [])
    (hdisj : ∀ c ∈ after, c ∉ before) :
    ∀ (n : Nat) (s : List Char), s.length ≤ n → ¬ before <:+: replaceGo before after 0 s
  | _, [], _ => by simpa [replaceGo] using hb
  | 0, _ :: _, h => by simp at h
  | n + 1, c :: s, hlen => by
    have hlen' : s.length ≤ n := by simpa using hlen
    rw [replaceGo_cons]
    split
    · intro h
      exact not_infix_replaceGo before after hb ha hdisj n _
        (by rw [List.length_drop]; omega)
        (infix_of_infix_append _ _ _ hb hdisj h)
    · rename_i hpre
      intro h
      rw [List.infix_cons_iff] at h
      rcases h with h | h
      · match before, hb, hpre, h, hdisj with
        | b₀ :: b', _, hpre, h, hdisj =>
          rw [List.cons_prefix_cons] at h hpre
          exact hpre ⟨h.1, prefix_of_prefix_replaceGo (b₀ :: b') after ha b' s
            (fun x hx hxa => hdisj x hxa (List.mem_cons_of_mem _ hx)) h.2⟩
      · exact not_infix_replaceGo before after hb ha hdisj n s hlen' h

theorem mem_join (d : String) : ∀ (names : List String) (c : Char),
    c ∈ (join d names).data → c ∈ d.data ∨ ∃ n ∈ names, c ∈ n.data
  | [], c, h => by simp [join] at h
  | [a], c, h => Or.inr ⟨a, List.mem_singleton_self _, by simpa [join] using h⟩
  | a :: b :: l, c, h => by
    rw [join, String.data_append, String.data_append, List.mem_append, List.mem_append] at h
    rcases h with (h | h) | h
    · exact Or.inr ⟨a, List.mem_cons_self _ _, h⟩
    · exact Or.inl h
    · rcases mem_join d (b :: l) c h with h | ⟨n, hn, hc⟩
      · exact Or.inl h
      · exact Or.inr ⟨n, List.mem_cons_of_mem _ hn, hc⟩

/-- The header line is `TIMESTAMPms` followed by what the four replacements make of the
delimiter, the joined names and the newline. -/
theorem headerLine_data (d : String) (names : List String) :
    (headerLine d names).data = "TIMESTAMPms".data ++
      (((replaceGo "timestamp".data "TIMESTAMP".data 0
        (d.data ++ (join d names).data ++ "\n".data)).filter (fun x => x != ':')).filter
          (fun x => x != '_')).filter (fun x => x != '.') := by
  have h1 : ("timestamp_ms" ++ d ++ join d names ++ "\n").data =
      't' :: 'i' :: 'm' :: 'e' :: 's' :: 't' :: 'a' :: 'm' :: 'p' :: '_' :: 'm' :: 's' ::
        (d.data ++ (join d names).data ++ "\n".data) := by
    simp only [String.data_append, List.append_assoc]
    rfl
  have h2 : ∀ rest : List Char, replaceGo "timestamp".data "TIMESTAMP".data 0
      ('t' :: 'i' :: 'm' :: 'e' :: 's' :: 't' :: 'a' :: 'm' :: 'p' :: '_' :: 'm' :: 's' :: rest) =
      'T' :: 'I' :: 'M' :: 'E' :: 'S' :: 'T' :: 'A' :: 'M' :: 'P' :: '_' :: 'm' :: 's' ::
        replaceGo "timestamp".data "TIMESTAMP".data 0 rest := by
    intro rest
    simp [replaceGo, List.isPrefixOf]
  simp only [headerLine, replace, h1, h2]
  simp only [replaceGo_delete]
  simp [List.filter_cons]

/-- C10, as stated, fails: for the field name `time_stamp` the header line written is
`TIMESTAMPms,timestamp`: the deletion of `_` comes after the replacement of `timestamp` and
makes a new occurrence. -/
theorem C10_header_counterexample :
    run true "," ["1,_,time_stamp,5", "2,_,time_stamp,6"] =
        some ("TIMESTAMPms,timestamp\n", []) ∧
      headerLine "," ["time_stamp"] = "TIMESTAMPms,timestamp\n" ∧
      "timestamp".data <:+: (headerLine "," ["time_stamp"]).data := by
  refine ⟨by decide, by decide, ?_⟩
  have h : headerLine "," ["time_stamp"] = "TIMESTAMPms,timestamp\n" := by decide
  rw [h]
  exact ⟨"TIMESTAMPms,".data, "\n".data, rfl⟩

/-- The header line is `TIMESTAMPms` followed by the kept characters of what the
replacement of `timestamp` makes of the delimiter, the joined names and the newline. -/
theorem headerLine_kept (d : String) (names : List String) :
    (headerLine d names).data = "TIMESTAMPms".data ++
      (replaceGo "timestamp".data "TIMESTAMP".data 0
        (d ++ join d names ++ "\n").data).filter keptInHeader := by
  rw [headerLine_data, List.filter_filter, List.filter_filter]
  simp only [String.data_append]
  congr 1
  apply List.filter_congr
  intro x _
  by_cases h₁ : x = ':' <;> by_cases h₂ : x = '_' <;> by_cases h₃ : x = '.' <;>
    simp [keptInHeader, h₁, h₂, h₃]

theorem filter_TIMESTAMP (x : List Char) :
    ("TIMESTAMP".data ++ x).filter keptInHeader = "TIMESTAMP".data ++ x.filter keptInHeader := by
  rw [List.filter_append]
  rfl

theorem getLast?_cons_of_ne_nil {α : Type} (c : α) (v : List α) (h : v ≠ []) :
    (c :: v).getLast? = v.getLast? := by
  cases v with
  | nil => exact absurd rfl h
  | cons b l => exact List.getLast?_cons_cons

theorem infix_timestamp_header (x : List Char) :
    "timestamp".data <:+: "TIMESTAMPms".data ++ x ↔ "timestamp".data <:+: x := by
  constructor
  · intro h
    have h₁ : "timestamp".data <:+: 'm' :: 's' :: x :=
      infix_of_infix_append "timestamp".data "TIMESTAMP".data ('m' :: 's' :: x) (by decide)
        (by decide) h
    rw [List.infix_cons_iff, List.infix_cons_iff] at h₁
    rcases h₁ with h₁ | h₁ | h₁
    · simp at h₁
    · simp at h₁
    · exact h₁
  · intro h
    exact h.trans (List.suffix_append _ _).isInfix

/-- A prefix of the kept characters of the replaced string that has no character of
`TIMESTAMP` is what is kept of a prefix of the string itself, which ends where it ends. -/
theorem prefix_filter_replaceGo : ∀ (s q : List Char),
    (∀ c ∈ q, c ∉ "TIMESTAMP".data ∧ keptInHeader c = true) →
    q <+: (replaceGo "timestamp".data "TIMESTAMP".data 0 s).filter keptInHeader →
    ∃ v, v <+: s ∧ v.filter keptInHeader = q ∧ (q = [] → v = []) ∧
      (q ≠ [] → v.getLast? = q.getLast?)
  | _, [], _, _ => ⟨[], List.nil_prefix, rfl, fun _ => rfl, fun h => absurd rfl h⟩
  | [], a :: q, _, h => by simp [replaceGo] at h
  | c :: s, a :: q, hq, h => by
    rw [replaceGo_cons] at h
    split at h
    · rw [filter_TIMESTAMP] at h
      have ha : a = 'T' := by
        rw [show "TIMESTAMP".data = 'T' :: "IMESTAMP".data from rfl, List.cons_append,
          List.cons_prefix_cons] at h
        exact h.1
      exact absurd (by rw [ha]; decide) (hq a (List.mem_cons_self _ _)).1
    · by_cases hc : keptInHeader c = true
      · rw [List.filter_cons_of_pos hc, List.cons_prefix_cons] at h
        obtain ⟨v, hv, hf, he, hl⟩ := prefix_filter_replaceGo s q
          (fun x hx => hq x (List.mem_cons_of_mem _ hx)) h.2
        refine ⟨c :: v, List.cons_prefix_cons.2 ⟨rfl, hv⟩, ?_, fun e => absurd e (List.cons_ne_nil _ _), fun _ => ?_⟩
        · rw [List.filter_cons_of_pos hc, hf, h.1]
        · by_cases hq' : q = []
          · rw [he hq', hq', h.1]
          · have hv' : v ≠ [] := by
              intro e
              rw [e] at hf
              exact hq' hf.symm
            rw [getLast?_cons_of_ne_nil c v hv', getLast?_cons_of_ne_nil a q hq']
            exact hl hq'
      · rw [List.filter_cons_of_neg hc] at h
        obtain ⟨v, hv, hf, _, hl⟩ := prefix_filter_replaceGo s (a :: q) hq h
        have hv' : v ≠ [] := by
          intro e
          rw [e] at hf
          cases hf
        refine ⟨c :: v, List.cons_prefix_cons.2 ⟨rfl, hv⟩, ?_, fun e => absurd e (List.cons_ne_nil _ _), fun hne => ?_⟩
        · rw [List.filter_cons_of_neg hc, hf]
        · rw [getLast?_cons_of_ne_nil c v hv']
          exact hl hne

/-- An occurrence of `timestamp` in the kept characters of the replaced string comes from a
stretch of the string that the deletion turns into `timestamp`. -/
theorem broken_of_infix : ∀ (n : Nat) (s : List Char), s.length ≤ n →
    "timestamp".data <:+: (replaceGo "timestamp".data "TIMESTAMP".data 0 s).filter keptInHeader →
    ∃ w, w <:+: s ∧ brokenTimestamp w
  | _, [], _, h => by simp [replaceGo] at h
  | 0, _ :: _, hlen, _ => by simp at hlen
  | n + 1, c :: s, hlen, h => by
    have hlen' : s.length ≤ n := by simpa using hlen
    rw [replaceGo_cons] at h
    split at h
    · rw [filter_TIMESTAMP] at h
      obtain ⟨w, hw, hb⟩ := broken_of_infix n _ (by rw [List.length_drop]; omega)
        (infix_of_infix_append _ _ _ (by decide) (by decide) h)
      exact ⟨w, hw.trans ((List.drop_suffix _ s).isInfix.trans
        (List.suffix_cons c s).isInfix), hb⟩
    · rename_i hpre
      have hrec : "timestamp".data <:+:
          (replaceGo "timestamp".data "TIMESTAMP".data 0 s).filter keptInHeader →
          ∃ w, w <:+: c :: s ∧ brokenTimestamp w := by
        intro h'
        obtain ⟨w, hw, hb⟩ := broken_of_infix n s hlen' h'
        exact ⟨w, hw.trans (List.suffix_cons c s).isInfix, hb⟩
      by_cases hc : keptInHeader c = true
      · rw [List.filter_cons_of_pos hc, List.infix_cons_iff] at h
        rcases h with h | h
        · rw [show "timestamp".data = 't' :: "imestamp".data from rfl,
            List.cons_prefix_cons] at h
          obtain ⟨v, hv, hf, _, hl⟩ := prefix_filter_replaceGo s "imestamp".data
            (by decide) h.2
          have hv' : v ≠ [] := by
            intro e
            rw [e] at hf
            revert hf
            decide
          refine ⟨'t' :: v, ?_, rfl, ?_, ?_, ?_⟩
          · rw [← h.1]
            exact (List.cons_prefix_cons.2 ⟨rfl, hv⟩).isInfix
          · rw [getLast?_cons_of_ne_nil _ v hv', hl (by decide)]
            rfl
          · intro e
            apply hpre
            rw [← h.1, ← e]
            exact List.cons_prefix_cons.2 ⟨rfl, hv⟩
          · rw [List.filter_cons_of_pos (by decide), hf]
        · exact hrec h
      · rw [List.filter_cons_of_neg hc] at h
        exact hrec h

/-- No occurrence of `timestamp` begins inside a stretch that the deletion turns into
`timestamp`. -/
theorem not_prefix_in_broken (w : List Char) (hb : brokenTimestamp w) (v₁ v₂ post : List Char)
    (hw : w = v₁ ++ v₂) (hv₂ : v₂ ≠ []) : ¬ "timestamp".data <+: v₂ ++ post := by
  obtain ⟨hhead, hlast, hne, hf⟩ := hb
  intro hpre
  match v₁, hw with
  | [], hw =>
    rw [List.nil_append] at hw
    subst hw
    by_cases hlen : "timestamp".data.length ≤ w.length
    · have hp : "timestamp".data <+: w :=
        List.prefix_of_prefix_length_le hpre (List.prefix_append w post) hlen
      obtain ⟨r, hr⟩ := hp
      rw [← hr, List.filter_append] at hf
      have hfr : r.filter keptInHeader = [] := by
        have h₁ : "timestamp".data.filter keptInHeader = "timestamp".data := by decide
        rw [h₁] at hf
        exact List.append_cancel_left (hf.trans (List.append_nil _).symm)
      by_cases hr' : r = []
      · rw [hr', List.append_nil] at hr
        exact hne hr.symm
      · rw [← hr, List.getLast?_append_of_ne_nil _ hr'] at hlast
        have hmem : 'p' ∈ r := List.mem_of_getLast?_eq_some hlast
        have : 'p' ∈ r.filter keptInHeader := List.mem_filter.2 ⟨hmem, by decide⟩
        rw [hfr] at this
        simp at this
    · have hp : w <+: "timestamp".data :=
        List.prefix_of_prefix_length_le (List.prefix_append w post) hpre (by omega)
      have hall : w.filter keptInHeader = w := by
        apply List.filter_eq_self.2
        intro c hc
        have : ∀ x ∈ "timestamp".data, keptInHeader x = true := by decide
        exact this c (hp.subset hc)
      rw [hall] at hf
      exact hne hf
  | y :: v₁, hw =>
    match v₂, hv₂ with
    | x :: v₂, _ =>
      have hy : y = 't' := by
        rw [hw] at hhead
        simpa using hhead
      have hx : x = 't' := by
        rw [show "timestamp".data = 't' :: "imestamp".data from rfl, List.cons_append,
          List.cons_prefix_cons] at hpre
        exact hpre.1.symm
      subst hy hx
      rw [hw, List.cons_append, List.filter_cons_of_pos (by decide), List.filter_append,
        List.filter_cons_of_pos (by decide)] at hf
      have hf' : v₁.filter keptInHeader ++ 't' :: v₂.filter keptInHeader = "imestamp".data := by
        have := List.cons.inj hf
        exact this.2
      have hlen : (v₁.filter keptInHeader).length ≤ 7 := by
        have := congrArg List.length hf'
        simp at this
        omega
      have h4 : v₂.filter keptInHeader = "amp".data := by
        generalize v₁.filter keptInHeader = A at hf' hlen
        generalize v₂.filter keptInHeader = B at hf' ⊢
        match A, hlen, hf' with
        | [], _, hf' => exact absurd (List.cons.inj hf').1 (by decide)
        | [_], _, hf' => exact absurd (List.cons.inj (List.cons.inj hf').2).1 (by decide)
        | [_, _], _, hf' =>
          exact absurd (List.cons.inj (List.cons.inj (List.cons.inj hf').2).2).1 (by decide)
        | [_, _, _], _, hf' =>
          exact absurd
            (List.cons.inj (List.cons.inj (List.cons.inj (List.cons.inj hf').2).2).2).1
            (by decide)
        | [_, _, _, _], _, hf' =>
          exact (List.cons.inj (List.cons.inj (List.cons.inj (List.cons.inj
            (List.cons.inj hf').2).2).2).2).2
        | [_, _, _, _, _], _, hf' =>
          exact absurd (List.cons.inj (List.cons.inj (List.cons.inj (List.cons.inj
            (List.cons.inj (List.cons.inj hf').2).2).2).2).2).1 (by decide)
        | [_, _, _, _, _, _], _, hf' =>
          exact absurd (List.cons.inj (List.cons.inj (List.cons.inj (List.cons.inj
            (List.cons.inj (List.cons.inj (List.cons.inj hf').2).2).2).2).2).2).1 (by decide)
        | [_, _, _, _, _, _, _], _, hf' =>
          exact absurd (List.cons.inj (List.cons.inj (List.cons.inj (List.cons.inj
            (List.cons.inj (List.cons.inj (List.cons.inj (List.cons.inj hf').2).2).2).2).2).2).2).1
            (by decide)
        | _ :: _ :: _ :: _ :: _ :: _ :: _ :: _ :: _, hlen, _ => simp at hlen
      rw [show "timestamp".data = 't' :: 'i' :: "mestamp".data from rfl, List.cons_append,
        List.cons_prefix_cons] at hpre
      match v₂, h4, hpre with
      | [], h4, _ => exact absurd h4 (by decide)
      | z :: v₂, h4, hpre =>
        rw [List.cons_append, List.cons_prefix_cons] at hpre
        have hz : z = 'i' := hpre.2.1.symm
        subst hz
        rw [List.filter_cons_of_pos (by decide)] at h4
        exact absurd (List.cons.inj h4).1 (by decide)

/-- The replacement of `timestamp` passes over a stretch in which no occurrence begins. -/
theorem replaceGo_append_of_no_prefix (post : List Char) : ∀ (v : List Char),
    (∀ v₁ v₂, v = v₁ ++ v₂ → v₂ ≠ [] → ¬ "timestamp".data <+: v₂ ++ post) →
    replaceGo "timestamp".data "TIMESTAMP".data 0 (v ++ post) =
      v ++ replaceGo "timestamp".data "TIMESTAMP".data 0 post
  | [], _ => rfl
  | c :: v, h => by
    have hn : ¬ "timestamp".data <+: c :: (v ++ post) := h [] (c :: v) rfl (by simp)
    rw [List.cons_append, replaceGo_cons, if_neg hn,
      replaceGo_append_of_no_prefix post v (fun v₁ v₂ e hne => h (c :: v₁) v₂ (by rw [e]; rfl) hne)]
    rfl

theorem getElem?_length_append {α : Type} (a : α) (rest : List α) : ∀ (pre : List α),
    (pre ++ a :: rest)[pre.length]? = some a
  | [] => by simp
  | _ :: pre => by simpa using getElem?_length_append a rest pre

theorem getElem?_length_succ_append {α : Type} (a b : α) (rest : List α) : ∀ (pre : List α),
    (pre ++ a :: b :: rest)[pre.length + 1]? = some b
  | [] => by simp
  | _ :: pre => by simpa using getElem?_length_succ_append a b rest pre

/-- An occurrence of `timestamp` that begins before a stretch that the deletion turns into
`timestamp` ends before it. -/
theorem length_le_of_prefix_before_broken (w : List Char) (hb : brokenTimestamp w)
    (pre post : List Char) (hne : pre ≠ [])
    (hpre : "timestamp".data <+: pre ++ (w ++ post)) : 9 ≤ pre.length := by
  obtain ⟨hhead, _, _, hf⟩ := hb
  by_contra hc
  have hget : ∀ i, i < 9 → (pre ++ (w ++ post))[i]? = "timestamp".data[i]? := by
    obtain ⟨r, hr⟩ := hpre
    intro i hi
    rw [← hr, List.getElem?_append_left (by simpa using hi)]
  have hpos : 0 < pre.length := List.length_pos.2 hne
  match w, hhead, hf with
  | [x], _, hf =>
    have := congrArg List.length hf
    have hle := List.length_filter_le keptInHeader [x]
    rw [this] at hle
    simp at hle
  | x :: z :: w, hhead, hf =>
    have hx : x = 't' := by simpa using hhead
    subst hx
    have h₁ := hget pre.length (by omega)
    rw [List.cons_append, List.cons_append, getElem?_length_append] at h₁
    by_cases h5 : pre.length = 5
    · have h₂ := hget (pre.length + 1) (by omega)
      rw [List.cons_append, List.cons_append, getElem?_length_succ_append, h5] at h₂
      have hz : z = 'a' := Option.some.inj h₂
      subst hz
      rw [List.filter_cons_of_pos (by decide), List.filter_cons_of_pos (by decide)] at hf
      exact absurd (List.cons.inj (List.cons.inj hf).2).1 (by decide)
    · have hlt : pre.length < 9 := by omega
      generalize pre.length = k at h₁ h5 hlt hpos
      interval_cases k <;> first | exact absurd rfl h5 | (revert h₁; decide)

/-- A stretch that the deletion turns into `timestamp` gives an occurrence of `timestamp`
in the kept characters of the replaced string. -/
theorem infix_of_broken (w post : List Char) (hb : brokenTimestamp w) :
    ∀ (n : Nat) (pre : List Char), pre.length ≤ n →
    "timestamp".data <:+:
      (replaceGo "timestamp".data "TIMESTAMP".data 0 (pre ++ (w ++ post))).filter keptInHeader
  | _, [], _ => by
    rw [List.nil_append, replaceGo_append_of_no_prefix post w
      (fun v₁ v₂ e hne => not_prefix_in_broken w hb v₁ v₂ post e hne), List.filter_append, hb.2.2.2]
    exact (List.prefix_append _ _).isInfix
  | 0, _ :: _, hlen => by simp at hlen
  | n + 1, c :: pre, hlen => by
    have hlen' : pre.length ≤ n := by simpa using hlen
    rw [List.cons_append, replaceGo_cons]
    split
    · rename_i hpre
      rw [filter_TIMESTAMP]
      have h9 : 9 ≤ (c :: pre).length :=
        length_le_of_prefix_before_broken w hb (c :: pre) post (by simp) hpre
      have h8 : 8 ≤ pre.length := by simpa using h9
      have hdrop : (pre ++ (w ++ post)).drop ("timestamp".data.length - 1) =
          pre.drop 8 ++ (w ++ post) := List.drop_append_of_le_length h8
      rw [hdrop]
      exact (infix_of_broken w post hb n (pre.drop 8) (by rw [List.length_drop]; omega)).trans
        (List.suffix_append _ _).isInfix
    · by_cases hc : keptInHeader c = true
      · rw [List.filter_cons_of_pos hc]
        exact (infix_of_broken w post hb n pre hlen').trans (List.suffix_cons _ _).isInfix
      · rw [List.filter_cons_of_neg hc]
        exact infix_of_broken w post hb n pre hlen'

/-- C10, amended: the header line does not contain the substring `timestamp` if and only
if the string `delimiter + names joined by the delimiter + newline` has no stretch that
begins with `t`, ends with `p`, is not `timestamp` itself and reads `timestamp` once the
characters `:`, `_`, `.` are deleted from it (as `time_stamp` does).  So the claim holds for
all other names and delimiters, those with `timestamp` itself or with any of the three
characters elsewhere included, and fails exactly where the deletion makes the substring. -/
theorem C10_header_without_timestamp (delimiter : String) (headerList : List String) :
    ¬ "timestamp".data <:+: (headerLine delimiter headerList).data ↔
      ¬ ∃ w, w <:+: (delimiter ++ join delimiter headerList ++ "\n").data ∧
        brokenTimestamp w := by
  rw [headerLine_kept, infix_timestamp_header]
  apply not_congr
  constructor
  · exact broken_of_infix _ _ (Nat.le_refl _)
  · rintro ⟨w, ⟨pre, post, hw⟩, hb⟩
    rw [← hw, List.append_assoc]
    exact infix_of_broken w post hb _ pre (Nat.le_refl _)

theorem C10_header_without_timestamp_witness :
    ¬ "timestamp".data <:+: (headerLine "\t" ["M1:GPS_RAW_INT.lat", "mytimestamp"]).data ∧
      (¬ ∃ w, w <:+: ("\t" ++ join "\t" ["M1:GPS_RAW_INT.lat", "mytimestamp"] ++ "\n").data ∧
        brokenTimestamp w) ∧
      "time_stamp".data <:+: ("," ++ join "," ["alt", "time_stamp"] ++ "\n").data ∧
      brokenTimestamp "time_stamp".data ∧
      "timestamp".data <:+: (headerLine "," ["alt", "time_stamp"]).data :=
  ⟨by decide,
    (C10_header_without_timestamp "\t" ["M1:GPS_RAW_INT.lat", "mytimestamp"]).1 (by decide),
    by decide, ⟨rfl, rfl, by decide, by decide⟩,
    Classical.not_not.1 (fun h =>
      (C10_header_without_timestamp "," ["alt", "time_stamp"]).1 h
        ⟨"time_stamp".data, by decide, ⟨rfl, rfl, by decide, by decide⟩⟩)⟩

/-! ## Observations of unknown fields -/

theorem rowRel_refl (l : List String) : rowRel l l :=
  ⟨rfl, rfl⟩

theorem rowRel_set (l l' : List String) (i : Nat) (v : String) (h : rowRel l l') :
    rowRel (l.set i v) (l'.set i v) := by
  obtain ⟨hlen, htail⟩ := h
  refine ⟨by simp [hlen], ?_⟩
  match l, l', i with
  | [], [], _ => rfl
  | [], _ :: _, _ => simp at hlen
  | _ :: _, [], _ => simp at hlen
  | a :: t, a' :: t', 0 => simpa using htail
  | a :: t, a' :: t', i + 1 =>
    simp only [List.tail_cons] at htail
    simp [htail]

theorem rowRel_set_zero (l l' : List String) (v : String) (h : rowRel l l') :
    rowRel (l.set 0 v) l' := by
  obtain ⟨hlen, htail⟩ := h
  refine ⟨by simp [hlen], ?_⟩
  match l with
  | [] => simpa using htail
  | a :: t => simpa using htail

theorem set_zero_eq_of_rowRel (l l' : List String) (v : String) (h : rowRel l l') :
    l.set 0 v = l'.set 0 v := by
  obtain ⟨hlen, htail⟩ := h
  match l, l' with
  | [], [] => rfl
  | [], _ :: _ => simp at hlen
  | _ :: _, [] => simp at hlen
  | a :: t, a' :: t' =>
    simp only [List.tail_cons] at htail
    simp [htail]

theorem getElem?_of_rowRel (l l' : List String) (i : Nat) (hi : 1 ≤ i) (h : rowRel l l') :
    l[i]? = l'[i]? := by
  obtain ⟨hlen, htail⟩ := h
  obtain ⟨j, rfl⟩ : ∃ j, i = j + 1 := ⟨i - 1, by omega⟩
  match l, l' with
  | [], [] => rfl
  | [], _ :: _ => simp at hlen
  | _ :: _, [] => simp at hlen
  | a :: t, a' :: t' =>
    simp only [List.tail_cons] at htail
    simp [htail]

theorem tableRel_contains {tm tm' : List (Nat × List String)} (h : tableRel tm tm') (k : Nat) :
    QMap.contains quint64Less tm k = QMap.contains quint64Less tm' k := by
  induction h with
  | nil => rfl
  | @cons e e' m m' he _ ih =>
    obtain ⟨k₁, v₁⟩ := e
    obtain ⟨k₂, v₂⟩ := e'
    have : k₁ = k₂ := he.1
    subst this
    simp only [QMap.contains, ih]

theorem tableRel_value {tm tm' : List (Nat × List String)} (h : tableRel tm tm') (k : Nat)
    (hc : QMap.contains quint64Less tm k = true) :
    rowRel (QMap.value quint64Less tm k []) (QMap.value quint64Less tm' k []) ∧
      QMap.value quint64Less tm k [] ≠ [] := by
  induction h with
  | nil => simp [QMap.contains] at hc
  | @cons e e' m m' he _ ih =>
    obtain ⟨k₁, v₁⟩ := e
    obtain ⟨k₂, v₂⟩ := e'
    have : k₁ = k₂ := he.1
    subst this
    simp only [QMap.contains] at hc
    simp only [QMap.value]
    split
    · rename_i hlt
      simp only [hlt, if_true] at hc
      exact ih hc
    · exact ⟨he.2.1, he.2.2⟩

theorem tableRel_insert {tm tm' : List (Nat × List String)} (h : tableRel tm tm') (k : Nat)
    (v v' : List String) (hv : rowRel v v') (hne : v ≠ []) :
    tableRel (QMap.insert quint64Less k v tm) (QMap.insert quint64Less k v' tm') := by
  induction h with
  | nil => exact List.Forall₂.cons ⟨rfl, hv, hne⟩ List.Forall₂.nil
  | @cons e e' m m' he hrest ih =>
    obtain ⟨k₁, v₁⟩ := e
    obtain ⟨k₂, v₂⟩ := e'
    have : k₁ = k₂ := he.1
    subst this
    simp only [QMap.insert]
    split
    · exact List.Forall₂.cons ⟨rfl, hv, hne⟩ (List.Forall₂.cons he hrest)
    · split
      · exact List.Forall₂.cons he ih
      · exact List.Forall₂.cons ⟨rfl, hv, hne⟩ hrest

theorem QMap.insert_value_self {κ ν : Type} {lt : κ → κ → Bool} (h : StrictTotal lt)
    (m : List (κ × ν)) (k : κ) (d : ν)
    (hs : (QMap.keys m).Pairwise (fun a b => lt a b = true))
    (hc : QMap.contains lt m k = true) :
    QMap.insert lt k (QMap.value lt m k d) m = m := by
  induction m with
  | nil => simp [QMap.contains] at hc
  | cons e m ih =>
    obtain ⟨k₁, v₁⟩ := e
    simp only [QMap.keys, List.map_cons, List.pairwise_cons] at hs
    simp only [QMap.contains] at hc
    simp only [QMap.insert, QMap.value]
    by_cases h₁ : lt k k₁ = true
    · simp only [h₁, Bool.true_or, if_true] at hc
      have hk := hs.1 k ((QMap.contains_iff h m k).1 hc)
      have := h.trans _ _ _ h₁ hk
      rw [h.irrefl] at this
      cases this
    · have h₁' : lt k k₁ = false := by simpa using h₁
      by_cases h₂ : lt k₁ k = true
      · simp only [h₁', h₂, Bool.or_true, if_true, Bool.false_eq_true, if_false] at hc ⊢
        rw [ih hs.2 hc]
      · have h₂' : lt k₁ k = false := by simpa using h₂
        have e : k = k₁ := h.total _ _ h₁' h₂'
        subst e
        simp [h₁']

theorem contains_create (tm : List (Nat × List String)) (tmpl : List String) (ts : Nat) :
    QMap.contains quint64Less (if QMap.contains quint64Less tm ts = true then tm
      else QMap.insert quint64Less ts tmpl tm) ts = true := by
  rw [QMap.contains_iff quint64Less_strictTotal, keys_create]
  exact Or.inl rfl

theorem tableRel_create {tm tm' : List (Nat × List String)} (h : tableRel tm tm')
    (tmpl : List String) (htmpl : tmpl ≠ []) (ts : Nat) :
    tableRel (if QMap.contains quint64Less tm ts = true then tm
        else QMap.insert quint64Less ts tmpl tm)
      (if QMap.contains quint64Less tm' ts = true then tm'
        else QMap.insert quint64Less ts tmpl tm') := by
  rw [← tableRel_contains h ts]
  split
  · exact h
  · exact tableRel_insert h ts tmpl tmpl (rowRel_refl _) htmpl

/-- The two pivot passes run in lockstep: both stop at the same line, or both complete with
maps of timestamps that have the same keys and rows agreeing from cell 1 on. -/
theorem fill_lockstep (d : String) (mm : List (String × Nat)) (tmpl : List String)
    (htmpl : tmpl ≠ []) :
    ∀ (lines : List String) (tm tm' : List (Nat × List String)), tableRel tm tm' →
    (QMap.keys tm').Pairwise (fun a b => quint64Less a b = true) →
    (fillTimestampMap d mm tmpl lines tm = none ∧
      fillTimestampMapDropping d mm tmpl lines tm' = none) ∨
    ∃ r r', fillTimestampMap d mm tmpl lines tm = some r ∧
      fillTimestampMapDropping d mm tmpl lines tm' = some r' ∧ tableRel r r'
  | [], tm, tm', h, _ => Or.inr ⟨tm, tm', rfl, rfl, h⟩
  | l :: rest, tm, tm', h, hs => by
    have hO := quint64Less_strictTotal
    unfold fillTimestampMap fillTimestampMapDropping
    simp only [QList.at]
    cases (split d l)[0]? with
    | none => exact Or.inl ⟨rfl, rfl⟩
    | some first =>
      cases (split d l)[2]? with
      | none => exact Or.inl ⟨rfl, rfl⟩
      | some name =>
        cases (split d l)[3]? with
        | none => exact Or.inl ⟨rfl, rfl⟩
        | some value =>
          simp only []
          have h₁ := tableRel_create h tmpl htmpl (toULongLong first)
          have hs₁ := sorted_create tm' tmpl (toULongLong first) hs
          have hc₁ := contains_create tm tmpl (toULongLong first)
          have hc₁' := contains_create tm' tmpl (toULongLong first)
          generalize (if QMap.contains quint64Less tm (toULongLong first) = true then tm
            else QMap.insert quint64Less (toULongLong first) tmpl tm) = tm₁ at h₁ hc₁
          generalize (if QMap.contains quint64Less tm' (toULongLong first) = true then tm'
            else QMap.insert quint64Less (toULongLong first) tmpl tm') = tm₁' at h₁ hs₁ hc₁'
          obtain ⟨hrow, hne⟩ := tableRel_value h₁ (toULongLong first) hc₁
          by_cases hk : QMap.contains qstringLess mm name = true
          · simp only [hk, if_true, QList.replace, hrow.1]
            by_cases hlt : QMap.value qstringLess mm name 0 <
                (QMap.value quint64Less tm₁' (toULongLong first) []).length
            · simp only [hlt, if_true]
              exact fill_lockstep d mm tmpl htmpl rest _ _
                (tableRel_insert h₁ _ _ _ (rowRel_set _ _ _ _ hrow)
                  (by
                    intro e
                    have := congrArg List.length e
                    rw [List.length_set] at this
                    exact hne (List.length_eq_zero.1 this)))
                (QMap.sorted_insert hO _ _ _ hs₁)
            · simp [hlt]
          · have hidx : QMap.value qstringLess mm name 0 = 0 :=
              QMap.value_of_not_mem qstringLess_strictTotal mm name 0
                (fun hmem => hk ((QMap.contains_iff qstringLess_strictTotal mm name).2 hmem))
            have hpos : 0 < (QMap.value quint64Less tm₁ (toULongLong first) []).length :=
              List.length_pos.2 hne
            simp only [hk, if_false, Bool.false_eq_true, QList.replace, hidx, hpos, if_true]
            have := fill_lockstep d mm tmpl htmpl rest
              (QMap.insert quint64Less (toULongLong first)
                ((QMap.value quint64Less tm₁ (toULongLong first) []).set 0 value) tm₁)
              (QMap.insert quint64Less (toULongLong first)
                (QMap.value quint64Less tm₁' (toULongLong first) []) tm₁')
              (tableRel_insert h₁ _ _ _ (rowRel_set_zero _ _ _ hrow)
                (by
                  intro e
                  have := congrArg List.length e
                  rw [List.length_set] at this
                  exact hne (List.length_eq_zero.1 this)))
              (QMap.sorted_insert hO _ _ _ hs₁)
            rw [QMap.insert_value_self hO tm₁' _ [] hs₁ hc₁'] at this
            exact this

theorem fillHoles_rel (last last' : List String) (h : rowRel last last') :
    ∀ (copy : List String) (idx : Nat) (list : List String), 1 ≤ idx →
    fillHoles last copy idx list = fillHoles last' copy idx list
  | [], _, _, _ => rfl
  | str :: rest, idx, list, hidx => by
    unfold fillHoles
    simp only [QList.at, getElem?_of_rowRel last last' idx hidx h]
    split
    · cases last'[idx]? with
      | none => rfl
      | some v =>
        simp only []
        cases QList.replace list idx v with
        | none => rfl
        | some list' => exact fillHoles_rel last last' h rest (idx + 1) list' (by omega)
    · exact fillHoles_rel last last' h rest (idx + 1) list (by omega)

theorem fillHoles_rel_zero (last last' : List String) (h : rowRel last last') (k : Nat)
    (t : List String) :
    fillHoles last (arg k :: t) 0 (arg k :: t) = fillHoles last' (arg k :: t) 0 (arg k :: t) := by
  unfold fillHoles
  simp only [arg_ne_empty, arg_ne_NaN, or_self, if_false]
  exact fillHoles_rel last last' h t 1 _ (by omega)

/-- The write loop gives the same rows for two lists of rows that agree from cell 1 on. -/
theorem writeRows_rel (hf : Bool) (keys : List Nat) :
    ∀ (values values' : List (List String)) (lc : Nat) (last last' : List String),
    List.Forall₂ (fun l l' => rowRel l l' ∧ l ≠ []) values values' → rowRel last last' →
    writeRows hf keys values lc last = writeRows hf keys values' lc last'
  | [], [], _, _, _, _, _ => rfl
  | list :: rest, list' :: rest', lc, last, last', h, hlast => by
    rw [List.forall₂_cons] at h
    obtain ⟨⟨hrow, hne⟩, hrest⟩ := h
    unfold writeRows
    split
    · cases QList.at keys lc with
      | none => rfl
      | some key =>
        simp only [QList.replace, ← hrow.1, List.length_pos.2 hne, if_true,
          ← set_zero_eq_of_rowRel list list' (arg key) hrow]
        have hfill : (if hf = true then
              fillHoles last (list.set 0 (arg key)) 0 (list.set 0 (arg key))
            else some (list.set 0 (arg key))) =
            (if hf = true then
              fillHoles last' (list.set 0 (arg key)) 0 (list.set 0 (arg key))
            else some (list.set 0 (arg key))) := by
          cases hf
          · rfl
          · match list, hne with
            | a :: t, _ =>
              simp only [if_true, List.set_cons_zero]
              exact fillHoles_rel_zero last last' hlast key t
        rw [hfill]
        cases (if hf = true then
              fillHoles last' (list.set 0 (arg key)) 0 (list.set 0 (arg key))
            else some (list.set 0 (arg key))) with
        | none => rfl
        | some r =>
          simp only []
          rw [writeRows_rel hf keys rest rest' (lc + 1) r r hrest (rowRel_refl r)]
    · exact writeRows_rel hf keys rest rest' (lc + 1) last last' hrest hlast

theorem tableRel_keys {tm tm' : List (Nat × List String)} (h : tableRel tm tm') :
    QMap.keys tm = QMap.keys tm' := by
  induction h with
  | nil => rfl
  | @cons e e' m m' he _ ih =>
    simp only [QMap.keys, List.map_cons] at ih ⊢
    rw [he.1, ih]

theorem tableRel_values {tm tm' : List (Nat × List String)} (h : tableRel tm tm') :
    List.Forall₂ (fun l l' => rowRel l l' ∧ l ≠ []) (QMap.values tm) (QMap.values tm') := by
  induction h with
  | nil => exact List.Forall₂.nil
  | @cons e e' m m' he _ ih => exact List.Forall₂.cons he.2 ih

/-- The run is the run in which lines of unknown fields write no cell. -/
theorem run_eq_runDropping (hf : Bool) (d : String) (lines : List String) :
    run hf d lines = runDropping hf d lines := by
  unfold run runDropping
  cases discover d lines with
  | none => rfl
  | some mm =>
    simp only []
    rcases fill_lockstep d mm (templateList hf (QMap.keys mm))
      (by simp [templateList]) lines [] [] List.Forall₂.nil
      (by simp [QMap.keys]) with ⟨h₁, h₂⟩ | ⟨r, r', h₁, h₂, hrel⟩
    · rw [h₁, h₂]
    · rw [h₁, h₂]
      simp only [tableRel_keys hrel]
      have hv := tableRel_values hrel
      simp only [QList.at]
      cases e₁ : (QMap.values r)[1]? with
      | none =>
        have : (QMap.values r')[1]? = none := by
          rw [List.getElem?_eq_none_iff] at e₁ ⊢
          rw [← hv.length_eq]; exact e₁
        rw [this]
      | some last =>
        obtain ⟨h1, hl⟩ := List.getElem?_eq_some.1 e₁
        have h1' : 1 < (QMap.values r').length := by rw [← hv.length_eq]; exact h1
        rw [List.getElem?_eq_getElem h1']
        simp only []
        have hlast : rowRel last (QMap.values r')[1] := by
          rw [← hl]
          exact (List.forall₂_iff_get.1 hv).2 1 h1 h1' |>.1
        rw [writeRows_rel hf (QMap.keys r') (QMap.values r) (QMap.values r') 0 last _ hv hlast]

theorem lineEquivDropping_refl (d : String) (mm : List (String × Nat)) (l : String) :
    lineEquivDropping d mm l l :=
  ⟨rfl, rfl, rfl, fun _ _ _ => rfl⟩

theorem fillTimestampMapDropping_congr (d : String) (mm : List (String × Nat))
    (tmpl : List String) :
    ∀ (ls ls' : List String) (tm : List (Nat × List String)),
    List.Forall₂ (lineEquivDropping d mm) ls ls' →
    fillTimestampMapDropping d mm tmpl ls tm = fillTimestampMapDropping d mm tmpl ls' tm
  | [], [], _, _ => rfl
  | l :: ls, l' :: ls', tm, h => by
    rw [List.forall₂_cons] at h
    obtain ⟨⟨h0, h2, h3, hv⟩, hrest⟩ := h
    unfold fillTimestampMapDropping
    simp only [QList.at]
    rw [← h2]
    cases e0 : (split d l)[0]? with
    | none =>
      rw [e0] at h0
      cases e0' : (split d l')[0]? with
      | none => rfl
      | some b => rw [e0'] at h0; cases h0
    | some a =>
      rw [e0] at h0
      cases e0' : (split d l')[0]? with
      | none => rw [e0'] at h0; cases h0
      | some b =>
        rw [e0'] at h0
        have hab : toULongLong a = toULongLong b := by simpa using h0
        simp only [hab]
        cases e2 : (split d l)[2]? with
        | none => rfl
        | some name =>
          cases e3 : (split d l)[3]? with
          | none =>
            rw [e3] at h3
            cases e3' : (split d l')[3]? with
            | none => rfl
            | some v' => rw [e3'] at h3; cases h3
          | some v =>
            rw [e3] at h3
            cases e3' : (split d l')[3]? with
            | none => rw [e3'] at h3; cases h3
            | some v' =>
              simp only []
              by_cases hk : QMap.contains qstringLess mm name = true
              · have := hv name e2 hk
                rw [e3, e3'] at this
                cases this
                simp only [hk, if_true]
                split
                · rfl
                · exact fillTimestampMapDropping_congr d mm tmpl ls ls' _ hrest
              · simp only [hk, if_false, Bool.false_eq_true]
                exact fillTimestampMapDropping_congr d mm tmpl ls ls' _ hrest

/-- C6: an observation whose field name is not in the discovered schema is dropped.  For
every input and both hole filling settings the run is the same as the run in which such a
line only creates the row of its timestamp and writes no cell (`runDropping`); and it does
not depend on the value token of such a line: replacing token 3 of a line whose field name
is not in the schema by any other value leaves the header and all rows written unchanged. -/
theorem C6_unknown_field_dropped (holeFillingEnabled : Bool) (delimiter : String)
    (lines : List String) :
    run holeFillingEnabled delimiter lines = runDropping holeFillingEnabled delimiter lines ∧
      ∀ (pre post : List String) (l l' : String) (messageMap : List (String × Nat))
        (name v' : String),
        lines = pre ++ l :: post → discover delimiter lines = some messageMap →
        (split delimiter l)[2]? = some name →
        QMap.contains qstringLess messageMap name = false →
        split delimiter l' = (split delimiter l).set 3 v' →
        run holeFillingEnabled delimiter (pre ++ l' :: post) =
          run holeFillingEnabled delimiter lines := by
  refine ⟨run_eq_runDropping _ _ _, ?_⟩
  intro pre post l l' mm name v' hlines hd hname hunknown hl'
  subst hlines
  have h2 : (split delimiter l')[2]? = (split delimiter l)[2]? := by
    rw [hl', List.getElem?_set_ne (by omega)]
  have hks : List.Forall₂ (fun a b => (split delimiter a)[2]? = (split delimiter b)[2]?)
      (pre ++ l' :: post) (pre ++ l :: post) := by
    clear hd
    induction pre with
    | nil =>
      refine List.Forall₂.cons h2 ?_
      clear hname hl' h2
      induction post with
      | nil => exact List.Forall₂.nil
      | cons a post ih => exact List.Forall₂.cons rfl ih
    | cons a pre ih => exact List.Forall₂.cons rfl ih
  have hd' : discover delimiter (pre ++ l' :: post) = some mm := by
    rw [← hd]
    unfold discover
    rw [keySearch_congr delimiter _ _ 0 [] hks]
  have hrel : List.Forall₂ (lineEquivDropping delimiter mm) (pre ++ l' :: post)
      (pre ++ l :: post) := by
    have hl : lineEquivDropping delimiter mm l' l := by
      refine ⟨?_, h2, ?_, ?_⟩
      · rw [hl', List.getElem?_set_ne (by omega)]
      · rw [hl']
        by_cases h3 : 3 < (split delimiter l).length
        · simp [List.getElem?_set, h3, List.getElem?_eq_getElem h3]
        · simp [List.getElem?_set, h3, List.getElem?_eq_none (Nat.le_of_not_lt h3)]
      · intro n hn hk
        rw [h2, hname] at hn
        cases hn
        rw [hunknown] at hk
        cases hk
    clear hd hd' hks
    induction pre with
    | nil =>
      refine List.Forall₂.cons hl ?_
      clear hname hl' h2 hl
      induction post with
      | nil => exact List.Forall₂.nil
      | cons a post ih => exact List.Forall₂.cons (lineEquivDropping_refl _ _ a) ih
    | cons a pre ih => exact List.Forall₂.cons (lineEquivDropping_refl _ _ a) ih
  rw [run_eq_runDropping, run_eq_runDropping]
  unfold runDropping
  rw [hd, hd']
  simp only []
  rw [fillTimestampMapDropping_congr delimiter mm _ _ _ [] hrel]

theorem keySearch_replicate (d x name : String) (rest : List String)
    (hx : (split d x)[2]? = some name) :
    ∀ (n kc : Nat), kc + n = keySearchLimit →
    keySearch d (List.replicate n x ++ rest) kc [(name, 0)] = some [(name, 0)]
  | 0, kc, h => by
    have hk : ¬ kc < keySearchLimit := by omega
    cases rest with
    | nil => rfl
    | cons l rest => simp [keySearch, hk]
  | n + 1, kc, h => by
    have hk : kc < keySearchLimit := by omega
    rw [List.replicate_succ, List.cons_append, keySearch]
    simp only [hk, if_true, QList.at, hx]
    have : QMap.insert qstringLess name 0 [(name, 0)] = [(name, 0)] := by
      simp [QMap.insert, qstringLess_strictTotal.irrefl]
    rw [this]
    exact keySearch_replicate d x name rest hx n (kc + 1) (by omega)

/-- After 15000 lines of one field the schema is that field alone, whatever follows. -/
theorem discover_replicate (d x name : String) (rest : List String)
    (hx : (split d x)[2]? = some name) :
    discover d (List.replicate keySearchLimit x ++ rest) = some [(name, 1)] := by
  have hlim : keySearchLimit = 14999 + 1 := rfl
  unfold discover
  rw [hlim, List.replicate_succ, List.cons_append, keySearch]
  have hk : 0 < 14999 + 1 := by omega
  simp only [hk, if_true, QList.at, hx, QMap.insert]
  rw [keySearch_replicate d x name rest hx 14999 1 (by rw [hlim])]
  rfl

theorem C6_unknown_field_dropped_witness :
    run true "," (List.replicate keySearchLimit "1,_,alt,9" ++
        "2,_,zzz,5" :: ["3,_,alt,10", "4,_,alt,11"]) =
      runDropping true "," (List.replicate keySearchLimit "1,_,alt,9" ++
        "2,_,zzz,5" :: ["3,_,alt,10", "4,_,alt,11"]) ∧
      discover "," (List.replicate keySearchLimit "1,_,alt,9" ++
        "2,_,zzz,5" :: ["3,_,alt,10", "4,_,alt,11"]) = some [("alt", 1)] ∧
      (split "," "2,_,zzz,5")[2]? = some "zzz" ∧
      QMap.contains qstringLess [("alt", 1)] "zzz" = false ∧
      split "," "2,_,zzz,77" = (split "," "2,_,zzz,5").set 3 "77" ∧
      run true "," (List.replicate keySearchLimit "1,_,alt,9" ++
        "2,_,zzz,77" :: ["3,_,alt,10", "4,_,alt,11"]) =
      run true "," (List.replicate keySearchLimit "1,_,alt,9" ++
        "2,_,zzz,5" :: ["3,_,alt,10", "4,_,alt,11"]) :=
  ⟨(C6_unknown_field_dropped true "," _).1,
    discover_replicate "," "1,_,alt,9" "alt" _ (by decide), by decide, by decide, by decide,
    (C6_unknown_field_dropped true "," _).2 (List.replicate keySearchLimit "1,_,alt,9")
      ["3,_,alt,10", "4,_,alt,11"] "2,_,zzz,5" "2,_,zzz,77" [("alt", 1)] "zzz" "77" rfl
      (discover_replicate "," "1,_,alt,9" "alt" _ (by decide)) (by decide) (by decide)
      (by decide)⟩

/-! ## The header line, character by character -/

theorem filter_three (s : List Char) :
    ((s.filter (fun x => x != ':')).filter (fun x => x != '_')).filter (fun x => x != '.') =
      s.filter (fun x => decide (x ≠ ':' ∧ x ≠ '_' ∧ x ≠ '.')) := by
  rw [List.filter_filter, List.filter_filter]
  apply List.filter_congr
  intro x _
  by_cases h₁ : x = ':' <;> by_cases h₂ : x = '_' <;> by_cases h₃ : x = '.' <;> simp [h₁, h₂, h₃]

/-- The characters of the header line: those of the string before the replacements, after
the replacement of `timestamp`, without the characters `:`, `_`, `.`. -/
theorem headerLine_filter (d : String) (names : List String) :
    (headerLine d names).data =
      ((replace ("timestamp_ms" ++ d ++ join d names ++ "\n") "timestamp" "TIMESTAMP").data).filter
        (fun x => decide (x ≠ ':' ∧ x ≠ '_' ∧ x ≠ '.')) := by
  rw [← filter_three]
  simp only [headerLine, replace]
  simp only [replaceGo_delete]

/-- C11: for every list of field names and every delimiter, none of the characters `:`,
`_`, `.` occurs in the header line, and the header line is the string
`"timestamp_ms" + delimiter + names joined by the delimiter + newline` in which the
occurrences of `timestamp` are replaced by `TIMESTAMP` (no occurrence is left by the
replacement) and from which these three characters are then deleted, all other characters
staying in place.  The run writes this line for the names of the schema in key order. -/
theorem C11_header_line (delimiter : String) (headerList : List String) :
    (∀ c ∈ (headerLine delimiter headerList).data, c ≠ ':' ∧ c ≠ '_' ∧ c ≠ '.') ∧
      (headerLine delimiter headerList).data =
        ((replace ("timestamp_ms" ++ delimiter ++ join delimiter headerList ++ "\n")
          "timestamp" "TIMESTAMP").data).filter
            (fun x => decide (x ≠ ':' ∧ x ≠ '_' ∧ x ≠ '.')) ∧
      ¬ "timestamp".data <:+:
        (replace ("timestamp_ms" ++ delimiter ++ join delimiter headerList ++ "\n")
          "timestamp" "TIMESTAMP").data := by
  refine ⟨?_, headerLine_filter delimiter headerList, ?_⟩
  · intro c hc
    rw [headerLine_filter, List.mem_filter] at hc
    simpa using hc.2
  · exact not_infix_replaceGo "timestamp".data "TIMESTAMP".data (by decide) (by decide)
      (by decide) _ _ (Nat.le_refl _)

/-! ## The output file name -/

theorem splitGo_part (p : List Char) (hp : '.' ∉ p) : ∀ (cur rest : List Char),
    splitGo ['.'] 0 cur (p ++ rest) = splitGo ['.'] 0 (p.reverse ++ cur) rest := by
  induction p with
  | nil => intro cur rest; rfl
  | cons c p ih =>
    intro cur rest
    have hc : ('.' == c) = false := by
      simp only [beq_eq_false_iff_ne, ne_eq]
      intro e
      exact hp (e ▸ List.mem_cons_self _ _)
    rw [List.cons_append, splitGo]
    simp only [List.isPrefixOf, hc, Bool.false_and, Bool.false_eq_true, if_false]
    rw [ih (fun h => hp (List.mem_cons_of_mem _ h))]
    simp

theorem splitGo_dot (cur rest : List Char) :
    splitGo ['.'] 0 cur ('.' :: rest) = cur.reverse :: splitGo ['.'] 0 [] rest := by
  rw [splitGo]
  simp [List.isPrefixOf]

theorem join_cons_cons_data (a b : String) (l : List String) :
    (join "." (a :: b :: l)).data = a.data ++ '.' :: (join "." (b :: l)).data := by
  rw [join]
  simp only [String.data_append, List.append_assoc]
  rfl

/-- Splitting at `.` undoes joining by `.` for parts without a `.`. -/
theorem splitGo_join : ∀ (parts : List String), parts ≠ [] →
    (∀ p ∈ parts, '.' ∉ p.data) →
    (splitGo ['.'] 0 [] (join "." parts).data).map String.mk = parts
  | [], h, _ => absurd rfl h
  | [a], _, hp => by
    have := splitGo_part a.data (hp a (List.mem_singleton_self _)) [] []
    rw [List.append_nil] at this
    simp [join, this, splitGo]
  | a :: b :: l, _, hp => by
    rw [join_cons_cons_data, splitGo_part a.data (hp a (List.mem_cons_self _ _)), splitGo_dot]
    simp only [List.append_nil, List.reverse_reverse, List.map_cons]
    rw [splitGo_join (b :: l) (by simp) (fun p h => hp p (List.mem_cons_of_mem _ h))]

theorem split_join (parts : List String) (hne : parts ≠ [])
    (hp : ∀ p ∈ parts, '.' ∉ p.data) : split "." (join "." parts) = parts := by
  unfold split
  rw [if_neg (by decide)]
  exact splitGo_join parts hne hp

theorem splitSkipEmpty_join (parts : List String) (hne : parts ≠ [])
    (hp : ∀ p ∈ parts, p ≠ "" ∧ '.' ∉ p.data) :
    splitSkipEmpty "." (join "." parts) = parts := by
  unfold splitSkipEmpty
  rw [split_join parts hne (fun p h => (hp p h).2)]
  apply List.filter_eq_self.2
  intro p h
  simpa using (hp p h).1

theorem set_last {α : Type} (l : List α) (a b : α) :
    (l ++ [a]).set l.length b = l ++ [b] := by
  induction l with
  | nil => rfl
  | cons x l ih => simp [ih]

theorem insertBeforeFirstDot_append (ins p rest : List Char) (hp : '.' ∉ p) :
    insertBeforeFirstDot ins (p ++ '.' :: rest) = p ++ ins ++ '.' :: rest := by
  induction p with
  | nil => simp [insertBeforeFirstDot]
  | cons c p ih =>
    have hc : c ≠ '.' := fun e => hp (e ▸ List.mem_cons_self _ _)
    rw [List.cons_append, insertBeforeFirstDot, if_neg hc,
      ih (fun h => hp (List.mem_cons_of_mem _ h))]
    simp

theorem dropWhile_append_of_all (f : Char → Bool) (l r : List Char)
    (h : ∀ c ∈ l, f c = true) : (l ++ r).dropWhile f = r.dropWhile f := by
  induction l with
  | nil => rfl
  | cons c l ih =>
    rw [List.cons_append, List.dropWhile_cons, if_pos (h c (List.mem_cons_self _ _))]
    exact ih (fun x hx => h x (List.mem_cons_of_mem _ hx))

theorem replaceAfterLastDot_append (ext x e : List Char) (he : '.' ∉ e) :
    replaceAfterLastDot ext (x ++ '.' :: e) = x ++ '.' :: ext := by
  unfold replaceAfterLastDot
  rw [if_pos (by simp)]
  have hrev : (x ++ '.' :: e).reverse = e.reverse ++ ('.' :: x.reverse) := by simp
  rw [hrev, dropWhile_append_of_all _ _ _ (fun c hc => by
    have hc' : c ≠ '.' := fun e' => he (e' ▸ List.mem_reverse.1 hc)
    simpa using hc')]
  simp

theorem join_append_singleton_data (d : String) : ∀ (l : List String) (a : String), l ≠ [] →
    (join d (l ++ [a])).data = (join d l).data ++ d.data ++ a.data
  | [], _, h => absurd rfl h
  | [b], a, _ => by simp [join]
  | b :: c :: l, a, _ => by
    have ih := join_append_singleton_data d (c :: l) a (by simp)
    simp only [List.cons_append] at ih ⊢
    rw [join, String.data_append, String.data_append, ih]
    conv_rhs => rw [join]
    simp

/-- For a path of parts without a `.`, the name that the specification words is the parts
joined again, with `_compressed` appended to the first and `txt` for the last. -/
theorem specOutFileName_join (stem ext : String) (mid : List String)
    (hdot : ∀ p ∈ stem :: mid ++ [ext], '.' ∉ p.data) :
    specOutFileName (join "." (stem :: mid ++ [ext])) =
      join "." ((stem ++ "_compressed") :: mid ++ ["txt"]) := by
  have hstem : '.' ∉ stem.data := hdot stem (List.mem_cons_self _ _)
  have hext : '.' ∉ ext.data := hdot ext (by simp)
  have h₁ : (join "." (stem :: mid ++ [ext])).data =
      stem.data ++ '.' :: (join "." (mid ++ [ext])).data := by
    cases mid with
    | nil => simp [join]
    | cons m mid => exact join_cons_cons_data stem m (mid ++ [ext])
  have h₂ : stem.data ++ "_compressed".data ++ '.' :: (join "." (mid ++ [ext])).data =
      (join "." ((stem ++ "_compressed") :: mid ++ [ext])).data := by
    cases mid with
    | nil => simp [join]
    | cons m mid =>
      simp only [List.cons_append]
      rw [join_cons_cons_data]
      simp
  have h₃ : (join "." ((stem ++ "_compressed") :: mid ++ [ext])).data =
      (join "." ((stem ++ "_compressed") :: mid)).data ++ '.' :: ext.data := by
    rw [join_append_singleton_data "." ((stem ++ "_compressed") :: mid) ext (by simp)]
    simp
  have h₄ : (join "." ((stem ++ "_compressed") :: mid ++ ["txt"])).data =
      (join "." ((stem ++ "_compressed") :: mid)).data ++ '.' :: "txt".data := by
    rw [join_append_singleton_data "." ((stem ++ "_compressed") :: mid) "txt" (by simp)]
    simp
  apply String.ext
  unfold specOutFileName
  rw [h₁, insertBeforeFirstDot_append _ _ _ hstem, h₂, h₃,
    replaceAfterLastDot_append _ _ _ hext, h₄]

/-- The output file name of parts without a `.` joined by `.`: the parts that are not empty
are joined again, so the name has as many parts as the path has non-empty parts. -/
theorem outFileName_join (parts : List String) (hne : parts ≠ [])
    (hdot : ∀ p ∈ parts, '.' ∉ p.data) (name : String)
    (h : outFileName (join "." parts) = some name) :
    ∃ out, name = join "." out ∧ out ≠ [] ∧ (∀ p ∈ out, '.' ∉ p.data) ∧
      out.length = (parts.filter (fun t => t ≠ "")).length := by
  unfold outFileName splitSkipEmpty at h
  rw [split_join parts hne hdot] at h
  have hN : ∀ p ∈ parts.filter (fun t => t ≠ ""), '.' ∉ p.data :=
    fun p hp => hdot p (List.mem_filter.1 hp).1
  generalize parts.filter (fun t => t ≠ "") = N at h hN ⊢
  match N, h, hN with
  | [], h, _ => simp [QList.at] at h
  | n :: N, h, hN =>
    simp only [QList.at, QList.replace, List.getElem?_cons_zero, List.length_cons,
      Nat.zero_lt_succ, if_true, List.set_cons_zero] at h
    rw [if_pos (by omega)] at h
    refine ⟨_, (Option.some.inj h).symm, ?_, ?_, by simp⟩
    · intro e
      have := congrArg List.length e
      simp at this
    · intro p hp
      rcases List.mem_or_eq_of_mem_set hp with hp | hp
      · rcases List.mem_cons.1 hp with hp | hp
        · rw [hp, String.data_append, List.mem_append]
          rintro (hc | hc)
          · exact hN n (List.mem_cons_self _ _) hc
          · revert hc; decide
        · exact hN p (List.mem_cons_of_mem _ hp)
      · rw [hp]; decide

/-- C12, as stated, fails: the path `/data/a.b..c` has a `.` that separates the non-empty
parts `/data/a` and `b`, but the name computed is `/data/a_compressed.b.txt`, whereas the
path with `_compressed` before its first `.` and `txt` after its last `.` is
`/data/a_compressed.b..txt`: the empty part between the two adjacent dots is dropped.
Likewise `/data/x.log.` gives `/data/x_compressed.txt`, not `/data/x_compressed.log.txt`. -/
theorem C12_output_file_name_counterexample :
    outFileName "/data/a.b..c" = some "/data/a_compressed.b.txt" ∧
      specOutFileName "/data/a.b..c" = "/data/a_compressed.b..txt" ∧
      outFileName "/data/a.b..c" ≠ some (specOutFileName "/data/a.b..c") ∧
      outFileName "/data/x.log." = some "/data/x_compressed.txt" ∧
      specOutFileName "/data/x.log." = "/data/x_compressed.log.txt" ∧
      outFileName "/data/x.log." ≠ some (specOutFileName "/data/x.log.") := by
  decide

/-- C12, amended: take a path with at least one `.`, that is the parts `stem`, `mid` (any
number of them) and `ext`, none containing a `.`, joined by `.`.  The path with
`_compressed` inserted before its first `.` and the text after its last `.` replaced by
`txt` is the parts joined again with `_compressed` appended to the first and `txt` for the
last.  The output file name computed is this name if and only if every part is non-empty
(no `.` at either end of the path and no two adjacent dots); then for a single `.` the name
of `stem.ext` is `stem_compressed.txt`.  The name is a function of the path alone. -/
theorem C12_output_file_name (stem ext : String) (mid : List String)
    (hdot : ∀ p ∈ stem :: mid ++ [ext], '.' ∉ p.data) :
    specOutFileName (join "." (stem :: mid ++ [ext])) =
        join "." ((stem ++ "_compressed") :: mid ++ ["txt"]) ∧
      (outFileName (join "." (stem :: mid ++ [ext])) =
          some (specOutFileName (join "." (stem :: mid ++ [ext]))) ↔
        ∀ p ∈ stem :: mid ++ [ext], p ≠ "") ∧
      ((∀ p ∈ stem :: mid ++ [ext], p ≠ "") →
        outFileName (join "." (stem :: mid ++ [ext])) =
          some (join "." ((stem ++ "_compressed") :: mid ++ ["txt"])) ∧
        (mid = [] →
          outFileName (stem ++ "." ++ ext) = some (stem ++ "_compressed" ++ "." ++ "txt"))) := by
  have hspec := specOutFileName_join stem ext mid hdot
  have key : (∀ p ∈ stem :: mid ++ [ext], p ≠ "") →
      outFileName (join "." (stem :: mid ++ [ext])) =
        some (join "." ((stem ++ "_compressed") :: mid ++ ["txt"])) := by
    intro hne
    unfold outFileName
    rw [splitSkipEmpty_join _ (by simp) (fun p hp => ⟨hne p hp, hdot p hp⟩)]
    have h₁ : ((stem ++ "_compressed") :: (mid ++ [ext])).length - 1 =
        ((stem ++ "_compressed") :: mid).length := by simp
    have h₂ : ((stem ++ "_compressed") :: (mid ++ [ext])).set
        ((stem ++ "_compressed") :: mid).length "txt" =
        (stem ++ "_compressed") :: (mid ++ ["txt"]) :=
      set_last ((stem ++ "_compressed") :: mid) ext "txt"
    have h₃ : ((stem ++ "_compressed") :: mid).length <
        ((stem ++ "_compressed") :: (mid ++ [ext])).length := by simp
    simp only [QList.at, QList.replace, List.cons_append, List.getElem?_cons_zero,
      List.length_cons, Nat.zero_lt_succ, if_true, List.set_cons_zero]
    simp only [List.length_cons] at h₁ h₂ h₃
    simp only [h₁, h₃, if_true, h₂]
  refine ⟨hspec, ⟨?_, fun hne => by rw [hspec]; exact key hne⟩, fun hne => ⟨key hne, ?_⟩⟩
  · intro h
    rw [hspec] at h
    obtain ⟨out, hout, hne, hod, hlen⟩ :=
      outFileName_join (stem :: mid ++ [ext]) (by simp) hdot _ h
    have hmd : ∀ p ∈ (stem ++ "_compressed") :: mid ++ ["txt"], '.' ∉ p.data := by
      intro p hp
      rcases List.mem_cons.1 hp with hp | hp
      · rw [hp, String.data_append, List.mem_append]
        rintro (hc | hc)
        · exact hdot stem (List.mem_cons_self _ _) hc
        · revert hc; decide
      · rcases List.mem_append.1 hp with hp | hp
        · exact hdot p (by simp [hp])
        · rw [List.mem_singleton.1 hp]; decide
    have heq : (stem ++ "_compressed") :: mid ++ ["txt"] = out := by
      rw [← split_join _ (by simp) hmd, hout, split_join out hne hod]
    have hl : (stem :: mid ++ [ext]).length =
        ((stem :: mid ++ [ext]).filter (fun t => t ≠ "")).length := by
      rw [← hlen, ← heq]
      simp
    have hall := List.filter_eq_self.1
      ((List.filter_sublist (stem :: mid ++ [ext])).eq_of_length hl.symm)
    intro p hp
    simpa using hall p hp
  · intro hm
    subst hm
    exact key hne

theorem C12_output_file_name_witness :
    (∀ p ∈ "/data/flight" :: ["2011", "tar"] ++ ["gz"], '.' ∉ p.data) ∧
      (∀ p ∈ "/data/flight" :: ["2011", "tar"] ++ ["gz"], p ≠ "") ∧
      specOutFileName (join "." ("/data/flight" :: ["2011", "tar"] ++ ["gz"])) =
        join "." (("/data/flight" ++ "_compressed") :: ["2011", "tar"] ++ ["txt"]) ∧
      outFileName (join "." ("/data/flight" :: ["2011", "tar"] ++ ["gz"])) =
        some (specOutFileName (join "." ("/data/flight" :: ["2011", "tar"] ++ ["gz"]))) ∧
      outFileName (join "." ("/data/flight" :: ["2011", "tar"] ++ ["gz"])) =
        some (join "." (("/data/flight" ++ "_compressed") :: ["2011", "tar"] ++ ["txt"])) :=
  have h := C12_output_file_name "/data/flight" "gz" ["2011", "tar"] (by decide)
  ⟨by decide, by decide, h.1, h.2.1.2 (by decide), (h.2.2 (by decide)).1⟩

/-- C19: for a path without a `.` (and with a `/`, as every absolute path has) the output
file name is exactly `txt`: the only part gets `_compressed` appended and is then replaced
as the last part.  The name contains neither the input path nor `_compressed`. -/
theorem C19_extensionless_path (absoluteFilePath : String)
    (hdot : '.' ∉ absoluteFilePath.data) (hslash : '/' ∈ absoluteFilePath.data) :
    outFileName absoluteFilePath = some "txt" ∧
      ¬ absoluteFilePath.data <:+: "txt".data ∧
      ¬ "_compressed".data <:+: "txt".data := by
  have hne : absoluteFilePath ≠ "" := by
    intro e
    rw [e] at hslash
    cases hslash
  refine ⟨?_, ?_, by decide⟩
  · have hs := splitSkipEmpty_join [absoluteFilePath] (by simp)
      (by
        intro p hp
        rw [List.mem_singleton] at hp
        subst hp
        exact ⟨hne, hdot⟩)
    simp only [join] at hs
    unfold outFileName
    rw [hs]
    rfl
  · intro h
    have hmem : '/' ∈ "txt".data := h.subset hslash
    revert hmem
    decide

theorem C19_extensionless_path_witness :
    '.' ∉ "/home/pilot/flightlog".data ∧ '/' ∈ "/home/pilot/flightlog".data ∧
      outFileName "/home/pilot/flightlog" = some "txt" ∧
      ¬ "/home/pilot/flightlog".data <:+: "txt".data ∧
      ¬ "_compressed".data <:+: "txt".data :=
  ⟨by decide, by decide, C19_extensionless_path "/home/pilot/flightlog" (by decide) (by decide)⟩

/-! ## Failed runs -/

/-- A run whose input file cannot be opened emits the diagnostic and leaves the object as
it was, `running` included. -/
theorem runThread_input_unreadable (self : State) (absoluteFilePath : String)
    (absolute : String → String) (outWritable : String → Bool) :
    runThread self absoluteFilePath absolute none outWritable =
      some (self,
        [Signal.logProcessingStatusChanged (Status.inputNotReadable absoluteFilePath)],
        none) :=
  rfl

/-- A run whose output file cannot be opened emits the diagnostic and leaves the object as
it was, `running` included. -/
theorem runThread_output_unwritable (self : State) (absoluteFilePath name : String)
    (absolute : String → String) (lines : List String) (outWritable : String → Bool)
    (hname : outFileName absoluteFilePath = some name) (hw : outWritable name = false) :
    runThread self absoluteFilePath absolute (some lines) outWritable =
      some (self,
        [Signal.logProcessingStatusChanged (Status.outputNotWritable (absolute name))],
        none) := by
  simp [runThread, hname, hw]

/-- The run of the four lines used for the completed run: a header of two fields and one
row. -/
theorem run_flight :
    run true "," ("0,_,alt,9" :: scenarioA) =
      some ("TIMESTAMPms,alt,spd\n", [["2", "11", "5"]]) := by
  decide

/-- C13 fails on the code.  A compressor constructed for `/data/missing.log` and started
whose input file cannot be opened emits one status message, the diagnostic, and no
completion event, but `isFinished()` is false afterwards: the early `return` leaves
`running` true.  The same holds when the output file `/data/flight_compressed.txt` cannot be
opened.  A completed run (third part) does set `running` to false.  This holds whatever
`QFileInfo::absoluteFilePath` makes of the output file name. -/
theorem C13_failed_run_not_finished (absolute : String → String) :
    (runThread (startCompression (State.init "/data/missing.log" "" ",") true)
        "/data/missing.log" absolute none (fun _ => true)).map
        (fun r => (r.2.1, isFinished r.1)) =
      some ([Signal.logProcessingStatusChanged (Status.inputNotReadable "/data/missing.log")],
        false) ∧
    (runThread (startCompression (State.init "/data/flight.log" "" ",") true)
        "/data/flight.log" absolute (some ("0,_,alt,9" :: scenarioA)) (fun _ => false)).map
        (fun r => (r.2.1, isFinished r.1)) =
      some ([Signal.logProcessingStatusChanged
        (Status.outputNotWritable (absolute "/data/flight_compressed.txt"))], false) ∧
    (runThread (startCompression (State.init "/data/flight.log" "" ",") true)
        "/data/flight.log" absolute (some ("0,_,alt,9" :: scenarioA)) (fun _ => true)).map
        (fun r => (r.2.1, isFinished r.1)) =
      some ([Signal.logProcessingStatusChanged (Status.datasetDimensions "TIMESTAMPms,alt,spd\n"),
        Signal.logProcessingStatusChanged
          (Status.writingOutput (absolute "/data/flight_compressed.txt")),
        Signal.logProcessingStatusChanged
          (Status.finishedProcessing "/data/flight_compressed.txt"),
        Signal.finishedFile "/data/flight_compressed.txt"], true) := by
  have hname : outFileName "/data/flight.log" = some "/data/flight_compressed.txt" := by decide
  refine ⟨rfl, ?_, ?_⟩
  · rw [runThread_output_unwritable _ _ _ absolute _ _ hname rfl]
    rfl
  · simp only [runThread, hname, startCompression, State.init, run_flight]
    rfl

/-! ## Tokens 1 and 4 onwards -/

/-- C14: two inputs whose lines agree pairwise on tokens 0, 2 and 3, every line having at
least 4 tokens, give the same run: the same header line and the same rows, and so the same
text written, for both hole filling settings. -/
theorem C14_other_tokens_ignored (holeFillingEnabled : Bool) (delimiter : String)
    (lines lines' : List String)
    (h : List.Forall₂ (fun l l' =>
      4 ≤ (split delimiter l).length ∧ 4 ≤ (split delimiter l').length ∧
      tokenAt delimiter l 0 = tokenAt delimiter l' 0 ∧
      tokenAt delimiter l 2 = tokenAt delimiter l' 2 ∧
      tokenAt delimiter l 3 = tokenAt delimiter l' 3) lines lines') :
    run holeFillingEnabled delimiter lines = run holeFillingEnabled delimiter lines' ∧
      written holeFillingEnabled delimiter lines =
        written holeFillingEnabled delimiter lines' := by
  have hrun : run holeFillingEnabled delimiter lines =
      run holeFillingEnabled delimiter lines' := by
    apply run_congr
    apply h.imp
    intro l l' ⟨h₁, h₂, e0, e2, e3⟩
    refine ⟨?_, ?_, ?_⟩
    · rw [getElem?_split_of_lt (show 0 < (split delimiter l).length by omega),
        getElem?_split_of_lt (show 0 < (split delimiter l').length by omega), e0]
    · rw [getElem?_split_of_lt (show 2 < (split delimiter l).length by omega),
        getElem?_split_of_lt (show 2 < (split delimiter l').length by omega), e2]
    · rw [getElem?_split_of_lt (show 3 < (split delimiter l).length by omega),
        getElem?_split_of_lt (show 3 < (split delimiter l').length by omega), e3]
  exact ⟨hrun, by simp only [written, hrun]⟩

theorem C14_other_tokens_ignored_witness :
    List.Forall₂ (fun l l' =>
        4 ≤ (split "," l).length ∧ 4 ≤ (split "," l').length ∧
        tokenAt "," l 0 = tokenAt "," l' 0 ∧ tokenAt "," l 2 = tokenAt "," l' 2 ∧
        tokenAt "," l 3 = tokenAt "," l' 3)
        ["1,a,alt,10", "2,b,alt,11,x,y", "3,_,spd,5", "4,_,alt,12"]
        ["1,zz,alt,10,extra", "2,,alt,11", "3,q,spd,5,7", "4,_,alt,12"] ∧
      run true "," ["1,a,alt,10", "2,b,alt,11,x,y", "3,_,spd,5", "4,_,alt,12"] =
        run true "," ["1,zz,alt,10,extra", "2,,alt,11", "3,q,spd,5,7", "4,_,alt,12"] ∧
      written true "," ["1,a,alt,10", "2,b,alt,11,x,y", "3,_,spd,5", "4,_,alt,12"] =
        written true "," ["1,zz,alt,10,extra", "2,,alt,11", "3,q,spd,5,7", "4,_,alt,12"] :=
  ⟨List.Forall₂.cons (by decide) (List.Forall₂.cons (by decide)
      (List.Forall₂.cons (by decide) (List.Forall₂.cons (by decide) List.Forall₂.nil))),
    C14_other_tokens_ignored true ","
      ["1,a,alt,10", "2,b,alt,11,x,y", "3,_,spd,5", "4,_,alt,12"]
      ["1,zz,alt,10,extra", "2,,alt,11", "3,q,spd,5,7", "4,_,alt,12"]
      (List.Forall₂.cons (by decide) (List.Forall₂.cons (by decide)
        (List.Forall₂.cons (by decide) (List.Forall₂.cons (by decide) List.Forall₂.nil))))⟩

/-! ## Cells without any earlier value -/

theorem sorted_getElem?_le (l : List Nat) (hs : l.Sorted (fun a b => a < b)) {q i a b : Nat}
    (hq : q ≤ i) (ha : l[q]? = some a) (hb : l[i]? = some b) : a ≤ b := by
  obtain ⟨hq', rfl⟩ := List.getElem?_eq_some.1 ha
  obtain ⟨hi', rfl⟩ := List.getElem?_eq_some.1 hb
  rcases Nat.lt_or_eq_of_le hq with h | h
  · exact Nat.le_of_lt (List.pairwise_iff_getElem.1 hs q i hq' hi' h)
  · subst h; exact Nat.le_refl _

theorem getD_templateList_true (l : List String) (c : Nat) (hc : c < l.length + 1) :
    (templateList true l).getD c "" = "NaN" := by
  simp [templateList, List.getD, List.getElem?_replicate, hc]

/-- The pivoted cell of a column is `"NaN"` in a row whose timestamp lies before every
observation of the field of that column. -/
theorem pivotRow_cell_NaN (d : String) (mm : List (String × Nat)) (lines : List String)
    (f : String) (c : Nat) (hidx : ∀ n, QMap.value qstringLess mm n 0 = c ↔ n = f)
    (hc : c < (QMap.keys mm).length + 1) (t : Nat)
    (hnone : ∀ l ∈ lines, nameOf d l = f → t < timestampOf d l) :
    (pivotRow d mm t (templateList true (QMap.keys mm)) lines).getD c "" = "NaN" := by
  have hfind : lines.reverse.find? (fun l => timestampOf d l = t ∧ nameOf d l = f) = none := by
    rw [List.find?_eq_none]
    intro l hl
    have hl' : l ∈ lines := List.mem_reverse.1 hl
    simp only [decide_eq_true_eq, not_and]
    intro ht hn
    have := hnone l hl' hn
    omega
  have := pivotRow_cell d mm t f c hidx lines (templateList true (QMap.keys mm))
    (by rw [templateList_length]; exact hc)
  rw [hfind] at this
  simp only [List.getD_eq_getElem?_getD, this, Option.getD_some]
  rw [← List.getD_eq_getElem?_getD]
  exact getD_templateList_true _ _ hc

/-- C15: with hole filling enabled (every line of at least 4 tokens, two distinct
timestamps) the run completes, and in the written row of timestamp `t` the cell of a schema
field `f` (column `c`) is the string `NaN` when the input has no observation of `f` at
timestamp `t` or at an earlier timestamp. -/
theorem C15_no_previous_value_is_NaN (delimiter : String) (lines : List String)
    (h4 : ∀ l ∈ lines, 4 ≤ (split delimiter l).length)
    (h2 : ∃ l₁ ∈ lines, ∃ l₂ ∈ lines, timestampOf delimiter l₁ ≠ timestampOf delimiter l₂) :
    ∃ messageMap header rows, discover delimiter lines = some messageMap ∧
      run true delimiter lines = some (header, rows) ∧
      rows.length = ((sortedTimestamps delimiter lines).drop 2).length ∧
      ∀ (i t : Nat) (f : String) (c : Nat),
        ((sortedTimestamps delimiter lines).drop 2)[i]? = some t →
        (f, c) ∈ messageMap →
        (∀ l ∈ lines, nameOf delimiter l = f → t < timestampOf delimiter l) →
        cellOf rows i c = "NaN" := by
  obtain ⟨mm, last, hd, hs, _, hv, _, hlast, hrun⟩ := run_spec true delimiter lines h4 h2
  have hw : 0 < (QMap.keys mm).length + 1 := by omega
  have hrowsT := row_length_pivotTable true delimiter mm lines
  have hlastlen := last_length _ _ _ _ _ hlast
  refine ⟨mm, _, _, hd, hrun, ?_, ?_⟩
  · have := congrArg List.length (emitRows_heads true ((QMap.keys mm).length + 1) hw
      ((pivotTable true delimiter mm lines).drop 2) 2 last (by omega) hlastlen
      (fun e he => hrowsT e (List.mem_of_mem_drop he)))
    simpa [pivotTable] using this
  · intro i t f c hi hfc hnone
    obtain ⟨hc1, hc2, hidx⟩ := schema_entry hs hv hfc
    have hkl : (QMap.keys mm).length = mm.length := by simp [QMap.keys]
    have hcw : c < (QMap.keys mm).length + 1 := by omega
    have hsorted := sortedTimestamps_sorted delimiter lines
    have hi' : (sortedTimestamps delimiter lines)[2 + i]? = some t := by
      rwa [List.getElem?_drop] at hi
    have hilen : 2 + i < (sortedTimestamps delimiter lines).length :=
      (List.getElem?_eq_some.1 hi').1
    -- the cell is `NaN` in every row up to the one of `t`
    have hcell : ∀ q t', q ≤ 2 + i → (sortedTimestamps delimiter lines)[q]? = some t' →
        (pivotRow delimiter mm t' (templateList true (QMap.keys mm)) lines).getD c "" =
          "NaN" := by
      intro q t' hq ht'
      have hle := sorted_getElem?_le _ hsorted hq ht' hi'
      exact pivotRow_cell_NaN delimiter mm lines f c hidx hcw t'
        (fun l hl hn => Nat.lt_of_le_of_lt hle (hnone l hl hn))
    rw [emitRows_cell ((QMap.keys mm).length + 1) c hc1 hcw _ 2 last i (by omega) hlastlen
      (fun e he => hrowsT e (List.mem_of_mem_drop he))
      (by rw [List.length_drop, length_pivotTable]; omega)]
    have hlastcell : last.getD c "" = "NaN" := by
      obtain ⟨h1, hl⟩ := List.getElem?_eq_some.1 hlast
      have h1' : 1 < (sortedTimestamps delimiter lines).length := by omega
      rw [← hl]
      simp only [pivotTable, List.map_map, List.getElem_map]
      exact hcell 1 _ (by omega) (List.getElem?_eq_getElem h1')
    rw [foldl_fill_holes _ _ ?_, hlastcell]
    intro p hp
    simp only [pivotTable, List.map_drop, List.map_take, List.map_map] at hp
    obtain ⟨q, hq, rfl⟩ := List.getElem_of_mem hp
    simp only [List.length_take, List.length_drop, List.length_map] at hq
    simp only [List.getElem_take, List.getElem_drop, List.getElem_map, Function.comp]
    rw [hcell (2 + q) _ (by omega) (List.getElem?_eq_getElem (by omega))]
    decide

theorem C15_no_previous_value_is_NaN_witness :
    (∀ l ∈ ["1,_,alt,9", "2,_,alt,10", "3,_,alt,11", "4,_,spd,5"],
        4 ≤ (split "," l).length) ∧
      (∃ l₁ ∈ ["1,_,alt,9", "2,_,alt,10", "3,_,alt,11", "4,_,spd,5"],
        ∃ l₂ ∈ ["1,_,alt,9", "2,_,alt,10", "3,_,alt,11", "4,_,spd,5"],
        timestampOf "," l₁ ≠ timestampOf "," l₂) ∧
      ∃ messageMap header rows,
        discover "," ["1,_,alt,9", "2,_,alt,10", "3,_,alt,11", "4,_,spd,5"] =
          some messageMap ∧
        run true "," ["1,_,alt,9", "2,_,alt,10", "3,_,alt,11", "4,_,spd,5"] =
          some (header, rows) ∧
        rows.length = ((sortedTimestamps "," ["1,_,alt,9", "2,_,alt,10", "3,_,alt,11",
          "4,_,spd,5"]).drop 2).length ∧
        ∀ (i t : Nat) (f : String) (c : Nat),
          ((sortedTimestamps "," ["1,_,alt,9", "2,_,alt,10", "3,_,alt,11",
            "4,_,spd,5"]).drop 2)[i]? = some t →
          (f, c) ∈ messageMap →
          (∀ l ∈ ["1,_,alt,9", "2,_,alt,10", "3,_,alt,11", "4,_,spd,5"],
            nameOf "," l = f → t < timestampOf "," l) →
          cellOf rows i c = "NaN" :=
  ⟨by decide, by decide, C15_no_previous_value_is_NaN "," _ (by decide) (by decide)⟩

/-! ## The fill step, row by row -/

/-- Each written row is the fill of its pivoted row, with the timestamp in cell 0, from the
row written before it, and from `lastList` for the first one. -/
theorem emitRows_getElem? (hf : Bool) :
    ∀ (rest : List (Nat × List String)) (lc : Nat) (last : List String) (n : Nat)
      (hn : n < rest.length), 1 < lc →
    (emitRows hf lc last rest)[n]? =
      some (fillRow hf (if n = 0 then last else (emitRows hf lc last rest).getD (n - 1) [])
        ((rest[n]).2.set 0 (arg (rest[n]).1)))
  | [], _, _, _, hn, _ => by simp at hn
  | (key, list) :: rest, lc, last, n, hn, hlc => by
    unfold emitRows
    simp only [gt_iff_lt, hlc, if_true]
    cases n with
    | zero => simp
    | succ n =>
      have ih := emitRows_getElem? hf rest (lc + 1) (fillRow hf last (list.set 0 (arg key))) n
        (by simpa using hn) (by omega)
      simp only [List.getElem?_cons_succ, ih, List.getElem_cons_succ, Nat.add_sub_cancel]
      cases n with
      | zero => simp
      | succ m => simp

theorem writeRows_keys (hf : Bool) (k₀ k₀' : Nat) (ks : List Nat) :
    ∀ (vs : List (List String)) (lc : Nat) (last : List String), 1 ≤ lc →
    writeRows hf (k₀ :: ks) vs lc last = writeRows hf (k₀' :: ks) vs lc last
  | [], _, _, _ => rfl
  | list :: rest, lc, last, hlc => by
    obtain ⟨j, rfl⟩ : ∃ j, lc = j + 1 := ⟨lc - 1, by omega⟩
    unfold writeRows
    simp only [QList.at, List.getElem?_cons_succ]
    split
    · cases ks[j]? with
      | none => rfl
      | some key =>
        simp only []
        cases QList.replace list 0 (arg key) with
        | none => rfl
        | some list' =>
          simp only []
          cases (if hf = true then fillHoles last list' 0 list' else some list') with
          | none => rfl
          | some r =>
            simp only []
            rw [writeRows_keys hf k₀ k₀' ks rest (j + 1 + 1) r (by omega)]
    · exact writeRows_keys hf k₀ k₀' ks rest (j + 1 + 1) last (by omega)

/-- The first entry of the map of timestamps is not read by the write loop. -/
theorem writeRows_first (hf : Bool) (e₀ e₀' : Nat × List String)
    (tl : List (Nat × List String)) (last : List String) :
    writeRows hf (QMap.keys (e₀ :: tl)) (QMap.values (e₀ :: tl)) 0 last =
      writeRows hf (QMap.keys (e₀' :: tl)) (QMap.values (e₀' :: tl)) 0 last := by
  simp only [QMap.keys, QMap.values, List.map_cons]
  rw [writeRows, writeRows]
  simp only [gt_iff_lt, Nat.not_lt_zero, if_false, Nat.zero_add]
  exact writeRows_keys hf _ _ _ _ 1 last (by omega)

theorem fillCell_eq (s p : String) : fillCell s p = if isHole s = true then p else s := by
  simp [fillCell, isHole]

theorem cellOf_of_short (rows : List (List String)) (n c : Nat)
    (h : ∀ row ∈ rows, row.length ≤ c) : cellOf rows n c = "" := by
  unfold cellOf
  by_cases hn : n < rows.length
  · have hrow : rows.getD n [] = rows[n] := List.getD_eq_getElem _ _ hn
    rw [hrow]
    exact List.getD_eq_default _ _ (h _ (List.getElem_mem _))
  · have hrow : rows.getD n [] = [] := List.getD_eq_default _ _ (by omega)
    rw [hrow]
    rfl

theorem cellOf_of_getElem? (rows : List (List String)) (n c : Nat) (row : List String)
    (h : rows[n]? = some row) : cellOf rows n c = row.getD c "" := by
  have hrow : rows.getD n [] = row := by
    rw [List.getD_eq_getElem?_getD, h]
    rfl
  unfold cellOf
  rw [hrow]

/-- C16, as stated, fails at cell 0: on three lines with the timestamps 1, 2, 3 the pivoted
cell 0 of the third row is `NaN`, a hole, and so is the pivoted cell 0 of the second row,
yet the cell 0 written for the third row is `3`, the timestamp, not the cell of the second
row. -/
theorem C16_fill_step_counterexample :
    pivot true "," ["1,_,alt,9", "2,_,alt,10", "3,_,spd,5"] =
        some [(1, ["NaN", "9", "NaN"]), (2, ["NaN", "10", "NaN"]), (3, ["NaN", "NaN", "5"])] ∧
      run true "," ["1,_,alt,9", "2,_,alt,10", "3,_,spd,5"] =
        some ("TIMESTAMPms,alt,spd\n", [["3", "10", "5"]]) ∧
      isHole (cellOf [["NaN", "9", "NaN"], ["NaN", "10", "NaN"], ["NaN", "NaN", "5"]] 2 0) =
        true ∧
      cellOf [["3", "10", "5"]] 0 0 ≠
        cellOf [["NaN", "9", "NaN"], ["NaN", "10", "NaN"], ["NaN", "NaN", "5"]] 1 0 := by
  decide

/-- C16, amended to the data cells: with hole filling enabled (every line of at least 4
tokens, two distinct timestamps) the run completes, and for every written row (row `i` of
the map of timestamps, `2 ≤ i`) and every column `c` with `1 ≤ c`: when the pivoted cell is
`""` or `"NaN"` (whoever put it there), the cell written is, for the first written row
(`i = 2`), the pivoted cell of the same column in row 1, and for a later row the cell of the
same column in the row written just before; otherwise the cell written is the pivoted
cell.  Cell 0 of a written row is the decimal rendering of its timestamp.  The first entry
of the map (the smallest timestamp) is not read: with any other entry in its place the
write loop writes the same rows. -/
theorem C16_fill_step (delimiter : String) (lines : List String)
    (h4 : ∀ l ∈ lines, 4 ≤ (split delimiter l).length)
    (h2 : ∃ l₁ ∈ lines, ∃ l₂ ∈ lines, timestampOf delimiter l₁ ≠ timestampOf delimiter l₂) :
    ∃ timestampMap header rows lastList,
      pivot true delimiter lines = some timestampMap ∧
      run true delimiter lines = some (header, rows) ∧
      rows.length + 2 = timestampMap.length ∧
      QList.at (QMap.values timestampMap) 1 = some lastList ∧
      (∀ i c : Nat, 2 ≤ i → i < timestampMap.length → 1 ≤ c →
        cellOf rows (i - 2) c =
          if isHole (cellOf (QMap.values timestampMap) i c) = true then
            (if i = 2 then cellOf (QMap.values timestampMap) 1 c else cellOf rows (i - 3) c)
          else cellOf (QMap.values timestampMap) i c) ∧
      (∀ i t : Nat, 2 ≤ i → (QMap.keys timestampMap)[i]? = some t →
        cellOf rows (i - 2) 0 = arg t) ∧
      (∀ e₀ : Nat × List String,
        writeRows true (QMap.keys (e₀ :: timestampMap.drop 1))
          (QMap.values (e₀ :: timestampMap.drop 1)) 0 lastList = some rows) := by
  obtain ⟨mm, last, _, _, _, _, hp, hlast, hrun⟩ := run_spec true delimiter lines h4 h2
  have hw : 0 < (QMap.keys mm).length + 1 := by omega
  have hrowsT := row_length_pivotTable true delimiter mm lines
  have hlastlen := last_length _ _ _ _ _ hlast
  have hlenT : 2 ≤ (pivotTable true delimiter mm lines).length := by
    rw [length_pivotTable]; exact two_le_sortedTimestamps delimiter lines h2
  have hrowsD : ∀ e ∈ (pivotTable true delimiter mm lines).drop 2,
      e.2.length = (QMap.keys mm).length + 1 := fun e he => hrowsT e (List.mem_of_mem_drop he)
  have hlenR : (emitRows true 2 last ((pivotTable true delimiter mm lines).drop 2)).length + 2 =
      (pivotTable true delimiter mm lines).length := by
    have := congrArg List.length (emitRows_heads true ((QMap.keys mm).length + 1) hw
      ((pivotTable true delimiter mm lines).drop 2) 2 last (by omega) hlastlen hrowsD)
    simp only [List.length_map, List.length_drop] at this
    omega
  have hlenRows := emitRows_lengths true ((QMap.keys mm).length + 1)
    ((pivotTable true delimiter mm lines).drop 2) 2 last hlastlen hrowsD
  refine ⟨_, _, _, last, hp, hrun, hlenR, hlast, ?_, ?_, ?_⟩
  · intro i c hi2 hi hc
    obtain ⟨n, rfl⟩ : ∃ n, i = n + 2 := ⟨i - 2, by omega⟩
    have hn : n < ((pivotTable true delimiter mm lines).drop 2).length := by
      rw [List.length_drop]; omega
    have hget := emitRows_getElem? true _ 2 last n hn (by omega)
    have hTi : ((pivotTable true delimiter mm lines).drop 2)[n] =
        (pivotTable true delimiter mm lines)[n + 2] := by
      rw [List.getElem_drop]
      congr 1
      omega
    have hrowlen : ((pivotTable true delimiter mm lines)[n + 2]).2.length =
        (QMap.keys mm).length + 1 := hrowsT _ (List.getElem_mem _)
    have hprevlen : (if n = 0 then last else
        (emitRows true 2 last ((pivotTable true delimiter mm lines).drop 2)).getD (n - 1)
          []).length = (QMap.keys mm).length + 1 := by
      split
      · exact hlastlen
      · rw [List.getD_eq_getElem _ _ (by omega)]
        exact hlenRows _ (List.getElem_mem _)
    have hcellT : cellOf (QMap.values (pivotTable true delimiter mm lines)) (n + 2) c =
        ((pivotTable true delimiter mm lines)[n + 2]).2.getD c "" :=
      cellOf_values _ _ _ hi
    have hrow : cellOf (emitRows true 2 last ((pivotTable true delimiter mm lines).drop 2))
        n c = (fillRow true (if n = 0 then last else
          (emitRows true 2 last ((pivotTable true delimiter mm lines).drop 2)).getD (n - 1) [])
          (((pivotTable true delimiter mm lines)[n + 2]).2.set 0
            (arg ((pivotTable true delimiter mm lines)[n + 2]).1))).getD c "" := by
      rw [hTi] at hget
      exact cellOf_of_getElem? _ _ _ _ hget
    have hsub : n + 2 - 2 = n := by omega
    rw [hsub, hrow, hcellT]
    by_cases hcw : c < (QMap.keys mm).length + 1
    · rw [fillRow_cell _ _ _ c hc (by rw [hrowlen, hprevlen]) (by rw [hrowlen]; exact hcw),
        fillCell_eq]
      split
      · by_cases hn0 : n = 0
        · subst hn0
          simp only [if_true]
          obtain ⟨h1, hl⟩ := List.getElem?_eq_some.1 hlast
          have hl' : last = ((pivotTable true delimiter mm lines)[1]).2 := by
            rw [← hl, List.getElem_map]
          rw [cellOf_values _ 1 c (by omega), ← hl']
        · have hne : ¬ n + 2 = 2 := by omega
          have h3 : n + 2 - 3 = n - 1 := by omega
          simp only [hn0, hne, if_false, h3]
          rfl
      · rfl
    · have hshort : (fillRow true (if n = 0 then last else
          (emitRows true 2 last ((pivotTable true delimiter mm lines).drop 2)).getD (n - 1) [])
          (((pivotTable true delimiter mm lines)[n + 2]).2.set 0
            (arg ((pivotTable true delimiter mm lines)[n + 2]).1))).getD c "" = "" := by
        apply List.getD_eq_default
        rw [fillRow_length _ _ _ (by rw [List.length_set, hrowlen, hprevlen])]
        simp only [List.length_set, hrowlen]
        omega
      have hT : ((pivotTable true delimiter mm lines)[n + 2]).2.getD c "" = "" :=
        List.getD_eq_default _ _ (by rw [hrowlen]; omega)
      have h1 : cellOf (QMap.values (pivotTable true delimiter mm lines)) 1 c = "" := by
        rw [cellOf_values _ 1 c (by omega)]
        exact List.getD_eq_default _ _ (by rw [hrowsT _ (List.getElem_mem _)]; omega)
      have h3 : cellOf (emitRows true 2 last ((pivotTable true delimiter mm lines).drop 2))
          (n + 2 - 3) c = "" :=
        cellOf_of_short _ _ _ (fun row hrow => by rw [hlenRows row hrow]; omega)
      rw [hshort, hT, h1, h3]
      simp [isHole]
  · intro i t hi2 hit
    obtain ⟨n, rfl⟩ : ∃ n, i = n + 2 := ⟨i - 2, by omega⟩
    obtain ⟨hi, hkey⟩ := List.getElem?_eq_some.1 hit
    have hi' : n + 2 < (pivotTable true delimiter mm lines).length := by
      simpa [QMap.keys] using hi
    have hn : n < ((pivotTable true delimiter mm lines).drop 2).length := by
      rw [List.length_drop]; omega
    have hget := emitRows_getElem? true _ 2 last n hn (by omega)
    have hTi : ((pivotTable true delimiter mm lines).drop 2)[n] =
        (pivotTable true delimiter mm lines)[n + 2] := by
      rw [List.getElem_drop]
      congr 1
      omega
    have hkey' : ((pivotTable true delimiter mm lines)[n + 2]).1 = t := by
      simpa [QMap.keys] using hkey
    have hrowlen : ((pivotTable true delimiter mm lines)[n + 2]).2.length =
        (QMap.keys mm).length + 1 := hrowsT _ (List.getElem_mem _)
    have hprevlen : (if n = 0 then last else
        (emitRows true 2 last ((pivotTable true delimiter mm lines).drop 2)).getD (n - 1)
          []).length = (QMap.keys mm).length + 1 := by
      split
      · exact hlastlen
      · rw [List.getD_eq_getElem _ _ (by omega)]
        exact hlenRows _ (List.getElem_mem _)
    rw [hTi, hkey'] at hget
    have hhead := head?_fillRow true (if n = 0 then last else
        (emitRows true 2 last ((pivotTable true delimiter mm lines).drop 2)).getD (n - 1) [])
      ((pivotTable true delimiter mm lines)[n + 2]).2 t (by omega) (by omega)
    have hsub : n + 2 - 2 = n := by omega
    rw [hsub, cellOf_of_getElem? _ _ _ _ hget, List.getD_eq_getElem?_getD,
      ← List.head?_eq_getElem?, hhead]
    rfl
  · intro e₀
    match hT : pivotTable true delimiter mm lines, hlenT with
    | e :: tl, _ =>
      rw [hT] at hlast
      have hwr := writeRows_eq true (pivotTable true delimiter mm lines)
        ((QMap.keys mm).length + 1) hw hrowsT (pivotTable true delimiter mm lines) 0 last rfl
        hlastlen
      rw [emitRows_drop, hT] at hwr
      simp only [List.drop_succ_cons, List.drop_zero]
      rw [writeRows_first true e₀ e tl last]
      exact hwr

theorem C16_fill_step_witness :
    (∀ l ∈ ["1,_,alt,9", "2,_,alt,10", "2,_,spd,5", "3,_,alt,NaN", "4,_,alt,12"],
        4 ≤ (split "," l).length) ∧
      (∃ l₁ ∈ ["1,_,alt,9", "2,_,alt,10", "2,_,spd,5", "3,_,alt,NaN", "4,_,alt,12"],
        ∃ l₂ ∈ ["1,_,alt,9", "2,_,alt,10", "2,_,spd,5", "3,_,alt,NaN", "4,_,alt,12"],
        timestampOf "," l₁ ≠ timestampOf "," l₂) ∧
      ∃ timestampMap header rows lastList,
        pivot true "," ["1,_,alt,9", "2,_,alt,10", "2,_,spd,5", "3,_,alt,NaN", "4,_,alt,12"] =
          some timestampMap ∧
        run true "," ["1,_,alt,9", "2,_,alt,10", "2,_,spd,5", "3,_,alt,NaN", "4,_,alt,12"] =
          some (header, rows) ∧
        rows.length + 2 = timestampMap.length ∧
        QList.at (QMap.values timestampMap) 1 = some lastList ∧
        (∀ i c : Nat, 2 ≤ i → i < timestampMap.length → 1 ≤ c →
          cellOf rows (i - 2) c =
            if isHole (cellOf (QMap.values timestampMap) i c) = true then
              (if i = 2 then cellOf (QMap.values timestampMap) 1 c else cellOf rows (i - 3) c)
            else cellOf (QMap.values timestampMap) i c) ∧
        (∀ i t : Nat, 2 ≤ i → (QMap.keys timestampMap)[i]? = some t →
          cellOf rows (i - 2) 0 = arg t) ∧
        (∀ e₀ : Nat × List String,
          writeRows true (QMap.keys (e₀ :: timestampMap.drop 1))
            (QMap.values (e₀ :: timestampMap.drop 1)) 0 lastList = some rows) :=
  ⟨by decide, by decide, C16_fill_step "," _ (by decide) (by decide)⟩

/-! ## Index safety -/

theorem run_none_of_short_line (hf : Bool) (d : String) (lines : List String)
    (h : ∃ l ∈ lines, (split d l).length < 4) : run hf d lines = none := by
  unfold run
  cases discover d lines with
  | none => rfl
  | some mm => simp only [fillTimestampMap_fail d mm _ lines [] h]

theorem exists_two_timestamps (d : String) (lines : List String)
    (h : 2 ≤ (sortedTimestamps d lines).length) :
    ∃ l₁ ∈ lines, ∃ l₂ ∈ lines, timestampOf d l₁ ≠ timestampOf d l₂ := by
  have hs := sortedTimestamps_sorted d lines
  have h01 : (sortedTimestamps d lines)[0] < (sortedTimestamps d lines)[1] :=
    List.pairwise_iff_getElem.1 hs 0 1 (by omega) (by omega) (by omega)
  have m0 := (mem_sortedTimestamps d lines _).1
    (List.getElem_mem (show 0 < (sortedTimestamps d lines).length by omega))
  have m1 := (mem_sortedTimestamps d lines _).1
    (List.getElem_mem (show 1 < (sortedTimestamps d lines).length by omega))
  obtain ⟨l₁, hl₁, e₁⟩ := List.mem_map.1 m0
  obtain ⟨l₂, hl₂, e₂⟩ := List.mem_map.1 m1
  exact ⟨l₁, hl₁, l₂, hl₂, by rw [e₁, e₂]; omega⟩

/-- With at least 4 tokens on every line but no two distinct timestamps, both passes
complete and the run ends at `timestampMap.values().at(1)`. -/
theorem run_none_of_single_timestamp (hf : Bool) (d : String) (lines : List String)
    (h4 : ∀ l ∈ lines, 4 ≤ (split d l).length)
    (h2 : ¬ ∃ l₁ ∈ lines, ∃ l₂ ∈ lines, timestampOf d l₁ ≠ timestampOf d l₂) :
    ∃ mm tm, discover d lines = some mm ∧ pivot hf d lines = some tm ∧
      QList.at (QMap.values tm) 1 = none ∧ run hf d lines = none := by
  obtain ⟨mm, hd, _, _, _, hp⟩ := pivot_spec hf d lines h4
  have hlen : (pivotTable hf d mm lines).length < 2 := by
    rw [length_pivotTable]
    by_contra hc
    exact h2 (exists_two_timestamps d lines (by omega))
  have hat : QList.at (QMap.values (pivotTable hf d mm lines)) 1 = none := by
    simp only [QList.at, QMap.values]
    exact List.getElem?_eq_none (by simp; omega)
  refine ⟨mm, _, hd, by simp [pivot, hd, hp], hat, ?_⟩
  simp only [run, hd, hp, hat]

/-- C17: once both files are open, the run performs no out-of-range list access, that is it
completes, if and only if every input line has at least 4 tokens and the input has two
distinct timestamps (as `toULongLong` reads them).  When every line has at least 4 tokens
but there are no two distinct timestamps, as for the empty input or an input with a single
timestamp, the key search and the pivot pass complete and the access that fails is
`timestampMap.values().at(1)`. -/
theorem C17_index_safety (holeFillingEnabled : Bool) (delimiter : String)
    (lines : List String) :
    ((run holeFillingEnabled delimiter lines).isSome = true ↔
      (∀ l ∈ lines, 4 ≤ (split delimiter l).length) ∧
        ∃ l₁ ∈ lines, ∃ l₂ ∈ lines, timestampOf delimiter l₁ ≠ timestampOf delimiter l₂) ∧
    ((∀ l ∈ lines, 4 ≤ (split delimiter l).length) →
      (¬ ∃ l₁ ∈ lines, ∃ l₂ ∈ lines, timestampOf delimiter l₁ ≠ timestampOf delimiter l₂) →
      ∃ messageMap timestampMap, discover delimiter lines = some messageMap ∧
        pivot holeFillingEnabled delimiter lines = some timestampMap ∧
        QList.at (QMap.values timestampMap) 1 = none ∧
        run holeFillingEnabled delimiter lines = none) := by
  refine ⟨⟨?_, ?_⟩, run_none_of_single_timestamp holeFillingEnabled delimiter lines⟩
  · intro hsome
    by_cases h4 : ∀ l ∈ lines, 4 ≤ (split delimiter l).length
    · refine ⟨h4, ?_⟩
      by_contra h2
      obtain ⟨_, _, _, _, _, hnone⟩ :=
        run_none_of_single_timestamp holeFillingEnabled delimiter lines h4 h2
      rw [hnone] at hsome
      cases hsome
    · have hshort : ∃ l ∈ lines, (split delimiter l).length < 4 := by
        by_contra hc
        apply h4
        intro l hl
        by_contra hlt
        exact hc ⟨l, hl, by omega⟩
      rw [run_none_of_short_line holeFillingEnabled delimiter lines hshort] at hsome
      cases hsome
  · rintro ⟨h4, h2⟩
    obtain ⟨_, _, _, _, _, _, _, _, hrun⟩ := run_spec holeFillingEnabled delimiter lines h4 h2
    rw [hrun]
    rfl

theorem C17_index_safety_witness :
    ((∀ l ∈ ["1,_,alt,9", "2,_,alt,10", "3,_,alt,11"], 4 ≤ (split "," l).length) ∧
      ∃ l₁ ∈ ["1,_,alt,9", "2,_,alt,10", "3,_,alt,11"],
        ∃ l₂ ∈ ["1,_,alt,9", "2,_,alt,10", "3,_,alt,11"],
        timestampOf "," l₁ ≠ timestampOf "," l₂) ∧
      (run true "," ["1,_,alt,9", "2,_,alt,10", "3,_,alt,11"]).isSome = true ∧
      (∀ l ∈ ["7,_,alt,9", "7,_,spd,10"], 4 ≤ (split "," l).length) ∧
      (¬ ∃ l₁ ∈ ["7,_,alt,9", "7,_,spd,10"], ∃ l₂ ∈ ["7,_,alt,9", "7,_,spd,10"],
        timestampOf "," l₁ ≠ timestampOf "," l₂) ∧
      (∃ messageMap timestampMap, discover "," ["7,_,alt,9", "7,_,spd,10"] = some messageMap ∧
        pivot true "," ["7,_,alt,9", "7,_,spd,10"] = some timestampMap ∧
        QList.at (QMap.values timestampMap) 1 = none ∧
        run true "," ["7,_,alt,9", "7,_,spd,10"] = none) ∧
      (∃ messageMap timestampMap, discover "," [] = some messageMap ∧
        pivot true "," [] = some timestampMap ∧
        QList.at (QMap.values timestampMap) 1 = none ∧
        run true "," [] = none) :=
  ⟨⟨by decide, by decide⟩,
    (C17_index_safety true "," ["1,_,alt,9", "2,_,alt,10", "3,_,alt,11"]).1.2
      ⟨by decide, by decide⟩,
    by decide, by decide,
    (C17_index_safety true "," ["7,_,alt,9", "7,_,spd,10"]).2 (by decide) (by decide),
    (C17_index_safety true "," []).2 (by decide) (by decide)⟩

/-! ## Order independence -/

/-- A strictly ascending list is determined by its elements. -/
theorem sorted_unique {κ : Type} {lt : κ → κ → Bool} (h : StrictTotal lt) :
    ∀ (l₁ l₂ : List κ), l₁.Pairwise (fun a b => lt a b = true) →
    l₂.Pairwise (fun a b => lt a b = true) → (∀ x, x ∈ l₁ ↔ x ∈ l₂) → l₁ = l₂
  | [], [], _, _, _ => rfl
  | [], b :: t, _, _, hm => absurd ((hm b).2 (List.mem_cons_self _ _)) (List.not_mem_nil _)
  | a :: s, [], _, _, hm => absurd ((hm a).1 (List.mem_cons_self _ _)) (List.not_mem_nil _)
  | a :: s, b :: t, h₁, h₂, hm => by
    rw [List.pairwise_cons] at h₁ h₂
    have hab : a = b := by
      rcases List.mem_cons.1 ((hm a).1 (List.mem_cons_self _ _)) with e | ha
      · exact e
      · rcases List.mem_cons.1 ((hm b).2 (List.mem_cons_self _ _)) with e | hb
        · exact e.symm
        · have := h.trans _ _ _ (h₁.1 b hb) (h₂.1 a ha)
          rw [h.irrefl] at this
          cases this
    subst hab
    congr 1
    apply sorted_unique h s t h₁.2 h₂.2
    intro x
    constructor
    · intro hx
      rcases List.mem_cons.1 ((hm x).1 (List.mem_cons_of_mem _ hx)) with e | hx'
      · subst e
        have := h₁.1 x hx
        rw [h.irrefl] at this
        cases this
      · exact hx'
    · intro hx
      rcases List.mem_cons.1 ((hm x).2 (List.mem_cons_of_mem _ hx)) with e | hx'
      · subst e
        have := h₂.1 x hx
        rw [h.irrefl] at this
        cases this
      · exact hx'

theorem schema_eq_of_keys {mm mm' : List (String × Nat)}
    (hk : QMap.keys mm = QMap.keys mm')
    (hv : QMap.values mm = List.range' 1 mm.length)
    (hv' : QMap.values mm' = List.range' 1 mm'.length) : mm = mm' := by
  have hlen : mm.length = mm'.length := by
    have := congrArg List.length hk
    simpa [QMap.keys] using this
  have h₁ : mm = List.zip (QMap.keys mm) (QMap.values mm) := by
    simp only [QMap.keys, QMap.values]
    rw [← List.unzip_fst, ← List.unzip_snd, List.zip_unzip]
  have h₂ : mm' = List.zip (QMap.keys mm') (QMap.values mm') := by
    simp only [QMap.keys, QMap.values]
    rw [← List.unzip_fst, ← List.unzip_snd, List.zip_unzip]
  rw [h₁, h₂, hk, hv, hv', hlen]

/-- The schema of an input of at most 15000 lines does not depend on the order of the
lines. -/
theorem discover_perm (d : String) (lines lines' : List String) (hperm : lines.Perm lines')
    (hlen : lines.length ≤ keySearchLimit)
    (h3 : ∀ l ∈ lines, 3 ≤ (split d l).length) :
    discover d lines' = discover d lines := by
  have hlen' : lines'.length ≤ keySearchLimit := by rw [← hperm.length_eq]; exact hlen
  have ht : lines.take keySearchLimit = lines := List.take_of_length_le hlen
  have ht' : lines'.take keySearchLimit = lines' := List.take_of_length_le hlen'
  obtain ⟨mm, hd, hs, hm, hv⟩ := discover_spec d lines (by rw [ht]; exact h3)
  obtain ⟨mm', hd', hs', hm', hv'⟩ := discover_spec d lines'
    (by rw [ht']; exact fun l hl => h3 l (hperm.mem_iff.2 hl))
  rw [hd, hd']
  congr 1
  apply schema_eq_of_keys _ hv' hv
  apply sorted_unique qstringLess_strictTotal _ _ hs' hs
  intro n
  rw [hm, hm', ht, ht']
  exact (hperm.map (nameOf d)).mem_iff.symm

theorem sortedTimestamps_perm (d : String) (lines lines' : List String)
    (hperm : lines.Perm lines') : sortedTimestamps d lines' = sortedTimestamps d lines := by
  unfold sortedTimestamps
  rw [List.toFinset_eq_of_perm _ _ (hperm.map (timestampOf d))]

theorem mem_schema_of_mem_keys {mm : List (String × Nat)}
    (hs : (QMap.keys mm).Pairwise (fun a b => qstringLess a b = true)) {n : String}
    (hn : n ∈ QMap.keys mm) : (n, QMap.value qstringLess mm n 0) ∈ mm := by
  have h := QMap.eq_map_keys qstringLess_strictTotal mm 0 hs
  rw [h]
  exact List.mem_map.2 ⟨n, hn, by rw [← h]⟩

/-- The pivoted row of a timestamp does not depend on the order of the lines, when no two
lines share timestamp and field name and all field names are in the schema. -/
theorem pivotRow_perm (d : String) (mm : List (String × Nat)) (t : Nat) (init : List String)
    (lines lines' : List String) (hperm : lines.Perm lines')
    (hs : (QMap.keys mm).Pairwise (fun a b => qstringLess a b = true))
    (hv : QMap.values mm = List.range' 1 mm.length)
    (hknown : ∀ l ∈ lines, nameOf d l ∈ QMap.keys mm)
    (hdistinct : lines.Pairwise (fun l l' =>
      ¬ (timestampOf d l = timestampOf d l' ∧ nameOf d l = nameOf d l'))) :
    pivotRow d mm t init lines' = pivotRow d mm t init lines := by
  unfold pivotRow
  symm
  apply hperm.foldl_eq'
  intro x hx y hy z
  by_cases hxy : x = y
  · subst hxy; rfl
  · have hsymm : Symmetric (fun l l' : String =>
        ¬ (timestampOf d l = timestampOf d l' ∧ nameOf d l = nameOf d l')) :=
      fun a b hab hba => hab ⟨hba.1.symm, hba.2.symm⟩
    have hR := hdistinct.forall hsymm hx hy hxy
    by_cases htx : timestampOf d x = t
    · by_cases hty : timestampOf d y = t
      · have hname : nameOf d x ≠ nameOf d y := fun e => hR ⟨htx.trans hty.symm, e⟩
        have hidx : QMap.value qstringLess mm (nameOf d x) 0 ≠
            QMap.value qstringLess mm (nameOf d y) 0 := by
          intro e
          have hmem := mem_schema_of_mem_keys hs (hknown y hy)
          exact hname (((schema_entry hs hv hmem).2.2 (nameOf d x)).1 e)
        simp only [htx, hty, if_true]
        exact List.set_comm _ _ _ hidx
      · simp [htx, hty]
    · simp [htx]

/-- C18: for an input of at most 15000 lines, each of at least 4 tokens, with two distinct
timestamps and no two lines that share both the timestamp and the field name, every
permutation of the lines gives the same run: the same header line and the same rows, and so
the same text written, for both hole filling settings; and the run completes. -/
theorem C18_order_independence (holeFillingEnabled : Bool) (delimiter : String)
    (lines lines' : List String) (hperm : lines.Perm lines')
    (hlen : lines.length ≤ keySearchLimit)
    (h4 : ∀ l ∈ lines, 4 ≤ (split delimiter l).length)
    (h2 : ∃ l₁ ∈ lines, ∃ l₂ ∈ lines, timestampOf delimiter l₁ ≠ timestampOf delimiter l₂)
    (hdistinct : lines.Pairwise (fun l l' =>
      ¬ (timestampOf delimiter l = timestampOf delimiter l' ∧
        nameOf delimiter l = nameOf delimiter l'))) :
    run holeFillingEnabled delimiter lines' = run holeFillingEnabled delimiter lines ∧
      written holeFillingEnabled delimiter lines' =
        written holeFillingEnabled delimiter lines ∧
      (run holeFillingEnabled delimiter lines).isSome = true := by
  have h4' : ∀ l ∈ lines', 4 ≤ (split delimiter l).length :=
    fun l hl => h4 l (hperm.mem_iff.2 hl)
  have h2' : ∃ l₁ ∈ lines', ∃ l₂ ∈ lines',
      timestampOf delimiter l₁ ≠ timestampOf delimiter l₂ := by
    obtain ⟨l₁, h₁, l₂, h₂, hne⟩ := h2
    exact ⟨l₁, hperm.mem_iff.1 h₁, l₂, hperm.mem_iff.1 h₂, hne⟩
  obtain ⟨mm, last, hd, hs, hm, hv, _, hlast, hrun⟩ :=
    run_spec holeFillingEnabled delimiter lines h4 h2
  obtain ⟨mm', last', hd', _, _, _, _, hlast', hrun'⟩ :=
    run_spec holeFillingEnabled delimiter lines' h4' h2'
  have hdisc := discover_perm delimiter lines lines' hperm hlen
    (fun l hl => by have := h4 l hl; omega)
  rw [hd, hd'] at hdisc
  have hmm : mm' = mm := Option.some.inj hdisc
  subst hmm
  have hknown : ∀ l ∈ lines, nameOf delimiter l ∈ QMap.keys mm' := by
    intro l hl
    rw [hm, List.take_of_length_le hlen]
    exact List.mem_map_of_mem _ hl
  have hT : pivotTable holeFillingEnabled delimiter mm' lines' =
      pivotTable holeFillingEnabled delimiter mm' lines := by
    unfold pivotTable
    rw [sortedTimestamps_perm delimiter lines lines' hperm]
    apply List.map_congr_left
    intro t _
    rw [pivotRow_perm delimiter mm' t _ lines lines' hperm hs hv hknown hdistinct]
  rw [hT, hlast] at hlast'
  have hl : last' = last := (Option.some.inj hlast').symm
  have hrr : run holeFillingEnabled delimiter lines' = run holeFillingEnabled delimiter lines := by
    rw [hrun, hrun', hT, hl]
  refine ⟨hrr, by simp only [written, hrr], ?_⟩
  rw [hrun]
  rfl

theorem C18_order_independence_witness :
    ["1,_,alt,9", "2,_,spd,5", "3,_,alt,11", "3,_,spd,6"].Perm
        ["3,_,spd,6", "2,_,spd,5", "1,_,alt,9", "3,_,alt,11"] ∧
      ["1,_,alt,9", "2,_,spd,5", "3,_,alt,11", "3,_,spd,6"].length ≤ keySearchLimit ∧
      (∀ l ∈ ["1,_,alt,9", "2,_,spd,5", "3,_,alt,11", "3,_,spd,6"],
        4 ≤ (split "," l).length) ∧
      (∃ l₁ ∈ ["1,_,alt,9", "2,_,spd,5", "3,_,alt,11", "3,_,spd,6"],
        ∃ l₂ ∈ ["1,_,alt,9", "2,_,spd,5", "3,_,alt,11", "3,_,spd,6"],
        timestampOf "," l₁ ≠ timestampOf "," l₂) ∧
      ["1,_,alt,9", "2,_,spd,5", "3,_,alt,11", "3,_,spd,6"].Pairwise (fun l l' =>
        ¬ (timestampOf "," l = timestampOf "," l' ∧ nameOf "," l = nameOf "," l')) ∧
      run true "," ["3,_,spd,6", "2,_,spd,5", "1,_,alt,9", "3,_,alt,11"] =
        run true "," ["1,_,alt,9", "2,_,spd,5", "3,_,alt,11", "3,_,spd,6"] ∧
      written true "," ["3,_,spd,6", "2,_,spd,5", "1,_,alt,9", "3,_,alt,11"] =
        written true "," ["1,_,alt,9", "2,_,spd,5", "3,_,alt,11", "3,_,spd,6"] ∧
      (run true "," ["1,_,alt,9", "2,_,spd,5", "3,_,alt,11", "3,_,spd,6"]).isSome = true :=
  ⟨by decide, by decide, by decide, by decide, by decide,
    C18_order_independence true "," _ _ (by decide) (by decide) (by decide) (by decide)
      (by decide)⟩

end LogCompressor
